import Mathlib

/-!
Shallow embedding of the rule110_turing repository: a two-symbol Turing
machine (`binary_turing.py`), a tag system (`tag_system.py`), a cyclic tag
system (`cyclic_tag.py`), the reducers between them (`turing_to_tag.py`,
`tag_to_cyclic.py`) and the two-level synchronizer (`assemble_to_turing.py`),
together with theorems settling the specification claims.
-/

set_option maxHeartbeats 1000000

/-! ## binary_turing.py : data model -/

/-- `TuringSymbol` enum: `ZERO = 0`, `ONE = 1`. -/
inductive TuringSymbol where
  | ZERO
  | ONE
deriving DecidableEq, Repr

/-- `TuringDirection` enum: `RIGHT = 0`, `LEFT = 1`. -/
inductive TuringDirection where
  | RIGHT
  | LEFT
deriving DecidableEq, Repr

/-- `TuringTransition` dataclass: (write, move, next_state). -/
structure TuringTransition where
  write : TuringSymbol
  move : TuringDirection
  next_state : Nat
deriving DecidableEq, Repr

/-- `TuringStateTransition` dataclass: a state id together with its two
transitions, indexed by the symbol read (`ZERO` uses the first, `ONE` the
second). -/
structure TuringStateTransition where
  state : Nat
  transitions : TuringTransition × TuringTransition
deriving DecidableEq, Repr

/-- `TuringTapeTuple` dataclass: `(state, left_number, right_number, head)`. -/
structure TuringTapeTuple where
  state : Nat
  left_number : Nat
  right_number : Nat
  head : TuringSymbol
deriving DecidableEq, Repr

/-- A `TuringTransitionTable` is a read-only mapping built from a list of
`TuringStateTransition`s (`state_table` dict, keyed by state id, in insertion
order).  We keep the underlying list; lookup is first-match, which agrees
with the Python dict since construction asserts unique state ids. -/
def lookupState (tbl : List TuringStateTransition) (k : Nat) :
    Option TuringStateTransition :=
  match tbl with
  | [] => none
  | st :: rest => if st.state = k then some st else lookupState rest k

/-! ## tag_system.py -/

/-- Association-list lookup, first match first: the model of a Python dict
lookup (`d[k]`, returning `none` where Python raises `KeyError`). -/
def alookup {α β : Type} [DecidableEq α] (l : List (α × β)) (k : α) : Option β :=
  match l with
  | [] => none
  | (a, b) :: rest => if a = k then some b else alookup rest k

/-- `TagSystem`: a transition dict (association list, insertion-ordered, as a
Python dict is), the deletion arity `num` (Python default 2), and the tape
(`TagSysTape.tape` list). -/
structure TagSystem (α : Type) where
  transition : List (α × List α)
  num : Nat
  tape : List α
deriving DecidableEq, Repr

/-- The two abnormal outcomes of `TagSystem.__next__`: `halted` is the
`StopIteration` raised when the head symbol has no production (`KeyError`
caught and converted), `indexError` is the uncaught `IndexError` from
`TagSysTape.head` on an empty tape. -/
inductive TagErr where
  | halted
  | indexError
deriving DecidableEq, Repr

/-- `TagSystem.symbol_list`: the keys of the transition dict, in order. -/
def TagSystem.symbol_list {α : Type} (s : TagSystem α) : List α :=
  s.transition.map Prod.fst

/-- `TagSystem.__next__`: read `self.tape.head` (= `tape[0]`, `IndexError` on
an empty tape, not caught); look up its production (`KeyError` is caught and
re-raised as `StopIteration`); then `self.tape.tag(production)` (append to the
back) followed by `self.tape.remove(self.num)` (drop `num` from the front).
The returned pair is (state after the call, abnormal outcome if any); on an
abnormal outcome the state is unchanged because the exception fires before
any mutation. -/
def TagSystem.step {α : Type} [DecidableEq α] (s : TagSystem α) :
    TagSystem α × Option TagErr :=
  match s.tape with
  | [] => (s, some TagErr.indexError)
  | h :: _ =>
    match alookup s.transition h with
    | none => (s, some TagErr.halted)
    | some prod => ({ s with tape := (s.tape ++ prod).drop s.num }, none)

/-- Successful-step view of `TagSystem.__next__`: `some` of the new state
when the step raises nothing, `none` when it raises. -/
def TagSystem.stepO {α : Type} [DecidableEq α] (s : TagSystem α) :
    Option (TagSystem α) :=
  match s.step with
  | (s', none) => some s'
  | (_, some _) => none

/-- Run `n` successful tag steps. -/
def tagRun {α : Type} [DecidableEq α] (n : Nat) (s : TagSystem α) :
    Option (TagSystem α) :=
  match n with
  | 0 => some s
  | n + 1 =>
    match s.stepO with
    | none => none
    | some s' => tagRun n s'

/-! ## Theorems: C5, C7, C10 (tag-engine step semantics) -/

theorem TagSystem.step_cons {α : Type} [DecidableEq α] (s : TagSystem α)
    (h : α) (t : List α) (p : List α) (htape : s.tape = h :: t)
    (hp : alookup s.transition h = some p) :
    s.step = ({ s with tape := (s.tape ++ p).drop s.num }, none) := by
  unfold TagSystem.step
  rw [htape]
  simp only [← htape, hp]

/-- C5 counterexample input: transition `{"a": ["b","c"]}`, `num = 2`,
tape `["a"]` (a tape holding fewer than `num` symbols). -/
def c5ex : TagSystem String :=
  { transition := [("a", ["b", "c"])], num := 2, tape := ["a"] }

/-- C5 (counterexample): on the one-symbol tape `["a"]` with production
`["b","c"]` and `num = 2`, the step does NOT remove only the original
leading symbols: the result is `["c"]`, so one symbol of the newly appended
production was removed in the same step, refuting the claim's "for every
tape, including tapes holding fewer than num symbols". -/
theorem c5_short_tape_eats_production :
    (c5ex.step).1.tape = ["c"] ∧
    (c5ex.step).1.tape ≠ c5ex.tape.drop c5ex.num ++ ["b", "c"] := by
  constructor
  · rfl
  · decide

/-- C5 (amended): for every `TagSystem` step on a tape whose front symbol has
a production, the production is appended to the back before the front prefix
is removed, and — provided the tape holds at least `num` symbols — the prefix
removed is exactly the `num` original leading symbols, so the newly appended
production is never itself removed in the same step. -/
theorem tag_step_append_then_remove {α : Type} [DecidableEq α]
    (s : TagSystem α) (h : α) (t : List α) (p : List α)
    (htape : s.tape = h :: t) (hp : alookup s.transition h = some p)
    (hlen : s.num ≤ s.tape.length) :
    (s.step).1.tape = s.tape.drop s.num ++ p ∧ (s.step).2 = none := by
  rw [TagSystem.step_cons s h t p htape hp]
  refine ⟨?_, rfl⟩
  simpa using List.drop_append_of_le_length hlen

/-- Witness for `tag_step_append_then_remove`: a concrete two-symbol tape. -/
theorem tag_step_append_then_remove_witness :
    ((({ transition := [("a", ["b", "c"])], num := 2, tape := ["a", "a"] } :
        TagSystem String).step).1.tape = ["b", "c"]) := by
  have := tag_step_append_then_remove
    ({ transition := [("a", ["b", "c"])], num := 2, tape := ["a", "a"] } :
      TagSystem String) "a" ["a"] ["b", "c"] rfl rfl (by decide)
  simpa using this.1

/-- C7: stepping a `TagSystem` whose non-empty tape's front symbol has no
production signals the distinct catchable `halted` condition (StopIteration,
not the underlying lookup error), leaving tape, transition and `num`
unchanged; and when the front symbol does have a production, no error is
signalled. -/
theorem tag_step_halted_or_ok {α : Type} [DecidableEq α]
    (s : TagSystem α) (h : α) (t : List α) (htape : s.tape = h :: t) :
    (alookup s.transition h = none →
      s.step = (s, some TagErr.halted)) ∧
    (∀ p, alookup s.transition h = some p → (s.step).2 = none) := by
  constructor
  · intro hno
    unfold TagSystem.step
    rw [htape]
    simp only [← htape, hno]
  · intro p hp
    rw [TagSystem.step_cons s h t p htape hp]

/-- Witness for `tag_step_halted_or_ok`: a system whose head symbol `"z"` has
no production halts unchanged. -/
theorem tag_step_halted_or_ok_witness :
    (({ transition := [("a", ["b"])], num := 2, tape := ["z"] } :
        TagSystem String).step = ({ transition := [("a", ["b"])], num := 2, tape := ["z"] }, some TagErr.halted)) := by
  exact (tag_step_halted_or_ok
    ({ transition := [("a", ["b"])], num := 2, tape := ["z"] } : TagSystem String)
    "z" [] rfl).1 rfl

/-- C10: stepping a `TagSystem` whose tape is empty does not signal the
catchable `halted` (StopIteration) condition: the front-symbol access fails
with the distinct, uncaught index error, leaving the system unchanged. -/
theorem tag_step_empty_tape_index_error {α : Type} [DecidableEq α]
    (s : TagSystem α) (htape : s.tape = []) :
    s.step = (s, some TagErr.indexError) ∧
    (s.step).2 ≠ some TagErr.halted := by
  constructor
  · unfold TagSystem.step
    rw [htape]
  · unfold TagSystem.step
    rw [htape]
    simp

/-- Witness for `tag_step_empty_tape_index_error`. -/
theorem tag_step_empty_tape_index_error_witness :
    (({ transition := [("a", ["b"])], num := 2, tape := [] } :
        TagSystem String).step
      = ({ transition := [("a", ["b"])], num := 2, tape := [] }, some TagErr.indexError)) :=
  (tag_step_empty_tape_index_error
    ({ transition := [("a", ["b"])], num := 2, tape := [] } : TagSystem String)
    rfl).1

/-! ## binary_turing.py : the tape -/

/-- `BinaryTuringTape`: the materialized window `tape`, the absolute head
coordinate `head`, and `tape_offset`, the drift of the window origin from
the absolute origin.  Both coordinates are Python ints and may go negative,
so they are modelled as `Int`. -/
structure BinaryTuringTape where
  tape : List TuringSymbol
  head : Int
  tape_offset : Int
deriving DecidableEq, Repr

/-- `_head_addr = head - tape_offset`: the in-window index of the head. -/
def BinaryTuringTape.headAddr (t : BinaryTuringTape) : Int :=
  t.head - t.tape_offset

/-- `head_symbol` getter: `tape[_head_addr]`.  In every reachable state the
index is in range; the `ZERO` default only totalizes the model. -/
def BinaryTuringTape.head_symbol (t : BinaryTuringTape) : TuringSymbol :=
  t.tape.getD t.headAddr.toNat TuringSymbol.ZERO

/-- `head_symbol` setter: `tape[_head_addr] = value` (out-of-range writes
cannot occur in reachable states; `List.set` ignores them). -/
def BinaryTuringTape.write (t : BinaryTuringTape) (v : TuringSymbol) :
    BinaryTuringTape :=
  { t with tape := t.tape.set t.headAddr.toNat v }

/-- `_move_left`: trim the final cell when the head sits on it and it is
`ZERO`; decrement `head`; if the head fell off the left edge, shift the
offset and prepend a `ZERO` cell. -/
def BinaryTuringTape.moveLeft (t : BinaryTuringTape) : BinaryTuringTape :=
  let tp := if t.headAddr = (t.tape.length : Int) - 1 ∧
               t.tape.getLast? = some TuringSymbol.ZERO
            then t.tape.dropLast else t.tape
  let h := t.head - 1
  if h < t.tape_offset then
    { tape := TuringSymbol.ZERO :: tp, head := h, tape_offset := t.tape_offset - 1 }
  else
    { tape := tp, head := h, tape_offset := t.tape_offset }

/-- `_move_right`: trim the first cell when the head sits on it and it is
`ZERO` (shifting the offset); increment `head`; if the head fell off the
right edge, append a `ZERO` cell. -/
def BinaryTuringTape.moveRight (t : BinaryTuringTape) : BinaryTuringTape :=
  let p := if t.head = t.tape_offset ∧ t.tape.head? = some TuringSymbol.ZERO
           then (t.tape.tail, t.tape_offset + 1) else (t.tape, t.tape_offset)
  let h := t.head + 1
  if (p.1.length : Int) ≤ h - p.2 then
    { tape := p.1 ++ [TuringSymbol.ZERO], head := h, tape_offset := p.2 }
  else
    { tape := p.1, head := h, tape_offset := p.2 }

/-- `move_tape`. -/
def BinaryTuringTape.move (t : BinaryTuringTape) (d : TuringDirection) :
    BinaryTuringTape :=
  match d with
  | TuringDirection.LEFT => t.moveLeft
  | TuringDirection.RIGHT => t.moveRight

/-- Python `int.bit_length`. -/
def bitLength (n : Nat) : Nat := if n = 0 then 0 else n.log2 + 1

/-- The left loop of `from_tape_tuple`: `for i in range(bit_length, 0, -1)`,
appending `ONE` and clearing the top bit of the running value when
`i == value.bit_length()`, else appending `ZERO`.  First argument is the
loop counter `i`, second the running value. -/
def fromTupleLeft : Nat → Nat → List TuringSymbol
  | 0, _ => []
  | i + 1, v =>
    if i + 1 = bitLength v then
      TuringSymbol.ONE :: fromTupleLeft i (v ^^^ (1 <<< (bitLength v - 1)))
    else
      TuringSymbol.ZERO :: fromTupleLeft i v

/-- The right loop of `from_tape_tuple`: peel bits least-significant first
(`right_number & 1`, then `right_number >>= 1`). -/
def fromTupleRight : Nat → Nat → List TuringSymbol
  | 0, _ => []
  | i + 1, v =>
    (if v &&& 1 = 0 then TuringSymbol.ZERO else TuringSymbol.ONE) ::
      fromTupleRight i (v >>> 1)

/-- `BinaryTuringTape.from_tape_tuple`: left bits (most significant first),
then the head cell, then right bits (least significant first); the head
coordinate is `left_number.bit_length()` and the offset 0. -/
def BinaryTuringTape.from_tape_tuple (tt : TuringTapeTuple) : BinaryTuringTape :=
  { tape := fromTupleLeft (bitLength tt.left_number) tt.left_number
      ++ [tt.head]
      ++ fromTupleRight (bitLength tt.right_number) tt.right_number,
    head := (bitLength tt.left_number : Int),
    tape_offset := 0 }

/-- The accumulator loop of the `left_number` property:
`left <<= 1; if symbol == ONE: left |= 1` (the or of 1 into an even number
is `+ 1`). -/
def leftNumAux : List TuringSymbol → Nat → Nat
  | [], acc => acc
  | s :: rest, acc =>
    leftNumAux rest (2 * acc + if s = TuringSymbol.ONE then 1 else 0)

/-- `left_number` property: fold over the cells strictly before the head
(the Python loop breaks at index `_head_addr`). -/
def BinaryTuringTape.left_number (t : BinaryTuringTape) : Nat :=
  leftNumAux (t.tape.take t.headAddr.toNat) 0

/-- Least-significant-first value of a bit list: the `right_number` loop ors
`1 << (i - _head_addr - 1)` for each `ONE` at window index `i` past the
head, which is exactly this sum. -/
def rightVal : List TuringSymbol → Nat
  | [] => 0
  | s :: rest => (if s = TuringSymbol.ONE then 1 else 0) + 2 * rightVal rest

/-- `right_number` property. -/
def BinaryTuringTape.right_number (t : BinaryTuringTape) : Nat :=
  rightVal (t.tape.drop (t.headAddr.toNat + 1))

/-! ### Arithmetic helpers for the round-trip -/

theorem two_pow_add_xor {k a : Nat} (h : a < 2 ^ k) :
    (2 ^ k + a) ^^^ 2 ^ k = a := by
  apply Nat.eq_of_testBit_eq
  intro i
  rcases Nat.lt_trichotomy i k with hi | hi | hi
  · rw [Nat.testBit_xor, Nat.testBit_two_pow_add_gt hi,
      Nat.testBit_two_pow_of_ne (Nat.ne_of_gt hi)]
    simp
  · subst hi
    rw [Nat.testBit_xor, Nat.testBit_two_pow_add_eq,
      Nat.testBit_lt_two_pow h, Nat.testBit_two_pow_self]
    rfl
  · have hk : (2 : Nat) ^ (k + 1) ≤ 2 ^ i := Nat.pow_le_pow_right (by norm_num) hi
    have h1 : 2 ^ k + a < 2 ^ i := by
      have : (2 : Nat) ^ (k + 1) = 2 ^ k + 2 ^ k := by rw [pow_succ]; ring
      omega
    have h2 : a < 2 ^ i := by
      have : (2 : Nat) ^ k ≤ 2 ^ i := Nat.pow_le_pow_right (by norm_num) (le_of_lt hi)
      omega
    rw [Nat.testBit_xor, Nat.testBit_lt_two_pow h1,
      Nat.testBit_two_pow_of_ne (Nat.ne_of_lt hi), Nat.testBit_lt_two_pow h2]
    rfl

theorem bitLength_le {v k : Nat} : bitLength v ≤ k ↔ v < 2 ^ k := by
  unfold bitLength
  split
  · subst ‹v = 0›
    simp [Nat.pos_pow_of_pos, Nat.pos_of_ne_zero]
  · rename_i hv
    constructor
    · intro h
      exact (Nat.log2_lt hv).mp (by omega)
    · intro h
      have := (Nat.log2_lt hv).mpr h
      omega

theorem fromTupleLeft_length : ∀ (k v : Nat), (fromTupleLeft k v).length = k := by
  intro k
  induction k with
  | zero => intro v; rfl
  | succ i ih =>
    intro v
    unfold fromTupleLeft
    split <;> simp [ih]

theorem fromTupleLeft_val : ∀ (k v a : Nat), bitLength v ≤ k →
    leftNumAux (fromTupleLeft k v) a = a * 2 ^ k + v := by
  intro k
  induction k with
  | zero =>
    intro v a h
    have hv : v = 0 := by
      have := bitLength_le.mp h
      omega
    subst hv
    simp [fromTupleLeft, leftNumAux]
  | succ k ih =>
    intro v a h
    by_cases hb : k + 1 = bitLength v
    · have hv0 : v ≠ 0 := by
        intro h0
        subst h0
        simp [bitLength] at hb
      have hlog : v.log2 = k := by
        unfold bitLength at hb
        rw [if_neg hv0] at hb
        omega
      have h2k : 2 ^ k ≤ v := by
        have := Nat.log2_self_le hv0
        rwa [hlog] at this
      have hlt : v < 2 ^ (k + 1) := by
        have := @Nat.lt_log2_self v
        rwa [hlog] at this
      have hp : (2 : Nat) ^ (k + 1) = 2 ^ k + 2 ^ k := by rw [pow_succ]; ring
      have hshift : 1 <<< (bitLength v - 1) = 2 ^ k := by
        rw [Nat.shiftLeft_eq, one_mul]
        unfold bitLength
        rw [if_neg hv0, hlog]
        simp
      have hxor : v ^^^ (1 <<< (bitLength v - 1)) = v - 2 ^ k := by
        rw [hshift]
        have hev : v = 2 ^ k + (v - 2 ^ k) := by omega
        calc v ^^^ 2 ^ k = (2 ^ k + (v - 2 ^ k)) ^^^ 2 ^ k := by rw [← hev]
        _ = v - 2 ^ k := two_pow_add_xor (by omega)
      unfold fromTupleLeft
      rw [if_pos hb, hxor]
      show leftNumAux (fromTupleLeft k (v - 2 ^ k)) (2 * a + 1) = _
      rw [ih (v - 2 ^ k) (2 * a + 1) (bitLength_le.mpr (by omega))]
      have e1 : (2 * a + 1) * 2 ^ k = 2 * (a * 2 ^ k) + 2 ^ k := by ring
      have e2 : a * 2 ^ (k + 1) = 2 * (a * 2 ^ k) := by ring
      omega
    · have hle : bitLength v ≤ k := by omega
      unfold fromTupleLeft
      rw [if_neg hb]
      show leftNumAux (fromTupleLeft k v) (2 * a + 0) = _
      rw [ih v (2 * a + 0) hle]
      have e1 : (2 * a + 0) * 2 ^ k = 2 * (a * 2 ^ k) := by ring
      have e2 : a * 2 ^ (k + 1) = 2 * (a * 2 ^ k) := by ring
      omega

theorem fromTupleRight_val : ∀ (k v : Nat),
    rightVal (fromTupleRight k v) = v % 2 ^ k := by
  intro k
  induction k with
  | zero => intro v; simp [fromTupleRight, rightVal, Nat.mod_one]
  | succ k ih =>
    intro v
    unfold fromTupleRight
    show rightVal (_ :: _) = _
    rw [rightVal, ih (v >>> 1)]
    rw [Nat.shiftRight_one, Nat.and_one_is_mod]
    rw [show (2 : Nat) ^ (k + 1) = 2 * 2 ^ k by rw [pow_succ]; ring, Nat.mod_mul]
    rcases Nat.mod_two_eq_zero_or_one v with h | h <;> rw [h] <;> simp <;> omega

theorem fromTupleRight_length : ∀ (k v : Nat), (fromTupleRight k v).length = k := by
  intro k
  induction k with
  | zero => intro v; rfl
  | succ i ih => intro v; unfold fromTupleRight; simp [ih]

/-- C3: for every `TuringTapeTuple` (`left_number`, `right_number` being
naturals and `head` a `TuringSymbol`), building the tape with
`from_tape_tuple` and reading back `left_number`, `right_number` and
`head_symbol` returns exactly the original components. -/
theorem from_tape_tuple_roundtrip (tt : TuringTapeTuple) :
    (BinaryTuringTape.from_tape_tuple tt).left_number = tt.left_number ∧
    (BinaryTuringTape.from_tape_tuple tt).right_number = tt.right_number ∧
    (BinaryTuringTape.from_tape_tuple tt).head_symbol = tt.head := by
  set L := tt.left_number with hL
  set R := tt.right_number with hR
  have haddr : (BinaryTuringTape.from_tape_tuple tt).headAddr.toNat = bitLength L := by
    simp [BinaryTuringTape.from_tape_tuple, BinaryTuringTape.headAddr]
  have htape : (BinaryTuringTape.from_tape_tuple tt).tape
      = fromTupleLeft (bitLength L) L ++ ([tt.head] ++ fromTupleRight (bitLength R) R) := by
    simp [BinaryTuringTape.from_tape_tuple]
  refine ⟨?_, ?_, ?_⟩
  · rw [BinaryTuringTape.left_number, haddr, htape,
      List.take_left' (fromTupleLeft_length _ _)]
    rw [fromTupleLeft_val (bitLength L) L 0 (le_refl _)]
    simp
  · rw [BinaryTuringTape.right_number, haddr, htape]
    have hdrop : (fromTupleLeft (bitLength L) L ++ ([tt.head] ++ fromTupleRight (bitLength R) R)).drop (bitLength L + 1)
        = fromTupleRight (bitLength R) R := by
      have h1 : fromTupleLeft (bitLength L) L ++ ([tt.head] ++ fromTupleRight (bitLength R) R)
          = (fromTupleLeft (bitLength L) L ++ [tt.head]) ++ fromTupleRight (bitLength R) R := by
        simp
      rw [h1, List.drop_left']
      simp [fromTupleLeft_length]
    rw [hdrop, fromTupleRight_val]
    exact Nat.mod_eq_of_lt (bitLength_le.mp (le_refl _))
  · rw [BinaryTuringTape.head_symbol, haddr, htape]
    rw [List.getD_eq_getElem?_getD]
    rw [List.getElem?_append_right (by simp [fromTupleLeft_length])]
    simp [fromTupleLeft_length]

/-! ## C8 : the representation invariant of the materialized window -/

/-- The representation invariant of `BinaryTuringTape`: the head index is in
range, the window's first cell is a `ONE` or the head cell, and the window's
last cell is a `ONE` or the head cell — no redundant boundary `ZERO` cell
is stored. -/
def BinaryTuringTape.valid (t : BinaryTuringTape) : Prop :=
  0 ≤ t.headAddr ∧ t.headAddr < (t.tape.length : Int) ∧
  (t.tape[0]? = some TuringSymbol.ONE ∨ t.headAddr = 0) ∧
  (t.tape[t.tape.length - 1]? = some TuringSymbol.ONE ∨
    t.headAddr + 1 = (t.tape.length : Int))

theorem TuringSymbol.ne_zero_eq_one {s : TuringSymbol}
    (h : s ≠ TuringSymbol.ZERO) : s = TuringSymbol.ONE := by
  cases s
  · exact absurd rfl h
  · rfl

theorem BinaryTuringTape.write_valid {t : BinaryTuringTape}
    (hv : t.valid) (v : TuringSymbol) : (t.write v).valid := by
  obtain ⟨h0, h1, h2, h3⟩ := hv
  unfold BinaryTuringTape.write
  unfold BinaryTuringTape.valid at *
  dsimp only
  unfold BinaryTuringTape.headAddr at *
  rw [List.length_set]
  refine ⟨h0, h1, ?_, ?_⟩
  · rcases h2 with h2 | h2
    · by_cases hz : t.head - t.tape_offset = 0
      · exact Or.inr hz
      · left
        rw [List.getElem?_set_ne (by omega)]
        exact h2
    · exact Or.inr h2
  · rcases h3 with h3 | h3
    · by_cases hz : t.head - t.tape_offset + 1 = (t.tape.length : Int)
      · exact Or.inr hz
      · left
        rw [List.getElem?_set_ne (by omega)]
        exact h3
    · exact Or.inr h3

/-- The last window cell of a valid tape that is about to be inspected: if
the head is not on it, it is a `ONE`. -/
theorem BinaryTuringTape.last_one_of_no_trim {t : BinaryTuringTape}
    (h0 : 0 ≤ t.headAddr) (h1 : t.headAddr < (t.tape.length : Int))
    (h3 : t.tape[t.tape.length - 1]? = some TuringSymbol.ONE ∨
      t.headAddr + 1 = (t.tape.length : Int))
    (htrim : ¬(t.headAddr = (t.tape.length : Int) - 1 ∧
      t.tape.getLast? = some TuringSymbol.ZERO)) :
    t.tape[t.tape.length - 1]? = some TuringSymbol.ONE := by
  rcases h3 with h3 | h3
  · exact h3
  · have hlen1' : t.tape.length - 1 < t.tape.length := by omega
    have hsome : t.tape.getLast? = some (t.tape.get ⟨t.tape.length - 1, hlen1'⟩) := by
      rw [List.getLast?_eq_getElem?]
      simp [List.getElem?_eq_getElem hlen1']
    have hne : t.tape.get ⟨t.tape.length - 1, hlen1'⟩ ≠ TuringSymbol.ZERO := by
      intro hc
      exact htrim ⟨by omega, by rw [hsome, hc]⟩
    rw [List.getLast?_eq_getElem?] at hsome
    rw [hsome]
    exact congrArg some (TuringSymbol.ne_zero_eq_one hne)

theorem BinaryTuringTape.moveLeft_valid {t : BinaryTuringTape}
    (hv : t.valid) : t.moveLeft.valid := by
  obtain ⟨h0, h1, h2, h3⟩ := hv
  have hlen1 : 1 ≤ t.tape.length := by omega
  unfold BinaryTuringTape.moveLeft
  by_cases htrim : t.headAddr = (t.tape.length : Int) - 1 ∧
      t.tape.getLast? = some TuringSymbol.ZERO
  · -- the final cell (under the head, a ZERO) is trimmed
    rw [if_pos htrim]
    obtain ⟨hta, _⟩ := htrim
    by_cases hoff : t.head - 1 < t.tape_offset
    · -- fell off the left edge: the tape was the single cell [ZERO]
      rw [if_pos hoff]
      have ha0 : t.headAddr = 0 := by
        unfold BinaryTuringTape.headAddr at *
        omega
      have hn1 : t.tape.length = 1 := by
        unfold BinaryTuringTape.headAddr at *
        omega
      have hdrop : t.tape.dropLast = [] := by
        rw [List.dropLast_eq_take, hn1]
        simp
      unfold BinaryTuringTape.valid BinaryTuringTape.headAddr at *
      dsimp only
      rw [hdrop]
      refine ⟨by omega, by simp <;> omega, Or.inr (by omega), Or.inr (by simp <;> omega)⟩
    · rw [if_neg hoff]
      have ha1 : 1 ≤ t.headAddr := by
        unfold BinaryTuringTape.headAddr at *
        omega
      have hn2 : 2 ≤ t.tape.length := by
        unfold BinaryTuringTape.headAddr at *
        omega
      have hlend : t.tape.dropLast.length = t.tape.length - 1 := by simp
      unfold BinaryTuringTape.valid BinaryTuringTape.headAddr at *
      dsimp only
      rw [hlend]
      refine ⟨by omega, by omega, ?_, Or.inr (by omega)⟩
      left
      rw [List.dropLast_eq_take, List.getElem?_take, if_pos (by omega)]
      rcases h2 with h2 | h2
      · exact h2
      · omega
  · rw [if_neg htrim]
    have hlast : t.tape[t.tape.length - 1]? = some TuringSymbol.ONE :=
      BinaryTuringTape.last_one_of_no_trim h0 h1 h3 htrim
    by_cases hoff : t.head - 1 < t.tape_offset
    · -- fell off the left edge: prepend a ZERO, head stays on cell 0
      rw [if_pos hoff]
      have ha0 : t.headAddr = 0 := by
        unfold BinaryTuringTape.headAddr at *
        omega
      unfold BinaryTuringTape.valid BinaryTuringTape.headAddr at *
      dsimp only
      refine ⟨by omega, by simp; omega, Or.inr (by omega), ?_⟩
      left
      show (TuringSymbol.ZERO :: t.tape)[(TuringSymbol.ZERO :: t.tape).length - 1]?
          = some TuringSymbol.ONE
      have he : (TuringSymbol.ZERO :: t.tape).length - 1 = (t.tape.length - 1) + 1 := by
        simp
        omega
      rw [he, List.getElem?_cons_succ]
      exact hlast
    · rw [if_neg hoff]
      have ha1 : 1 ≤ t.headAddr := by
        unfold BinaryTuringTape.headAddr at *
        omega
      unfold BinaryTuringTape.valid BinaryTuringTape.headAddr at *
      dsimp only
      refine ⟨by omega, by omega, ?_, Or.inl hlast⟩
      left
      rcases h2 with h2 | h2
      · exact h2
      · omega

/-- The first window cell of a valid tape when no front trim fires: if the
head is not on it, it is a `ONE`. -/
theorem BinaryTuringTape.first_one_of_no_trim {t : BinaryTuringTape}
    (hlen1 : 1 ≤ t.tape.length)
    (h2 : t.tape[0]? = some TuringSymbol.ONE ∨ t.headAddr = 0)
    (htrim : ¬(t.head = t.tape_offset ∧ t.tape.head? = some TuringSymbol.ZERO)) :
    t.tape[0]? = some TuringSymbol.ONE := by
  rcases h2 with h2 | h2
  · exact h2
  · have heq : t.head = t.tape_offset := by
      unfold BinaryTuringTape.headAddr at h2
      omega
    have hpos : 0 < t.tape.length := by omega
    have hsome : t.tape[0]? = some (t.tape.get ⟨0, hpos⟩) := by
      simp [List.getElem?_eq_getElem hpos]
    have hne : t.tape.get ⟨0, hpos⟩ ≠ TuringSymbol.ZERO := by
      intro hc
      apply htrim
      refine ⟨heq, ?_⟩
      rw [List.head?_eq_getElem?, hsome, hc]
    rw [hsome]
    exact congrArg some (TuringSymbol.ne_zero_eq_one hne)

theorem BinaryTuringTape.moveRight_valid {t : BinaryTuringTape}
    (hv : t.valid) : t.moveRight.valid := by
  obtain ⟨h0, h1, h2, h3⟩ := hv
  have hlen1 : 1 ≤ t.tape.length := by
    by_contra h
    have : t.tape.length = 0 := by omega
    rw [this] at h1
    omega
  unfold BinaryTuringTape.moveRight
  by_cases htrim : t.head = t.tape_offset ∧ t.tape.head? = some TuringSymbol.ZERO
  · -- the first cell (under the head, a ZERO) is trimmed
    rw [if_pos htrim]
    dsimp only
    have ha0 : t.headAddr = 0 := by
      unfold BinaryTuringTape.headAddr
      omega
    have hlent : t.tape.tail.length = t.tape.length - 1 := by simp
    by_cases hext : (t.tape.tail.length : Int) ≤ t.head + 1 - (t.tape_offset + 1)
    · -- the whole tape was the single cell [ZERO]
      rw [if_pos hext]
      have hn1 : t.tape.length = 1 := by
        unfold BinaryTuringTape.headAddr at ha0
        omega
      have htl : t.tape.tail = [] := by
        have : t.tape.tail.length = 0 := by omega
        exact List.length_eq_zero.mp this
      unfold BinaryTuringTape.valid BinaryTuringTape.headAddr at *
      dsimp only
      rw [htl]
      refine ⟨by omega, by simp <;> omega, Or.inr (by omega), Or.inr (by simp <;> omega)⟩
    · rw [if_neg hext]
      have hn2 : 2 ≤ t.tape.length := by
        unfold BinaryTuringTape.headAddr at ha0
        omega
      have hlast : t.tape.tail[t.tape.tail.length - 1]? = t.tape[t.tape.length - 1]? := by
        rw [List.getElem?_tail, hlent]
        congr 1
        omega
      unfold BinaryTuringTape.valid BinaryTuringTape.headAddr at *
      dsimp only
      rw [hlent]
      refine ⟨by omega, by omega, Or.inr (by omega), ?_⟩
      left
      rw [hlent] at hlast
      rw [hlast]
      rcases h3 with h3 | h3
      · exact h3
      · omega
  · rw [if_neg htrim]
    dsimp only
    have hfirst : t.tape[0]? = some TuringSymbol.ONE :=
      BinaryTuringTape.first_one_of_no_trim hlen1 h2 htrim
    by_cases hext : (t.tape.length : Int) ≤ t.head + 1 - t.tape_offset
    · -- the head moves just past the right edge: append a ZERO cell
      rw [if_pos hext]
      have ha : t.headAddr = (t.tape.length : Int) - 1 := by
        unfold BinaryTuringTape.headAddr at *
        omega
      unfold BinaryTuringTape.valid BinaryTuringTape.headAddr at *
      dsimp only
      have hlapp : (t.tape ++ [TuringSymbol.ZERO]).length = t.tape.length + 1 := by simp
      rw [hlapp]
      refine ⟨by omega, by omega, ?_, Or.inr (by omega)⟩
      left
      rw [List.getElem?_append_left (by omega)]
      exact hfirst
    · rw [if_neg hext]
      unfold BinaryTuringTape.valid BinaryTuringTape.headAddr at *
      dsimp only
      refine ⟨by omega, by omega, Or.inl hfirst, ?_⟩
      left
      rcases h3 with h3 | h3
      · exact h3
      · omega

theorem BinaryTuringTape.move_valid {t : BinaryTuringTape}
    (hv : t.valid) (d : TuringDirection) : (t.move d).valid := by
  cases d
  · exact BinaryTuringTape.moveRight_valid hv
  · exact BinaryTuringTape.moveLeft_valid hv

theorem fromTupleLeft_first {v k : Nat} (h : bitLength v = k + 1) :
    (fromTupleLeft (k + 1) v)[0]? = some TuringSymbol.ONE := by
  unfold fromTupleLeft
  rw [if_pos h.symm]
  simp

theorem fromTupleRight_last : ∀ (k v : Nat), 2 ^ k ≤ v → v < 2 ^ (k + 1) →
    (fromTupleRight (k + 1) v)[k]? = some TuringSymbol.ONE := by
  intro k
  induction k with
  | zero =>
    intro v hlo hhi
    have : v = 1 := by
      have e0 : (2 : Nat) ^ 0 = 1 := by norm_num
      have e1 : (2 : Nat) ^ 1 = 2 := by norm_num
      omega
    subst this
    decide
  | succ k ih =>
    intro v hlo hhi
    show (fromTupleRight (k + 1 + 1) v)[k + 1]? = some TuringSymbol.ONE
    unfold fromTupleRight
    rw [List.getElem?_cons_succ]
    have e1 : (2 : Nat) ^ (k + 1) = 2 * 2 ^ k := by rw [pow_succ]; ring
    have e2 : (2 : Nat) ^ (k + 2) = 2 * 2 ^ (k + 1) := by rw [pow_succ]; ring
    rw [Nat.shiftRight_one]
    exact ih (v / 2) (by omega) (by omega)

theorem BinaryTuringTape.from_tape_tuple_valid (tt : TuringTapeTuple) :
    (BinaryTuringTape.from_tape_tuple tt).valid := by
  unfold BinaryTuringTape.from_tape_tuple BinaryTuringTape.valid BinaryTuringTape.headAddr
  dsimp only
  have hlenL := fromTupleLeft_length (bitLength tt.left_number) tt.left_number
  have hlenR := fromTupleRight_length (bitLength tt.right_number) tt.right_number
  have hlen : (fromTupleLeft (bitLength tt.left_number) tt.left_number ++ [tt.head]
      ++ fromTupleRight (bitLength tt.right_number) tt.right_number).length
      = bitLength tt.left_number + 1 + bitLength tt.right_number := by
    simp [hlenL, hlenR]
    omega
  rw [hlen]
  refine ⟨by omega, by omega, ?_, ?_⟩
  · -- first cell: a ONE unless the left region is empty (then it is the head)
    rcases Nat.eq_zero_or_pos (bitLength tt.left_number) with hL | hL
    · right
      rw [hL]
      simp
    · left
      obtain ⟨k, hk⟩ := Nat.exists_eq_succ_of_ne_zero (by omega : bitLength tt.left_number ≠ 0)
      rw [List.append_assoc, List.getElem?_append_left (by omega), hk]
      exact fromTupleLeft_first hk
  · -- last cell: a ONE unless the right region is empty (then it is the head)
    rcases Nat.eq_zero_or_pos (bitLength tt.right_number) with hR | hR
    · right
      rw [hR]
      omega
    · left
      obtain ⟨k, hk⟩ := Nat.exists_eq_succ_of_ne_zero (by omega : bitLength tt.right_number ≠ 0)
      have hR0 : tt.right_number ≠ 0 := by
        intro hc
        rw [hc] at hk
        simp [bitLength] at hk
      have hidx : bitLength tt.left_number + 1 + bitLength tt.right_number - 1
          = (fromTupleLeft (bitLength tt.left_number) tt.left_number ++ [tt.head]).length + k := by
        simp [hlenL]
        omega
      rw [hidx, List.getElem?_append_right (by omega)]
      have : (fromTupleLeft (bitLength tt.left_number) tt.left_number ++ [tt.head]).length + k
          - (fromTupleLeft (bitLength tt.left_number) tt.left_number ++ [tt.head]).length = k := by
        omega
      rw [this, hk]
      have hlog : tt.right_number.log2 = k := by
        unfold bitLength at hk
        rw [if_neg hR0] at hk
        omega
      refine fromTupleRight_last k tt.right_number ?_ ?_
      · have := Nat.log2_self_le hR0
        rwa [hlog] at this
      · have := @Nat.lt_log2_self tt.right_number
        rwa [hlog] at this

/-- One Turing tape operation as performed by `BinaryTuring.__next__`:
write the transition's symbol at the head, then move the tape. -/
def BinaryTuringTape.applyOp (t : BinaryTuringTape)
    (op : TuringSymbol × TuringDirection) : BinaryTuringTape :=
  (t.write op.1).move op.2

theorem BinaryTuringTape.applyOp_valid {t : BinaryTuringTape}
    (hv : t.valid) (op : TuringSymbol × TuringDirection) : (t.applyOp op).valid :=
  BinaryTuringTape.move_valid (BinaryTuringTape.write_valid hv op.1) op.2

theorem BinaryTuringTape.foldl_applyOp_valid {t : BinaryTuringTape}
    (hv : t.valid) (ops : List (TuringSymbol × TuringDirection)) :
    (ops.foldl BinaryTuringTape.applyOp t).valid := by
  induction ops generalizing t with
  | nil => exact hv
  | cons op rest ih =>
    exact ih (BinaryTuringTape.applyOp_valid hv op)

/-- C8: every tape built by `from_tape_tuple` satisfies the representation
invariant, and every sequence of Turing steps (a write at the head followed
by `move_tape`, with arbitrary written symbol and direction, which covers
every `BinaryTuring.__next__`) preserves it: the window's first cell is a
`ONE` or the head cell, and its last cell is a `ONE` or the head cell, so no
redundant boundary `ZERO` is ever stored. -/
theorem tape_window_invariant (tt : TuringTapeTuple)
    (ops : List (TuringSymbol × TuringDirection)) :
    (ops.foldl BinaryTuringTape.applyOp (BinaryTuringTape.from_tape_tuple tt)).valid :=
  BinaryTuringTape.foldl_applyOp_valid (BinaryTuringTape.from_tape_tuple_valid tt) ops

/-! ## binary_turing.py : the machine -/

/-- `BinaryTuring`: transition table (shared, read-only), tape, current
state (`0` at construction). -/
structure BinaryTuring where
  table : List TuringStateTransition
  tape : BinaryTuringTape
  state : Nat
deriving Repr

/-- `BinaryTuring.tape_tuple` getter. -/
def BinaryTuring.tape_tuple (m : BinaryTuring) : TuringTapeTuple :=
  { state := m.state, left_number := m.tape.left_number,
    right_number := m.tape.right_number, head := m.tape.head_symbol }

/-- `BinaryTuring.__next__`: read the head symbol, select the transition for
(state, read symbol), write, move, set the next state.  `none` models the
fatal `KeyError` on a state missing from the table. -/
def BinaryTuring.stepO (m : BinaryTuring) : Option BinaryTuring :=
  match lookupState m.table m.state with
  | none => none
  | some st =>
    match (if m.tape.head_symbol = TuringSymbol.ZERO
           then st.transitions.1 else st.transitions.2) with
    | tr => some { m with tape := (m.tape.write tr.write).move tr.move,
                          state := tr.next_state }

/-! ## turing_to_tag.py -/

/-- The roles of the tag alphabet symbols: `H` (head), `L` (left), `R`
(right). -/
inductive TagRole where
  | H
  | L
  | R
deriving DecidableEq, Repr

/-- The tag alphabet of the Turing→Tag reduction.  The Python code uses
strings: `sym r k (some true)` is `"{r}_{k}:1"`, `sym r k (some false)` is
`"{r}_{k}:0"`, `sym r k none` is `"{r}_{k}"`, and `star k` is `"R_{k}*"`.
Distinct constructor arguments give distinct strings, and a symbol's string
ends in `":0"`/`":1"` exactly when its digit is present. -/
inductive TagSym where
  | sym (r : TagRole) (state : Nat) (digit : Option Bool)
  | star (state : Nat)
deriving DecidableEq, Repr

/-- The head production `h_k[z]` built by `turing_table_to_tag_transition`
for one Turing transition (read digit `z`): the starred relay pair for a
LEFT move writing ONE, one extra `H` for `z = 0`, the `H` successor, and a
trailing `L` pair for a RIGHT move writing ONE. -/
def hProd (t : TuringTransition) (z : Bool) : List TagSym :=
  (if t.move = TuringDirection.LEFT ∧ t.write = TuringSymbol.ONE
   then [TagSym.star t.next_state, TagSym.star t.next_state] else [])
  ++ (if z = false then [TagSym.sym TagRole.H t.next_state none] else [])
  ++ [TagSym.sym TagRole.H t.next_state none]
  ++ (if t.move = TuringDirection.RIGHT ∧ t.write = TuringSymbol.ONE
      then [TagSym.sym TagRole.L t.next_state none,
            TagSym.sym TagRole.L t.next_state none] else [])

/-- The left production `l_k[z]`: one `L` successor, three more for a RIGHT
move. -/
def lProd (t : TuringTransition) : List TagSym :=
  [TagSym.sym TagRole.L t.next_state none]
  ++ (if t.move = TuringDirection.RIGHT
      then [TagSym.sym TagRole.L t.next_state none,
            TagSym.sym TagRole.L t.next_state none,
            TagSym.sym TagRole.L t.next_state none] else [])

/-- The right production `r_k[z]`: one `R` successor, three more for a LEFT
move. -/
def rProd (t : TuringTransition) : List TagSym :=
  [TagSym.sym TagRole.R t.next_state none]
  ++ (if t.move = TuringDirection.LEFT
      then [TagSym.sym TagRole.R t.next_state none,
            TagSym.sym TagRole.R t.next_state none,
            TagSym.sym TagRole.R t.next_state none] else [])

/-- The ten transition-dict entries contributed by one table state, in the
source's insertion order: `H_k:0, L_k:0, R_k:0, H_k:1, L_k:1, R_k:1, R_k*,
H_k, L_k, R_k`. -/
def stateEntries (st : TuringStateTransition) : List (TagSym × List TagSym) :=
  [(TagSym.sym TagRole.H st.state (some false), hProd st.transitions.1 false),
   (TagSym.sym TagRole.L st.state (some false), lProd st.transitions.1),
   (TagSym.sym TagRole.R st.state (some false), rProd st.transitions.1),
   (TagSym.sym TagRole.H st.state (some true), hProd st.transitions.2 true),
   (TagSym.sym TagRole.L st.state (some true), lProd st.transitions.2),
   (TagSym.sym TagRole.R st.state (some true), rProd st.transitions.2),
   (TagSym.star st.state,
      [TagSym.sym TagRole.R st.state none, TagSym.sym TagRole.R st.state none]),
   (TagSym.sym TagRole.H st.state none,
      [TagSym.sym TagRole.H st.state (some true), TagSym.sym TagRole.H st.state (some false)]),
   (TagSym.sym TagRole.L st.state none,
      [TagSym.sym TagRole.L st.state (some true), TagSym.sym TagRole.L st.state (some false)]),
   (TagSym.sym TagRole.R st.state none,
      [TagSym.sym TagRole.R st.state (some true), TagSym.sym TagRole.R st.state (some false)])]

/-- `turing_table_to_tag_transition`: the entries of every table state, in
table order. -/
def turing_table_to_tag_transition (tbl : List TuringStateTransition) :
    List (TagSym × List TagSym) :=
  tbl.flatMap stateEntries

/-- The digit-tagged pair `[{r}_{k}:1, {r}_{k}:0]` used by
`turing_machine_to_tag_tape`. -/
def tagPair (r : TagRole) (k : Nat) : List TagSym :=
  [TagSym.sym r k (some true), TagSym.sym r k (some false)]

/-- The tape built by `turing_machine_to_tag_tape` as a function of a
`TuringTapeTuple` (the Python function reads only `turing_machine.tape_tuple`):
`[H_k:1, H_k:0]`, then `left_number` many `[L_k:1, L_k:0]` pairs, then
`right_number` many `[R_k:1, R_k:0]` pairs; the leading symbol is dropped
when the head symbol is `ZERO`. -/
def turingTupleTagTape (ts : TuringTapeTuple) : List TagSym :=
  let l0 := tagPair TagRole.H ts.state
    ++ (List.replicate ts.left_number (tagPair TagRole.L ts.state)).flatten
    ++ (List.replicate ts.right_number (tagPair TagRole.R ts.state)).flatten
  if ts.head = TuringSymbol.ZERO then l0.drop 1 else l0

/-- `turing_machine_to_tag_tape`. -/
def turing_machine_to_tag_tape (m : BinaryTuring) : List TagSym :=
  turingTupleTagTape m.tape_tuple

/-- `turing_machine_to_tag_system` (tag arity: the `TagSystem` default 2). -/
def turing_machine_to_tag_system (m : BinaryTuring) : TagSystem TagSym :=
  { transition := turing_table_to_tag_transition m.table, num := 2,
    tape := turing_machine_to_tag_tape m }

/-- A symbol's string ends in `":0"` or `":1"` exactly when it carries a
digit. -/
def TagSym.hasDigit : TagSym → Bool
  | TagSym.sym _ _ (some _) => true
  | _ => false

/-- `is_step_passed`: every symbol on the tape is digit-tagged. -/
def is_step_passed (s : TagSystem TagSym) : Bool :=
  s.tape.all TagSym.hasDigit

/-- `tag_tape_to_turing_tape_tuple`, modelled on the tape's symbol list:
check the step-passed predicate on the symbols (the evident intent of
`assert is_step_passed(tag_tape)` — as written, that call reads
`tag_sys.tape.tape` on a raw `TagSysTape` and raises `AttributeError` on
every input); parse the state id, the head digit
(`tape[0][2:-2]`, `tape[0][-2:]`), and count the `L_k:0` / `R_k:0`
occurrences.  `none` models a raised error. -/
def tag_tape_to_turing_tape_tuple (tape : List TagSym) : Option TuringTapeTuple :=
  if tape.all TagSym.hasDigit = false then none
  else
    match tape with
    | [] => none
    | s :: _ =>
      match s with
      | TagSym.sym _ k (some d) =>
        some { state := k,
               left_number := tape.count (TagSym.sym TagRole.L k (some false)),
               right_number := tape.count (TagSym.sym TagRole.R k (some false)),
               head := if d then TuringSymbol.ONE else TuringSymbol.ZERO }
      | _ => none

/-! ### C6 : encode → predicate holds, decode restores the tuple -/

theorem tagPair_all (r : TagRole) (k : Nat) :
    (tagPair r k).all TagSym.hasDigit = true := rfl

theorem all_flatten_replicate {α : Type} (p : α → Bool) (n : Nat) (l : List α)
    (h : l.all p = true) : ((List.replicate n l).flatten).all p = true := by
  induction n with
  | zero => rfl
  | succ n ih =>
    rw [List.replicate_succ, List.flatten_cons, List.all_append, h, ih]
    rfl

theorem count_flatten_replicate {α : Type} [DecidableEq α] (x : α) (n : Nat)
    (l : List α) : ((List.replicate n l).flatten).count x = n * l.count x := by
  induction n with
  | zero => simp
  | succ n ih =>
    rw [List.replicate_succ, List.flatten_cons, List.count_append, ih]
    ring

theorem turingTupleTagTape_eq_one (k L R : Nat) :
    turingTupleTagTape ⟨k, L, R, TuringSymbol.ONE⟩
      = TagSym.sym TagRole.H k (some true) :: TagSym.sym TagRole.H k (some false)
        :: ((List.replicate L (tagPair TagRole.L k)).flatten
            ++ (List.replicate R (tagPair TagRole.R k)).flatten) := by
  unfold turingTupleTagTape
  simp [tagPair]

theorem turingTupleTagTape_eq_zero (k L R : Nat) :
    turingTupleTagTape ⟨k, L, R, TuringSymbol.ZERO⟩
      = TagSym.sym TagRole.H k (some false)
        :: ((List.replicate L (tagPair TagRole.L k)).flatten
            ++ (List.replicate R (tagPair TagRole.R k)).flatten) := by
  unfold turingTupleTagTape
  simp [tagPair]

theorem turingTupleTagTape_all (ts : TuringTapeTuple) :
    (turingTupleTagTape ts).all TagSym.hasDigit = true := by
  obtain ⟨k, L, R, h⟩ := ts
  have hL := all_flatten_replicate TagSym.hasDigit L (tagPair TagRole.L k)
    (tagPair_all _ _)
  have hR := all_flatten_replicate TagSym.hasDigit R (tagPair TagRole.R k)
    (tagPair_all _ _)
  cases h
  · rw [turingTupleTagTape_eq_zero, List.all_cons, List.all_append, hL, hR]
    rfl
  · rw [turingTupleTagTape_eq_one, List.all_cons, List.all_cons, List.all_append,
      hL, hR]
    rfl

theorem tag_tape_decode (ts : TuringTapeTuple) :
    tag_tape_to_turing_tape_tuple (turingTupleTagTape ts) = some ts := by
  obtain ⟨k, L, R, h⟩ := ts
  have hall := turingTupleTagTape_all ⟨k, L, R, h⟩
  have hcL1 : (tagPair TagRole.L k).count (TagSym.sym TagRole.L k (some false)) = 1 := by
    simp [tagPair]
  have hcL2 : (tagPair TagRole.R k).count (TagSym.sym TagRole.L k (some false)) = 0 := by
    simp [tagPair]
  have hcR1 : (tagPair TagRole.R k).count (TagSym.sym TagRole.R k (some false)) = 1 := by
    simp [tagPair]
  have hcR2 : (tagPair TagRole.L k).count (TagSym.sym TagRole.R k (some false)) = 0 := by
    simp [tagPair]
  cases h
  · rw [turingTupleTagTape_eq_zero] at hall ⊢
    unfold tag_tape_to_turing_tape_tuple
    rw [if_neg (by rw [hall]; simp)]
    dsimp only
    congr 1
    have eL : (TagSym.sym TagRole.H k (some false)
        :: ((List.replicate L (tagPair TagRole.L k)).flatten
            ++ (List.replicate R (tagPair TagRole.R k)).flatten)).count
          (TagSym.sym TagRole.L k (some false)) = L := by
      rw [List.count_cons, List.count_append, count_flatten_replicate,
        count_flatten_replicate, hcL1, hcL2]
      simp
    have eR : (TagSym.sym TagRole.H k (some false)
        :: ((List.replicate L (tagPair TagRole.L k)).flatten
            ++ (List.replicate R (tagPair TagRole.R k)).flatten)).count
          (TagSym.sym TagRole.R k (some false)) = R := by
      rw [List.count_cons, List.count_append, count_flatten_replicate,
        count_flatten_replicate, hcR1, hcR2]
      simp
    rw [eL, eR]
    simp
  · rw [turingTupleTagTape_eq_one] at hall ⊢
    unfold tag_tape_to_turing_tape_tuple
    rw [if_neg (by rw [hall]; simp)]
    dsimp only
    congr 1
    have eL : (TagSym.sym TagRole.H k (some true) :: TagSym.sym TagRole.H k (some false)
        :: ((List.replicate L (tagPair TagRole.L k)).flatten
            ++ (List.replicate R (tagPair TagRole.R k)).flatten)).count
          (TagSym.sym TagRole.L k (some false)) = L := by
      rw [List.count_cons, List.count_cons, List.count_append, count_flatten_replicate,
        count_flatten_replicate, hcL1, hcL2]
      simp
    have eR : (TagSym.sym TagRole.H k (some true) :: TagSym.sym TagRole.H k (some false)
        :: ((List.replicate L (tagPair TagRole.L k)).flatten
            ++ (List.replicate R (tagPair TagRole.R k)).flatten)).count
          (TagSym.sym TagRole.R k (some false)) = R := by
      rw [List.count_cons, List.count_cons, List.count_append, count_flatten_replicate,
        count_flatten_replicate, hcR1, hcR2]
      simp
    rw [eL, eR]
    simp

/-- C6: for every `BinaryTuring` machine, the tag tape produced by
`turing_machine_to_tag_tape` satisfies the `is_step_passed` predicate (every
symbol carries a binary digit suffix), and decoding it with
`tag_tape_to_turing_tape_tuple` succeeds and returns exactly the machine's
`tape_tuple`.  (This is the intended decode semantics; as written the
source's decoder crashes on every call with an `AttributeError`.) -/
theorem tag_encode_passes_and_decodes (m : BinaryTuring) :
    is_step_passed (turing_machine_to_tag_system m) = true ∧
    tag_tape_to_turing_tape_tuple (turing_machine_to_tag_tape m)
      = some m.tape_tuple := by
  constructor
  · exact turingTupleTagTape_all m.tape_tuple
  · exact tag_tape_decode m.tape_tuple

/-! ## cyclic_tag.py -/

/-- `CyclicSymbol` enum: `NO = 0`, `YES = 1`. -/
inductive CyclicSymbol where
  | NO
  | YES
deriving DecidableEq, Repr

/-- `CyclicTag`: a tuple of cyclic symbols.  The empty Python string `""`
appended for the no-op slots behaves exactly like an empty tag (its length
is 0 and extending a tape by it is a no-op), so both are the empty list. -/
abbrev CyclicTag := List CyclicSymbol

/-- `CyclicTransition`: the production list and the round-robin pointer
(`point`, 0 at construction). -/
structure CyclicTransition where
  transitions : List CyclicTag
  point : Nat
deriving DecidableEq, Repr

/-- `CyclicTransition.__init__`. -/
def CyclicTransition.ofList (l : List CyclicTag) : CyclicTransition :=
  { transitions := l, point := 0 }

/-- `CyclicTransition.__next__`: read the slot at `point` (`IndexError`
modelled as `none`), then advance the pointer, wrapping to 0 at the end. -/
def CyclicTransition.nextO (c : CyclicTransition) :
    Option (CyclicTag × CyclicTransition) :=
  match c.transitions[c.point]? with
  | none => none
  | some v =>
    some (v, { c with point := if c.transitions.length ≤ c.point + 1 then 0
                               else c.point + 1 })

/-- `CyclicTagSystem`: transition plus tape (`CyclicTape.tape`). -/
structure CyclicTagSystem where
  transition : CyclicTransition
  tape : List CyclicSymbol
deriving DecidableEq, Repr

/-- `CyclicTagSystem.__next__`: pop the tape front (`IndexError` on an empty
tape), fetch the next production (pointer advances unconditionally), and
append it exactly when the popped symbol was `YES`. -/
def CyclicTagSystem.stepO (s : CyclicTagSystem) : Option CyclicTagSystem :=
  match s.tape with
  | [] => none
  | x :: rest =>
    match s.transition.nextO with
    | none => none
    | some (tag, tr') =>
      some { transition := tr',
             tape := if x = CyclicSymbol.YES then rest ++ tag else rest }

/-! ## tag_to_cyclic.py -/

/-- The one-hot cyclic tag `"0"*i + "1" + "0"*(n-i-1)`. -/
def oneHot (i n : Nat) : CyclicTag :=
  List.replicate i CyclicSymbol.NO ++ [CyclicSymbol.YES]
    ++ List.replicate (n - i - 1) CyclicSymbol.NO

/-- `tag_system_to_cyclic_tags_dict`: each alphabet symbol, in enumeration
(= transition-dict insertion) order, mapped to its one-hot tag. -/
def tag_system_to_cyclic_tags_dict {α : Type} (s : TagSystem α) :
    List (α × CyclicTag) :=
  s.symbol_list.enum.map
    (fun p => (p.2, oneHot p.1 s.symbol_list.length))

/-- Concatenation of the dict encodings of a symbol list (`KeyError` on a
symbol outside the dict modelled as `none`). -/
def encSyms {α : Type} [DecidableEq α] (dict : List (α × CyclicTag))
    (l : List α) : Option CyclicTag :=
  match l with
  | [] => some []
  | x :: rest =>
    match alookup dict x with
    | none => none
    | some v =>
      match encSyms dict rest with
      | none => none
      | some r => some (v ++ r)

/-- `tag_system_to_cyclic_transitions`: for each dict symbol in order, the
concatenated encoding of its production, followed by
`len(dict) * (num - 1)` empty tags. -/
def tag_system_to_cyclic_transitions {α : Type} [DecidableEq α]
    (s : TagSystem α) (num : Nat) : Option CyclicTransition :=
  let td := tag_system_to_cyclic_tags_dict s
  match td.mapM (fun kv =>
      match alookup s.transition kv.1 with
      | none => none
      | some prod => encSyms td prod) with
  | none => none
  | some slots =>
    some (CyclicTransition.ofList
      (slots ++ List.replicate (td.length * (num - 1)) []))

/-- `tag_system_to_cyclic_tape`: symbol-by-symbol one-hot encoding. -/
def tag_system_to_cyclic_tape {α : Type} [DecidableEq α] (s : TagSystem α) :
    Option (List CyclicSymbol) :=
  encSyms (tag_system_to_cyclic_tags_dict s) s.tape

/-- `tag_system_to_cyclic_machine` (with the `TagSystem` default arity 2 for
the transition construction). -/
def tag_system_to_cyclic_machine {α : Type} [DecidableEq α] (s : TagSystem α) :
    Option CyclicTagSystem :=
  match tag_system_to_cyclic_transitions s 2 with
  | none => none
  | some tr =>
    match tag_system_to_cyclic_tape s with
    | none => none
    | some tp => some { transition := tr, tape := tp }

/-- `is_tag_step_passed`: the round-robin pointer is back at 0. -/
def is_tag_step_passed (c : CyclicTagSystem) : Bool :=
  c.transition.point = 0

/-- The `zip(*[iter(x)]*n)` grouper: split into chunks of `n`, silently
dropping a trailing partial chunk.  Fuel-based so that it evaluates (one
fuel unit per chunk; `l.length` is always enough). -/
def chunksOfAux {α : Type} (n : Nat) : Nat → List α → List (List α)
  | 0, _ => []
  | fuel + 1, l =>
    if n = 0 ∨ l.length < n then []
    else l.take n :: chunksOfAux n fuel (l.drop n)

/-- Chunks of `n` of a list. -/
def chunksOf {α : Type} (n : Nat) (l : List α) : List (List α) :=
  chunksOfAux n l.length l

/-- Reverse dictionary lookup (the Python code builds `reverse_trans_dict`
after asserting the values are distinct; lookup is then the first — and
only — pair with the given value). -/
def rlookup {α : Type} (dict : List (α × CyclicTag)) (v : CyclicTag) :
    Option α :=
  match dict with
  | [] => none
  | (a, b) :: rest => if b = v then some a else rlookup rest v

/-- Python iteration over a `str`: its characters, each a one-character
string.  `list += some_str` extends the list with exactly these. -/
def strChars (x : String) : List String :=
  x.data.map (fun c => String.mk [c])

/-- `cyclic_tape_dict_to_tag_tape`: assert the tape length is a multiple of
the dict size (`ZeroDivisionError` for an empty dict), assert distinct dict
values, then look each chunk of `len(dict)` symbols up in the reverse dict
and extend the result list with `tag_tape_list += reverse_trans_dict[...]`.
A `TagSysSymbol` is a `str`, so `+=` extends with the symbol's CHARACTERS
(one-character strings), not with the symbol as one element.  `none` models
any raised error. -/
def cyclic_tape_dict_to_tag_tape
    (tape : List CyclicSymbol) (dict : List (String × CyclicTag)) :
    Option (List String) :=
  if dict.length = 0 then none
  else if ¬ (tape.length % dict.length = 0) then none
  else if ¬ (dict.map Prod.snd).Nodup then none
  else
    match (chunksOf dict.length tape).mapM (rlookup dict) with
    | none => none
    | some syms => some ((syms.map strChars).flatten)

/-- `cyclic_transition_to_symbol_count`: the number of empty tags in the
transition list. -/
def cyclic_transition_to_symbol_count (c : CyclicTransition) : Nat :=
  (c.transitions.filter (fun s => s.length = 0)).length

/-- The `for i, next_transition_tag in enumerate(cyclic_transition)` loop of
`cyclic_transition_dict_to_tag_transition`.  `enumerate` iterates the
transition itself, so every iteration advances the round-robin pointer —
including the final iteration that sees the empty tag and breaks.  The fuel
bounds the iterations: if no empty slot exists the Python loop never
terminates (`none`). -/
def ctdLoop {α : Type} [DecidableEq α] (dict : List (α × CyclicTag))
    (symbol_count : Nat) :
    Nat → Nat → CyclicTransition → List (α × List α) →
    Option (List (α × List α) × CyclicTransition)
  | 0, _, _, _ => none
  | fuel + 1, i, ct, acc =>
    match ct.nextO with
    | none => none
    | some (tag, ct') =>
      if tag.length = 0 then some (acc, ct')
      else
        match (chunksOf dict.length tag).mapM (rlookup dict) with
        | none => none
        | some prodSyms =>
          match rlookup dict (oneHot i symbol_count) with
          | none => none
          | some key =>
            ctdLoop dict symbol_count fuel (i + 1) ct' (acc ++ [(key, prodSyms)])

/-- `cyclic_transition_dict_to_tag_transition`: build the reverse dict
(asserting distinct values), then run the enumerate loop.  Returns the
decoded tag transition together with the input `CyclicTransition` as left
behind by the loop: its `point` has been advanced past every slot the loop
read.  `none` models a raised error or a non-terminating loop. -/
def cyclic_transition_dict_to_tag_transition {α : Type} [DecidableEq α]
    (ct : CyclicTransition) (dict : List (α × CyclicTag)) :
    Option (List (α × List α) × CyclicTransition) :=
  if ¬ (dict.map Prod.snd).Nodup then none
  else ctdLoop dict (cyclic_transition_to_symbol_count ct)
    ct.transitions.length 0 ct []

/-- `cyclic_system_dict_to_tag_system`: decode the tape, decode the
transition (advancing the input's pointer), and recover `num` as
`len(transitions) / symbol_count` (asserting an even division;
`ZeroDivisionError` when there is no empty slot).  The source's
`divmod(len(cyclic_transition), ...)` reads the free global name
`cyclic_transition`, which at its only call site is the very transition
object passed in, so the length used is that of the input's transition
list.  Returns the decoded tag system together with the input transition as
mutated by the loop. -/
def cyclic_system_dict_to_tag_system
    (cs : CyclicTagSystem) (dict : List (String × CyclicTag)) :
    Option (TagSystem String × CyclicTransition) :=
  match cyclic_tape_dict_to_tag_tape cs.tape dict with
  | none => none
  | some t_tape =>
    match cyclic_transition_dict_to_tag_transition cs.transition dict with
    | none => none
    | some (t_transition, ct') =>
      match cyclic_transition_to_symbol_count cs.transition with
      | 0 => none
      | sc + 1 =>
        if cs.transition.transitions.length % (sc + 1) = 0 then
          some ({ transition := t_transition,
                  num := cs.transition.transitions.length / (sc + 1),
                  tape := t_tape }, ct')
        else none

/-! ### C4/C9 : counterexamples -/

/-- C4 counterexample input: a tag system with alphabet size 1 and arity
`num = 3`. -/
def c4ex : TagSystem String :=
  { transition := [("a", ["a"])], num := 3, tape := ["a"] }

/-- C4 counterexample input: a single multi-character symbol `"aa"`, arity
`num = 2`, no empty productions, productions and tape drawn from the
alphabet. -/
def c4mc : TagSystem String :=
  { transition := [("aa", ["aa"])], num := 2, tape := ["aa", "aa"] }

/-- C4 (counterexample): two failure modes of the original round-trip claim.
(1) Arity: for the arity-3 system `c4ex` encoding succeeds (transition list
`[enc "a", "", ""]`, length 3) but decoding fails — the decoder's symbol
count is the number of empty slots (2, not the alphabet size 1), the
one-hot lookup misses, and `divmod(3, 2)` has a nonzero remainder.
(2) Character splitting: for the arity-2 system `c4mc` over the
multi-character symbol `"aa"` decoding succeeds, but
`tag_tape_list += reverse_trans_dict[...]` extends the decoded tape with
the symbol's characters, so the round trip returns tape
`["a","a","a","a"] ≠ ["aa","aa"]` and does not reproduce the system. -/
theorem c4_roundtrip_counterexample :
    ((tag_system_to_cyclic_transitions c4ex 3).isSome = true ∧
     (tag_system_to_cyclic_tape c4ex).isSome = true ∧
     (match tag_system_to_cyclic_transitions c4ex 3,
            tag_system_to_cyclic_tape c4ex with
      | some ct, some tp =>
         cyclic_system_dict_to_tag_system (CyclicTagSystem.mk ct tp)
           (tag_system_to_cyclic_tags_dict c4ex)
      | _, _ => none) = none) ∧
    (c4mc.num = 2 ∧ (∀ kv ∈ c4mc.transition, kv.2 ≠ []) ∧
     (match tag_system_to_cyclic_transitions c4mc 2,
            tag_system_to_cyclic_tape c4mc with
      | some ct, some tp =>
         (cyclic_system_dict_to_tag_system (CyclicTagSystem.mk ct tp)
           (tag_system_to_cyclic_tags_dict c4mc)).map (fun r => r.1.tape)
      | _, _ => none) = some ["a", "a", "a", "a"] ∧
     c4mc.tape = ["aa", "aa"] ∧
     (["a", "a", "a", "a"] : List String) ≠ ["aa", "aa"]) := by
  decide

/-- C9 counterexample input: the cyclic transition of the two-symbol arity-2
tag system `{"a": ["b"], "b": ["a"]}`, pointer 0. -/
def c9ct : CyclicTransition :=
  { transitions := [[CyclicSymbol.NO, CyclicSymbol.YES],
                    [CyclicSymbol.YES, CyclicSymbol.NO], [], []],
    point := 0 }

/-- The translation dict of the `c9ct` system. -/
def c9dict : List (String × CyclicTag) :=
  [("a", [CyclicSymbol.YES, CyclicSymbol.NO]),
   ("b", [CyclicSymbol.NO, CyclicSymbol.YES])]

/-- C9 (counterexample): decoding `c9ct` back to a tag transition succeeds
but does NOT leave the input's round-robin pointer unchanged: `enumerate`
iterates the `CyclicTransition` itself, each iteration advancing `point`,
so the pointer ends at 3 although it started at 0. -/
theorem c9_decode_moves_pointer :
    (cyclic_transition_dict_to_tag_transition c9ct c9dict).map
        (fun out => out.2)
      = some { transitions := c9ct.transitions, point := 3 } ∧
    ¬ ((3 : Nat) = c9ct.point) := by
  decide

/-! ### C9 (amended) : the decode loop's frame -/

theorem CyclicTransition.nextO_some {c : CyclicTransition} {tag : CyclicTag}
    {c' : CyclicTransition} (h : c.nextO = some (tag, c')) :
    c'.transitions = c.transitions ∧ c.point < c.transitions.length ∧
    c'.point = (c.point + 1) % c.transitions.length := by
  unfold CyclicTransition.nextO at h
  rcases hx : c.transitions[c.point]? with _ | v
  · rw [hx] at h
    exact absurd h (by simp)
  · rw [hx] at h
    have hlt : c.point < c.transitions.length := by
      by_contra hge
      rw [List.getElem?_eq_none (by omega)] at hx
      exact absurd hx (by simp)
    have hinj := h
    simp only [Option.some.injEq, Prod.mk.injEq] at hinj
    obtain ⟨_, hc'⟩ := hinj
    subst hc'
    refine ⟨rfl, hlt, ?_⟩
    dsimp only
    by_cases hw : c.transitions.length ≤ c.point + 1
    · rw [if_pos hw]
      have : c.point + 1 = c.transitions.length := by omega
      rw [this, Nat.mod_self]
    · rw [if_neg hw]
      rw [Nat.mod_eq_of_lt (by omega)]

theorem ctdLoop_frame {α : Type} [DecidableEq α] (dict : List (α × CyclicTag))
    (sc : Nat) : ∀ (fuel i : Nat) (ct : CyclicTransition)
    (acc res : List (α × List α)) (ct' : CyclicTransition),
    ctdLoop dict sc fuel i ct acc = some (res, ct') →
    ct'.transitions = ct.transitions ∧
    ∃ m, 1 ≤ m ∧ ct'.point = (ct.point + m) % ct.transitions.length := by
  intro fuel
  induction fuel with
  | zero =>
    intro i ct acc res ct' h
    exact absurd h (by simp [ctdLoop])
  | succ fuel ih =>
    intro i ct acc res ct' h
    unfold ctdLoop at h
    rcases hx : ct.nextO with _ | y
    · rw [hx] at h
      exact absurd h (by simp)
    · rw [hx] at h
      obtain ⟨tag, ct1⟩ := y
      dsimp only at h
      obtain ⟨ht, _, hp⟩ := CyclicTransition.nextO_some hx
      by_cases hz : tag.length = 0
      · rw [if_pos hz] at h
        simp only [Option.some.injEq, Prod.mk.injEq] at h
        obtain ⟨_, hc⟩ := h
        subst hc
        exact ⟨ht, 1, le_refl 1, by rw [hp]⟩
      · rw [if_neg hz] at h
        rcases hm : (chunksOf dict.length tag).mapM (rlookup dict) with _ | prodSyms
        · rw [hm] at h
          exact absurd h (by simp)
        · rw [hm] at h
          rcases hk : rlookup dict (oneHot i sc) with _ | key
          · rw [hk] at h
            exact absurd h (by simp)
          · rw [hk] at h
            obtain ⟨ht', m, hm1, hpt⟩ := ih (i + 1) ct1 (acc ++ [(key, prodSyms)]) res ct' h
            refine ⟨by rw [ht', ht], m + 1, by omega, ?_⟩
            rw [hpt, ht, hp, Nat.mod_add_mod]
            congr 1
            omega

/-- C9 (amended): every reducer builds brand-new instances; the encoding
reducers and the cyclic-tape decoder read their inputs only, but decoding a
cyclic transition back to a tag transition advances the input transition's
round-robin pointer: whenever
`cyclic_transition_dict_to_tag_transition` succeeds, the transition it
leaves behind has the same transition list but a pointer advanced by `m ≥ 1`
slots modulo the list length (`m` = one per slot the enumerate loop read,
the terminating empty slot included); the pointer is generally not
restored. -/
theorem cyclic_decode_frame {α : Type} [DecidableEq α]
    (ct : CyclicTransition) (dict : List (α × CyclicTag))
    (res : List (α × List α)) (ct' : CyclicTransition)
    (h : cyclic_transition_dict_to_tag_transition ct dict = some (res, ct')) :
    ct'.transitions = ct.transitions ∧
    ∃ m, 1 ≤ m ∧ ct'.point = (ct.point + m) % ct.transitions.length := by
  unfold cyclic_transition_dict_to_tag_transition at h
  by_cases hnd : ¬ (dict.map Prod.snd).Nodup
  · rw [if_pos hnd] at h
    exact absurd h (by simp)
  · rw [if_neg hnd] at h
    exact ctdLoop_frame dict (cyclic_transition_to_symbol_count ct)
      ct.transitions.length 0 ct [] res ct' h

/-- Witness for `cyclic_decode_frame`: the concrete decode of `c9ct` lands
on pointer 3 = (0 + 3) % 4. -/
theorem cyclic_decode_frame_witness :
    (CyclicTransition.mk c9ct.transitions 3).transitions = c9ct.transitions ∧
    ∃ m, 1 ≤ m ∧ (CyclicTransition.mk c9ct.transitions 3).point
      = (c9ct.point + m) % c9ct.transitions.length := by
  exact cyclic_decode_frame c9ct c9dict [("a", ["b"]), ("b", ["a"])]
    (CyclicTransition.mk c9ct.transitions 3) (by decide)

/-! ### C4 (amended) : dictionary and chunking lemmas -/

theorem oneHot_length {i n : Nat} (h : i < n) : (oneHot i n).length = n := by
  unfold oneHot
  simp
  omega

theorem oneHot_getElem_self {i n : Nat} (h : i < n) :
    (oneHot i n)[i]? = some CyclicSymbol.YES := by
  unfold oneHot
  rw [List.append_assoc, List.getElem?_append_right (by simp)]
  have hz : i - (List.replicate i CyclicSymbol.NO).length = 0 := by simp
  rw [hz, List.singleton_append, List.getElem?_cons_zero]

theorem oneHot_getElem_ne {i j n : Nat} (hi : i < n) (hne : i ≠ j) :
    (oneHot j n)[i]? = some CyclicSymbol.NO := by
  unfold oneHot
  rcases Nat.lt_or_ge i j with hij | hij
  · rw [List.append_assoc, List.getElem?_append_left (by simp; omega)]
    simp [List.getElem?_replicate, hij]
  · have hij' : j < i := by omega
    rw [List.append_assoc, List.getElem?_append_right (by simp; omega)]
    have hz : i - (List.replicate j CyclicSymbol.NO).length = (i - j - 1) + 1 := by
      simp
      omega
    rw [hz, List.singleton_append, List.getElem?_cons_succ]
    simp [List.getElem?_replicate]
    omega

theorem oneHot_inj {i j n : Nat} (hi : i < n) (hj : j < n)
    (h : oneHot i n = oneHot j n) : i = j := by
  by_contra hne
  have h1 := oneHot_getElem_self hi
  have h2 := oneHot_getElem_ne hi hne
  rw [← h, h1] at h2
  exact absurd h2 (by simp)

theorem alookup_mem {α β : Type} [DecidableEq α] :
    ∀ {d : List (α × β)} {k : α} {v : β}, alookup d k = some v → (k, v) ∈ d := by
  intro d
  induction d with
  | nil => intro k v h; exact absurd h (by simp [alookup])
  | cons kv rest ih =>
    intro k v h
    obtain ⟨a, b⟩ := kv
    unfold alookup at h
    by_cases hk : a = k
    · rw [if_pos hk] at h
      simp only [Option.some.injEq] at h
      subst hk
      subst h
      exact List.mem_cons_self _ _
    · rw [if_neg hk] at h
      exact List.mem_cons_of_mem _ (ih h)

theorem alookup_of_mem_nodup {α β : Type} [DecidableEq α] :
    ∀ {d : List (α × β)}, (d.map Prod.fst).Nodup →
    ∀ {k : α} {v : β}, (k, v) ∈ d → alookup d k = some v := by
  intro d
  induction d with
  | nil => intro _ k v h; exact absurd h (by simp)
  | cons kv rest ih =>
    intro hnd k v hm
    obtain ⟨a, b⟩ := kv
    rw [List.map_cons, List.nodup_cons] at hnd
    obtain ⟨hnotin, hnd'⟩ := hnd
    rcases List.mem_cons.mp hm with he | hm'
    · simp only [Prod.mk.injEq] at he
      obtain ⟨hk, hv⟩ := he
      subst hk
      subst hv
      unfold alookup
      rw [if_pos rfl]
    · unfold alookup
      by_cases hk : a = k
      · exfalso
        apply hnotin
        subst hk
        exact List.mem_map.mpr ⟨(a, v), hm', rfl⟩
      · rw [if_neg hk]
        exact ih hnd' hm'

theorem rlookup_of_mem_nodup {α : Type} :
    ∀ {d : List (α × CyclicTag)}, (d.map Prod.snd).Nodup →
    ∀ {k : α} {v : CyclicTag}, (k, v) ∈ d → rlookup d v = some k := by
  intro d
  induction d with
  | nil => intro _ k v h; exact absurd h (by simp)
  | cons kv rest ih =>
    intro hnd k v hm
    obtain ⟨a, b⟩ := kv
    rw [List.map_cons, List.nodup_cons] at hnd
    obtain ⟨hnotin, hnd'⟩ := hnd
    rcases List.mem_cons.mp hm with he | hm'
    · simp only [Prod.mk.injEq] at he
      obtain ⟨hk, hv⟩ := he
      subst hk
      subst hv
      unfold rlookup
      rw [if_pos rfl]
    · unfold rlookup
      by_cases hv : b = v
      · exfalso
        apply hnotin
        subst hv
        exact List.mem_map.mpr ⟨(k, b), hm', rfl⟩
      · rw [if_neg hv]
        exact ih hnd' hm'

theorem flatten_length_uniform {α : Type} (n : Nat) :
    ∀ (bs : List (List α)), (∀ b ∈ bs, b.length = n) →
    bs.flatten.length = n * bs.length := by
  intro bs
  induction bs with
  | nil => intro _; simp
  | cons b rest ih =>
    intro h
    rw [List.flatten_cons, List.length_append, h b (List.mem_cons_self _ _),
      ih (fun x hx => h x (List.mem_cons_of_mem _ hx))]
    simp
    ring

theorem chunksOfAux_flatten {α : Type} {n : Nat} (hn : 0 < n) :
    ∀ (fuel : Nat) (bs : List (List α)), (∀ b ∈ bs, b.length = n) →
    bs.length ≤ fuel → chunksOfAux n fuel bs.flatten = bs := by
  intro fuel
  induction fuel with
  | zero =>
    intro bs h hf
    have : bs = [] := List.length_eq_zero.mp (by omega)
    subst this
    rfl
  | succ fuel ih =>
    intro bs h hf
    cases bs with
    | nil =>
      show chunksOfAux n (fuel + 1) [] = []
      unfold chunksOfAux
      rw [if_pos (by simp; omega)]
    | cons b rest =>
      rw [List.flatten_cons]
      unfold chunksOfAux
      have hb : b.length = n := h b (List.mem_cons_self _ _)
      have hlen : (b ++ rest.flatten).length = n + rest.flatten.length := by
        simp [hb]
      rw [if_neg (by rw [hlen]; omega)]
      rw [List.take_left' hb, List.drop_left' hb]
      rw [ih rest (fun x hx => h x (List.mem_cons_of_mem _ hx)) (by simp at hf; omega)]

theorem chunksOf_flatten {α : Type} {n : Nat} (hn : 0 < n)
    (bs : List (List α)) (h : ∀ b ∈ bs, b.length = n) :
    chunksOf n bs.flatten = bs := by
  unfold chunksOf
  apply chunksOfAux_flatten hn _ bs h
  rw [flatten_length_uniform n bs h]
  exact Nat.le_mul_of_pos_left _ hn

theorem mapM_map_round {α β : Type} (g : β → Option α) (f : α → β) :
    ∀ (l : List α), (∀ x ∈ l, g (f x) = some x) → (l.map f).mapM g = some l := by
  intro l
  induction l with
  | nil => intro _; rfl
  | cons x rest ih =>
    intro h
    rw [List.map_cons, List.mapM_cons, h x (List.mem_cons_self _ _),
      ih (fun y hy => h y (List.mem_cons_of_mem _ hy))]
    rfl

theorem mapM_pointwise {β γ : Type} (g : β → Option γ) :
    ∀ (l : List β) (w : List γ), l.length = w.length →
    (∀ j, j < l.length → l[j]?.bind g = w[j]?) → l.mapM g = some w := by
  intro l
  induction l with
  | nil =>
    intro w hlen _
    have hw : w = [] := List.length_eq_zero.mp (by simpa using hlen.symm)
    subst hw
    rfl
  | cons a rest ih =>
    intro w hlen h
    cases w with
    | nil => simp at hlen
    | cons c w' =>
      have h0 := h 0 (by simp)
      simp only [List.getElem?_cons_zero, Option.some_bind] at h0
      rw [List.mapM_cons, h0]
      rw [ih w' (by simp at hlen; omega) (fun j hj => by
        have := h (j + 1) (by simp; omega)
        simpa using this)]
      rfl

/-! ### C4 (amended) : the translation dict of a tag system -/

theorem td_length {α : Type} (s : TagSystem α) :
    (tag_system_to_cyclic_tags_dict s).length = s.symbol_list.length := by
  unfold tag_system_to_cyclic_tags_dict
  simp

theorem td_getElem {α : Type} (s : TagSystem α) (j : Nat)
    (hj : j < s.symbol_list.length) :
    (tag_system_to_cyclic_tags_dict s)[j]?
      = some (s.symbol_list.get ⟨j, hj⟩, oneHot j s.symbol_list.length) := by
  unfold tag_system_to_cyclic_tags_dict
  rw [List.getElem?_map, List.getElem?_enum, List.getElem?_eq_getElem hj]
  rfl

theorem td_keys {α : Type} (s : TagSystem α) :
    (tag_system_to_cyclic_tags_dict s).map Prod.fst = s.symbol_list := by
  unfold tag_system_to_cyclic_tags_dict
  rw [List.map_map]
  exact List.enum_map_snd s.symbol_list

theorem td_values {α : Type} (s : TagSystem α) :
    (tag_system_to_cyclic_tags_dict s).map Prod.snd
      = (List.range s.symbol_list.length).map
          (fun i => oneHot i s.symbol_list.length) := by
  unfold tag_system_to_cyclic_tags_dict
  rw [List.map_map, ← List.enum_map_fst s.symbol_list, List.map_map]
  rfl

theorem td_values_nodup {α : Type} (s : TagSystem α) :
    ((tag_system_to_cyclic_tags_dict s).map Prod.snd).Nodup := by
  rw [td_values]
  refine List.Nodup.map_on ?_ (List.nodup_range _)
  intro x hx y hy hxy
  exact oneHot_inj (List.mem_range.mp hx) (List.mem_range.mp hy) hxy

theorem td_entry_mem {α : Type} (s : TagSystem α) {j : Nat}
    (hj : j < s.symbol_list.length) :
    (s.symbol_list.get ⟨j, hj⟩, oneHot j s.symbol_list.length)
      ∈ tag_system_to_cyclic_tags_dict s :=
  List.getElem?_mem (td_getElem s j hj)

/-- The one-hot tag of an alphabet symbol, via its (unique) index. -/
def symHot {α : Type} [DecidableEq α] (s : TagSystem α) (x : α) : CyclicTag :=
  oneHot (s.symbol_list.indexOf x) s.symbol_list.length

theorem symbol_list_nodup {α : Type} [DecidableEq α] {s : TagSystem α}
    (hkeys : (s.transition.map Prod.fst).Nodup) : s.symbol_list.Nodup := hkeys

theorem symHot_spec {α : Type} [DecidableEq α] {s : TagSystem α}
    (hkeys : (s.transition.map Prod.fst).Nodup) {x : α}
    (hx : x ∈ s.symbol_list) :
    alookup (tag_system_to_cyclic_tags_dict s) x = some (symHot s x) ∧
    (symHot s x).length = s.symbol_list.length ∧
    rlookup (tag_system_to_cyclic_tags_dict s) (symHot s x) = some x := by
  have hidx : s.symbol_list.indexOf x < s.symbol_list.length :=
    List.indexOf_lt_length.mpr hx
  have hget : s.symbol_list.get ⟨s.symbol_list.indexOf x, hidx⟩ = x :=
    List.getElem_indexOf hidx
  have hmem : (x, symHot s x) ∈ tag_system_to_cyclic_tags_dict s := by
    have := td_entry_mem s hidx
    rw [hget] at this
    exact this
  refine ⟨?_, oneHot_length hidx, ?_⟩
  · refine alookup_of_mem_nodup ?_ hmem
    rw [td_keys]
    exact symbol_list_nodup hkeys
  · exact rlookup_of_mem_nodup (td_values_nodup s) hmem

theorem encSyms_eq {α : Type} [DecidableEq α] (dict : List (α × CyclicTag))
    (f : α → CyclicTag) :
    ∀ (l : List α), (∀ x ∈ l, alookup dict x = some (f x)) →
    encSyms dict l = some ((l.map f).flatten) := by
  intro l
  induction l with
  | nil => intro _; rfl
  | cons x rest ih =>
    intro h
    unfold encSyms
    rw [h x (List.mem_cons_self _ _), ih (fun y hy => h y (List.mem_cons_of_mem _ hy))]
    rw [List.map_cons, List.flatten_cons]

/-! ### C4 (amended) : the decode loop on a well-formed transition list -/

theorem ctdLoop_spec {α : Type} [DecidableEq α] (dict : List (α × CyclicTag))
    (sc : Nat) (T : List CyclicTag) :
    ∀ (pending : List (α × List α)) (i : Nat) (acc : List (α × List α))
      (fuel : Nat), pending.length < fuel →
    (∀ j, (hj : j < pending.length) →
      ∃ slot, T[i + j]? = some slot ∧ slot ≠ [] ∧
        (chunksOf dict.length slot).mapM (rlookup dict)
          = some (pending.get ⟨j, hj⟩).2 ∧
        rlookup dict (oneHot (i + j) sc) = some (pending.get ⟨j, hj⟩).1) →
    T[i + pending.length]? = some [] →
    ctdLoop dict sc fuel i (CyclicTransition.mk T i) acc
      = some (acc ++ pending,
          CyclicTransition.mk T ((i + pending.length + 1) % T.length)) := by
  intro pending
  induction pending with
  | nil =>
    intro i acc fuel hfuel _ hempty
    obtain ⟨m, rfl⟩ : ∃ m, fuel = m + 1 := ⟨fuel - 1, by omega⟩
    have hempty' : T[i]? = some [] := by simpa using hempty
    have hlt : i < T.length := by
      by_contra hge
      rw [List.getElem?_eq_none (by omega)] at hempty'
      exact absurd hempty' (by simp)
    unfold ctdLoop
    have hnext : (CyclicTransition.mk T i).nextO
        = some ([], CyclicTransition.mk T (if T.length ≤ i + 1 then 0 else i + 1)) := by
      unfold CyclicTransition.nextO
      dsimp only
      rw [hempty']
    rw [hnext]
    dsimp only
    rw [if_pos (show ([] : List CyclicSymbol).length = 0 from rfl)]
    have hpt : (if T.length ≤ i + 1 then 0 else i + 1) = (i + 0 + 1) % T.length := by
      by_cases hw : T.length ≤ i + 1
      · rw [if_pos hw]
        have he : i + 0 + 1 = T.length := by omega
        rw [he, Nat.mod_self]
      · rw [if_neg hw, Nat.mod_eq_of_lt (by omega)]
    rw [hpt]
    simp
  | cons kp rest ih =>
    intro i acc fuel hfuel hslots hempty
    obtain ⟨m, rfl⟩ : ∃ m, fuel = m + 1 := ⟨fuel - 1, by omega⟩
    obtain ⟨slot, hslot, hne, hchunks, hkey⟩ := hslots 0 (by simp)
    have hget0 : ((kp :: rest).get ⟨0, by simp⟩) = kp := rfl
    rw [hget0] at hchunks hkey
    rw [show i + 0 = i from rfl] at hslot hkey
    have hlen1 : i + (kp :: rest).length = i + rest.length + 1 := by
      simp only [List.length_cons]
      omega
    have hlt : i + rest.length + 1 < T.length := by
      by_contra hge
      rw [hlen1, List.getElem?_eq_none (by omega)] at hempty
      exact absurd hempty (by simp)
    unfold ctdLoop
    have hnext : (CyclicTransition.mk T i).nextO
        = some (slot, CyclicTransition.mk T (if T.length ≤ i + 1 then 0 else i + 1)) := by
      unfold CyclicTransition.nextO
      dsimp only
      rw [hslot]
    rw [hnext]
    dsimp only
    rw [if_neg (by simpa using hne), hchunks]
    dsimp only
    rw [hkey]
    dsimp only
    have hpt : (if T.length ≤ i + 1 then 0 else i + 1) = i + 1 := if_neg (by omega)
    rw [hpt]
    have hslots' : ∀ j, (hj : j < rest.length) →
        ∃ slot2, T[(i + 1) + j]? = some slot2 ∧ slot2 ≠ [] ∧
          (chunksOf dict.length slot2).mapM (rlookup dict)
            = some (rest.get ⟨j, hj⟩).2 ∧
          rlookup dict (oneHot ((i + 1) + j) sc) = some (rest.get ⟨j, hj⟩).1 := by
      intro j hj
      obtain ⟨slot2, h1, h2, h3, h4⟩ := hslots (j + 1) (by simp; omega)
      have hgets : ((kp :: rest).get ⟨j + 1, by simp; omega⟩) = rest.get ⟨j, hj⟩ := rfl
      rw [hgets] at h3 h4
      refine ⟨slot2, ?_, h2, h3, ?_⟩
      · rw [show i + 1 + j = i + (j + 1) from by omega]
        exact h1
      · rw [show i + 1 + j = i + (j + 1) from by omega]
        exact h4
    have hempty' : T[(i + 1) + rest.length]? = some [] := by
      rw [show i + 1 + rest.length = i + (kp :: rest).length from by
        simp only [List.length_cons]
        omega]
      exact hempty
    rw [ih (i + 1) (acc ++ [(kp.1, kp.2)]) m (by simp at hfuel; omega) hslots' hempty']
    have e1 : (acc ++ [(kp.1, kp.2)]) ++ rest = acc ++ kp :: rest := by simp
    have e2 : i + 1 + rest.length + 1 = i + (kp :: rest).length + 1 := by
      simp only [List.length_cons]
      omega
    rw [e1, e2]

/-! ### C4 (amended) : the arity-2 round trip -/

theorem slot_chunks_decode {α : Type} [DecidableEq α] {s : TagSystem α}
    (hkeys : (s.transition.map Prod.fst).Nodup) (hA : 1 ≤ s.symbol_list.length)
    {prod : List α} (hsub : ∀ x ∈ prod, x ∈ s.symbol_list) :
    (chunksOf (tag_system_to_cyclic_tags_dict s).length
        ((prod.map (symHot s)).flatten)).mapM
      (rlookup (tag_system_to_cyclic_tags_dict s)) = some prod := by
  rw [td_length]
  rw [chunksOf_flatten (by omega) (prod.map (symHot s)) ?_]
  · exact mapM_map_round _ _ prod
      (fun x hx => (symHot_spec hkeys (hsub x hx)).2.2)
  · intro b hb
    obtain ⟨x, hx, rfl⟩ := List.mem_map.mp hb
    exact (symHot_spec hkeys (hsub x hx)).2.1

theorem ttc_slots_eq {α : Type} [DecidableEq α] (s : TagSystem α)
    (hkeys : (s.transition.map Prod.fst).Nodup)
    (hclosed : ∀ kv ∈ s.transition, ∀ x ∈ kv.2, x ∈ s.symbol_list) :
    (tag_system_to_cyclic_tags_dict s).mapM (fun kv =>
      match alookup s.transition kv.1 with
      | none => none
      | some prod => encSyms (tag_system_to_cyclic_tags_dict s) prod)
      = some (s.transition.map (fun kv => ((kv.2.map (symHot s)).flatten))) := by
  have hstlen : s.transition.length = s.symbol_list.length := by
    unfold TagSystem.symbol_list
    simp
  have hfl : ∀ x ∈ s.symbol_list,
      alookup (tag_system_to_cyclic_tags_dict s) x = some (symHot s x) :=
    fun x hx => (symHot_spec hkeys hx).1
  apply mapM_pointwise
  · rw [td_length]
    simp [hstlen]
  · intro j hj
    rw [td_length] at hj
    have hjst : j < s.transition.length := by omega
    rw [td_getElem s j hj]
    have hkeyj : s.symbol_list.get ⟨j, hj⟩ = (s.transition.get ⟨j, hjst⟩).1 := by
      unfold TagSystem.symbol_list
      simp [List.get_map]
    have hmem : s.transition.get ⟨j, hjst⟩ ∈ s.transition := List.get_mem _ _ _
    have halook : alookup s.transition ((s.transition.get ⟨j, hjst⟩).1)
        = some ((s.transition.get ⟨j, hjst⟩).2) := by
      apply alookup_of_mem_nodup hkeys
      have : ((s.transition.get ⟨j, hjst⟩).1, (s.transition.get ⟨j, hjst⟩).2)
          = s.transition.get ⟨j, hjst⟩ := rfl
      rw [this]
      exact hmem
    have henc : encSyms (tag_system_to_cyclic_tags_dict s)
        ((s.transition.get ⟨j, hjst⟩).2)
        = some ((((s.transition.get ⟨j, hjst⟩).2).map (symHot s)).flatten) :=
      encSyms_eq _ _ _ (fun x hx => hfl x (hclosed _ hmem x hx))
    rw [Option.some_bind]
    dsimp only
    rw [hkeyj, halook]
    dsimp only
    rw [henc]
    rw [List.getElem?_map, List.getElem?_eq_getElem hjst]
    rfl

theorem strChars_singleton {x : String} (h : x.length = 1) :
    strChars x = [x] := by
  obtain ⟨l⟩ := x
  have hl : l.length = 1 := h
  obtain ⟨c, rfl⟩ : ∃ c, l = [c] := by
    cases l with
    | nil => simp at hl
    | cons a t =>
      cases t with
      | nil => exact ⟨a, rfl⟩
      | cons b u =>
        simp only [List.length_cons] at hl
        omega
  rfl

theorem flatten_strChars_of_single {l : List String}
    (h : ∀ x ∈ l, x.length = 1) : (l.map strChars).flatten = l := by
  induction l with
  | nil => rfl
  | cons a t ih =>
    rw [List.map_cons, List.flatten_cons,
      strChars_singleton (h a (List.mem_cons_self a t)),
      ih (fun x hx => h x (List.mem_cons_of_mem a hx))]
    rfl

/-- C4 (amended): for every tag system with at least one alphabet symbol,
all symbols single-character strings, deletion arity `num = 2`, no empty
productions, and productions and tape drawn from the alphabet, encoding to
a cyclic tag system (via `tag_system_to_cyclic_transitions` with `num = 2`
and `tag_system_to_cyclic_tape`) and decoding back with
`cyclic_system_dict_to_tag_system` under the same translation dictionary
reproduces the original tag transition, tape, and arity exactly, the
decoder recovering `num` as transition length ÷ symbol count = 2A/A = 2
— an even division.  (For `num ≠ 2` or empty productions the decode fails;
for a multi-character symbol the decoded tape is split into characters.) -/
theorem cyclic_roundtrip (s : TagSystem String)
    (hne : s.transition ≠ [])
    (hkeys : (s.transition.map Prod.fst).Nodup)
    (hnum : s.num = 2)
    (hchar : ∀ x ∈ s.symbol_list, x.length = 1)
    (hprod : ∀ kv ∈ s.transition, kv.2 ≠ [])
    (hclosed : ∀ kv ∈ s.transition, ∀ x ∈ kv.2, x ∈ s.symbol_list)
    (htape : ∀ x ∈ s.tape, x ∈ s.symbol_list) :
    ∃ ct tp ct2,
      tag_system_to_cyclic_transitions s 2 = some ct ∧
      tag_system_to_cyclic_tape s = some tp ∧
      cyclic_system_dict_to_tag_system (CyclicTagSystem.mk ct tp)
        (tag_system_to_cyclic_tags_dict s) = some (s, ct2) := by
  have hstlen : s.transition.length = s.symbol_list.length := by
    unfold TagSystem.symbol_list
    simp
  have hA1 : 1 ≤ s.symbol_list.length := by
    rw [← hstlen]
    have hz : s.transition.length ≠ 0 := by
      intro hc
      exact hne (List.length_eq_zero.mp hc)
    omega
  have hfl : ∀ x ∈ s.symbol_list,
      alookup (tag_system_to_cyclic_tags_dict s) x = some (symHot s x) :=
    fun x hx => (symHot_spec hkeys hx).1
  -- the encoded tape
  have htpenc : tag_system_to_cyclic_tape s
      = some ((s.tape.map (symHot s)).flatten) := by
    unfold tag_system_to_cyclic_tape
    exact encSyms_eq _ _ s.tape (fun x hx => hfl x (htape x hx))
  -- the encoded transition slots
  have hslotsEq := ttc_slots_eq s hkeys hclosed
  obtain ⟨B, hB⟩ : ∃ B, s.symbol_list.length = B + 1 :=
    ⟨s.symbol_list.length - 1, by omega⟩
  set slots := s.transition.map
    (fun kv => ((kv.2.map (symHot s)).flatten)) with hslots_def
  set T := slots ++ List.replicate s.symbol_list.length ([] : CyclicTag) with hT_def
  have hctenc : tag_system_to_cyclic_transitions s 2
      = some (CyclicTransition.ofList T) := by
    unfold tag_system_to_cyclic_transitions
    dsimp only
    rw [hslotsEq]
    dsimp only
    rw [td_length, hT_def]
    norm_num
  have hslotlen : slots.length = s.symbol_list.length := by
    rw [hslots_def]
    simp [hstlen]
  have hTlen : T.length = 2 * s.symbol_list.length := by
    rw [hT_def, List.length_append, hslotlen, List.length_replicate]
    ring
  have hslotself : ∀ slot ∈ slots, 0 < slot.length := by
    intro slot hslot
    rw [hslots_def] at hslot
    obtain ⟨kv, hkv, rfl⟩ := List.mem_map.mp hslot
    rw [flatten_length_uniform s.symbol_list.length _ ?_]
    · have hkv2 : kv.2.length ≠ 0 := by
        intro hc
        exact hprod kv hkv (List.length_eq_zero.mp hc)
      have hm : (kv.2.map (symHot s)).length = kv.2.length := by simp
      rw [hm]
      exact Nat.mul_pos (by omega) (by omega)
    · intro b hb
      obtain ⟨x, hx, rfl⟩ := List.mem_map.mp hb
      exact (symHot_spec hkeys (hclosed kv hkv x hx)).2.1
  have hsymcount : cyclic_transition_to_symbol_count
      (CyclicTransition.ofList T) = s.symbol_list.length := by
    unfold cyclic_transition_to_symbol_count CyclicTransition.ofList
    dsimp only
    rw [hT_def, List.filter_append]
    have h1 : slots.filter (fun t => decide (t.length = 0)) = [] := by
      rw [List.filter_eq_nil]
      intro a ha
      have hpos := hslotself a ha
      simp only [decide_eq_true_eq]
      omega
    have h2 : (List.replicate s.symbol_list.length ([] : CyclicTag)).filter
        (fun t => decide (t.length = 0)) = List.replicate s.symbol_list.length [] := by
      rw [List.filter_eq_self]
      intro a ha
      have he := List.eq_of_mem_replicate ha
      subst he
      simp
    rw [h1, h2]
    simp
  have htapedec : cyclic_tape_dict_to_tag_tape ((s.tape.map (symHot s)).flatten)
      (tag_system_to_cyclic_tags_dict s) = some s.tape := by
    unfold cyclic_tape_dict_to_tag_tape
    have hn0 : ¬ ((tag_system_to_cyclic_tags_dict s).length = 0) := by
      rw [td_length]
      omega
    rw [if_neg hn0]
    have hmod : ((s.tape.map (symHot s)).flatten).length
        % (tag_system_to_cyclic_tags_dict s).length = 0 := by
      rw [td_length, flatten_length_uniform s.symbol_list.length _ ?_]
      · simp [Nat.mul_mod_right]
      · intro b hb
        obtain ⟨x, hx, rfl⟩ := List.mem_map.mp hb
        exact (symHot_spec hkeys (htape x hx)).2.1
    rw [if_neg (not_not_intro hmod), if_neg (not_not_intro (td_values_nodup s))]
    rw [slot_chunks_decode hkeys hA1 htape]
    dsimp only
    rw [flatten_strChars_of_single (fun x hx => hchar x (htape x hx))]
  have htransdec : cyclic_transition_dict_to_tag_transition
      (CyclicTransition.ofList T) (tag_system_to_cyclic_tags_dict s)
      = some (s.transition,
          CyclicTransition.mk T ((0 + s.transition.length + 1) % T.length)) := by
    unfold cyclic_transition_dict_to_tag_transition
    rw [if_neg (not_not_intro (td_values_nodup s))]
    rw [hsymcount]
    have hofl : CyclicTransition.ofList T = CyclicTransition.mk T 0 := rfl
    rw [hofl]
    have hruntr : (CyclicTransition.mk T 0).transitions = T := rfl
    rw [hruntr]
    have hrun := ctdLoop_spec (tag_system_to_cyclic_tags_dict s)
      s.symbol_list.length T s.transition 0 [] T.length ?_ ?_ ?_
    · rw [hrun]
      simp
    · rw [hTlen, hstlen]
      omega
    · intro j hj
      have hjA : j < s.symbol_list.length := by omega
      refine ⟨((s.transition.get ⟨j, hj⟩).2.map (symHot s)).flatten, ?_, ?_, ?_, ?_⟩
      · rw [show (0 : Nat) + j = j from by omega, hT_def]
        rw [List.getElem?_append_left (by rw [hslotlen]; omega)]
        rw [hslots_def, List.getElem?_map, List.getElem?_eq_getElem hj]
        rfl
      · have hmm := hslotself (((s.transition.get ⟨j, hj⟩).2.map (symHot s)).flatten)
          (by rw [hslots_def]
              exact List.mem_map.mpr ⟨s.transition.get ⟨j, hj⟩, List.get_mem _ _ _, rfl⟩)
        intro hc
        rw [hc] at hmm
        simp at hmm
      · exact slot_chunks_decode hkeys hA1
          (hclosed (s.transition.get ⟨j, hj⟩) (List.get_mem _ _ _))
      · rw [show (0 : Nat) + j = j from by omega]
        have hmem := td_entry_mem s hjA
        have hkeyj : s.symbol_list.get ⟨j, hjA⟩ = (s.transition.get ⟨j, hj⟩).1 := by
          unfold TagSystem.symbol_list
          simp [List.get_map]
        rw [hkeyj] at hmem
        exact rlookup_of_mem_nodup (td_values_nodup s) hmem
    · rw [show (0 : Nat) + s.transition.length = s.transition.length from by omega]
      rw [hT_def, List.getElem?_append_right (by rw [hslotlen, hstlen])]
      rw [hslotlen, hstlen, Nat.sub_self, List.getElem?_replicate]
      rw [if_pos (by omega)]
  refine ⟨CyclicTransition.ofList T, (s.tape.map (symHot s)).flatten,
    CyclicTransition.mk T ((0 + s.transition.length + 1) % T.length),
    hctenc, htpenc, ?_⟩
  unfold cyclic_system_dict_to_tag_system
  dsimp only
  rw [htapedec]
  dsimp only
  rw [htransdec]
  dsimp only
  have hcstr : (CyclicTransition.ofList T).transitions = T := rfl
  rw [hcstr, hsymcount, hB]
  dsimp only
  rw [hTlen, hB]
  rw [if_pos (by rw [Nat.mul_comm]; exact Nat.mul_mod_right _ _)]
  rw [Nat.mul_div_cancel _ (by omega : 0 < B + 1)]
  have hs : ({ transition := s.transition, num := 2, tape := s.tape } : TagSystem String) = s := by
    rw [← hnum]
  rw [hs]


/-- The concrete two-symbol arity-2 system `{"a": ["b"], "b": ["a"]}` with
tape `["a", "b"]`, used to witness the round trip. -/
def c4w : TagSystem String :=
  { transition := [("a", ["b"]), ("b", ["a"])], num := 2, tape := ["a", "b"] }

/-- Witness for `cyclic_roundtrip` at the concrete system `c4w`. -/
theorem cyclic_roundtrip_witness :
    ∃ ct tp ct2,
      tag_system_to_cyclic_transitions c4w 2 = some ct ∧
      tag_system_to_cyclic_tape c4w = some tp ∧
      cyclic_system_dict_to_tag_system (CyclicTagSystem.mk ct tp)
        (tag_system_to_cyclic_tags_dict c4w) = some (c4w, ct2) :=
  cyclic_roundtrip c4w (by decide) (by decide) rfl (by decide) (by decide)
    (by decide) (by decide)

/-! ## assemble_to_turing.py : the synchronizer (two registered levels) -/

/-- The `Nester.__next__` inner do-while: `next(obj); counter += 1; while
not condition(obj): next(obj); counter += 1`.  Fuel-bounded; `none` models a
raised error or a loop that outruns the fuel. -/
def stepUntil {σ : Type} (pred : σ → Bool) (step : σ → Option σ) :
    Nat → σ → Option (Nat × σ)
  | 0, _ => none
  | fuel + 1, s =>
    match step s with
    | none => none
    | some s1 =>
      if pred s1 then some (1, s1)
      else
        match stepUntil pred step fuel s1 with
        | none => none
        | some (n, s2) => some (n + 1, s2)

/-- `for _ in range(k)` of do-while rounds, accumulating the counter. -/
def stepUntilN {σ : Type} (pred : σ → Bool) (step : σ → Option σ)
    (fuel : Nat) : Nat → σ → Option (Nat × σ)
  | 0, s => some (0, s)
  | k + 1, s =>
    match stepUntil pred step fuel s with
    | none => none
    | some (n, s1) =>
      match stepUntilN pred step fuel k s1 with
      | none => none
      | some (m, s2) => some (n + m, s2)

/-- The `Nester` of `assemble_to_turing.__main__`, with its two registered
levels: base `BinaryTuring`, level 1 `turing_machine_to_tag_system` /
`is_step_passed`, level 2 `tag_system_to_cyclic_machine` /
`is_tag_step_passed`. -/
structure Nester2 where
  base : BinaryTuring
  tag : TagSystem TagSym
  cyc : CyclicTagSystem

/-- `Nester.generate()` for the two-level pipeline: apply each transform in
order to the previous level's current state. -/
def Nester2.generateO (m : BinaryTuring) : Option Nester2 :=
  match tag_system_to_cyclic_machine (turing_machine_to_tag_system m) with
  | none => none
  | some cyc => some ⟨m, turing_machine_to_tag_system m, cyc⟩

/-- `Nester.__next__` for the two-level pipeline: one base step; then
`math.prod([1]) = 1` do-while round at the tag level; then
`math.prod([1, c₁]) = c₁` do-while rounds at the cyclic level.  Returns the
advanced pipeline and the `prev_count` list `(1, c₁, c₂)`. -/
def Nester2.nextO (fuel : Nat) (n : Nester2) :
    Option (Nester2 × Nat × Nat × Nat) :=
  match n.base.stepO with
  | none => none
  | some b =>
    match stepUntilN is_step_passed TagSystem.stepO fuel 1 n.tag with
    | none => none
    | some (c1, tag1) =>
      match stepUntilN is_tag_step_passed CyclicTagSystem.stepO fuel
          (1 * c1) n.cyc with
      | none => none
      | some (c2, cyc1) => some (⟨b, tag1, cyc1⟩, 1, c1, c2)

/-- Python `dict.__eq__`: order-insensitive key/value equality (keys are
unique in any dict this model builds). -/
def dictBeq {α β : Type} [DecidableEq α] [DecidableEq β]
    (d1 d2 : List (α × β)) : Bool :=
  d1.all (fun kv => alookup d2 kv.1 = some kv.2) &&
  d2.all (fun kv => alookup d1 kv.1 = some kv.2)

/-- `TagSystem.__eq__`: transition dicts equal (as dicts), tapes equal,
`num`s equal. -/
def tagSystemBeq (s1 s2 : TagSystem TagSym) : Bool :=
  dictBeq s1.transition s2.transition && decide (s1.tape = s2.tape)
    && decide (s1.num = s2.num)

/-- `CyclicTagSystem.__eq__`: transitions equal via
`CyclicTransition.__eq__` (which compares the transition lists only, not
the pointer) and tapes equal. -/
def cyclicBeq (c1 c2 : CyclicTagSystem) : Bool :=
  decide (c1.transition.transitions = c2.transition.transitions)
    && decide (c1.tape = c2.tape)

/-- `Nester.compare()` for the two-level pipeline: re-derive each level from
the previous level's current state and compare structurally. -/
def Nester2.compareO (n : Nester2) : Option (List Bool) :=
  match tag_system_to_cyclic_machine n.tag with
  | none => none
  | some c =>
    some [tagSystemBeq n.tag (turing_machine_to_tag_system n.base),
          cyclicBeq n.cyc c]

/-! ## The tuple-level semantics of one Turing step -/

/-- One Turing step on the `TuringTapeTuple` view: a RIGHT move shifts the
written bit into `left_number` and pops the low bit of `right_number` as the
new head; a LEFT move mirrors this. -/
def tupleStep (tr : TuringTransition) (ts : TuringTapeTuple) : TuringTapeTuple :=
  match tr.move with
  | TuringDirection.RIGHT =>
    { state := tr.next_state,
      left_number := 2 * ts.left_number
        + (if tr.write = TuringSymbol.ONE then 1 else 0),
      right_number := ts.right_number / 2,
      head := if ts.right_number % 2 = 1 then TuringSymbol.ONE
              else TuringSymbol.ZERO }
  | TuringDirection.LEFT =>
    { state := tr.next_state,
      left_number := ts.left_number / 2,
      right_number := 2 * ts.right_number
        + (if tr.write = TuringSymbol.ONE then 1 else 0),
      head := if ts.left_number % 2 = 1 then TuringSymbol.ONE
              else TuringSymbol.ZERO }

/-- The tuple semantics of `BinaryTuring.__next__` given a table. -/
def tupleStepO (tbl : List TuringStateTransition) (ts : TuringTapeTuple) :
    Option TuringTapeTuple :=
  match lookupState tbl ts.state with
  | none => none
  | some st =>
    some (tupleStep (if ts.head = TuringSymbol.ZERO then st.transitions.1
                     else st.transitions.2) ts)

theorem leftNumAux_append (l1 l2 : List TuringSymbol) :
    ∀ (a : Nat), leftNumAux (l1 ++ l2) a = leftNumAux l2 (leftNumAux l1 a) := by
  induction l1 with
  | nil => intro a; rfl
  | cons x rest ih =>
    intro a
    show leftNumAux (rest ++ l2) _ = _
    rw [ih]
    rfl

theorem leftNumAux_snoc (l : List TuringSymbol) (w : TuringSymbol) :
    leftNumAux (l ++ [w]) 0
      = 2 * leftNumAux l 0 + (if w = TuringSymbol.ONE then 1 else 0) := by
  rw [leftNumAux_append]
  rfl

theorem leftNumAux_dropLast (l : List TuringSymbol) (x : TuringSymbol)
    (hlast : l.getLast? = some x) :
    leftNumAux l 0 = 2 * leftNumAux l.dropLast 0
      + (if x = TuringSymbol.ONE then 1 else 0) := by
  have hne : l ≠ [] := by
    intro hc
    rw [hc] at hlast
    exact absurd hlast (by simp)
  have hsplit : l = l.dropLast ++ [l.getLast hne] := (List.dropLast_append_getLast hne).symm
  have hx : l.getLast hne = x := by
    have := List.getLast?_eq_getLast l hne
    rw [hlast] at this
    exact (Option.some.injEq _ _).mp this.symm
  calc leftNumAux l 0 = leftNumAux (l.dropLast ++ [l.getLast hne]) 0 := by rw [← hsplit]
  _ = 2 * leftNumAux l.dropLast 0 + (if l.getLast hne = TuringSymbol.ONE then 1 else 0) :=
      leftNumAux_snoc _ _
  _ = _ := by rw [hx]


theorem rightVal_cons_div (y : TuringSymbol) (r : List TuringSymbol) :
    rightVal (y :: r) / 2 = rightVal r
      ∧ rightVal (y :: r) % 2 = (if y = TuringSymbol.ONE then 1 else 0) := by
  have h : rightVal (y :: r)
      = (if y = TuringSymbol.ONE then 1 else 0) + 2 * rightVal r := rfl
  rw [h]
  cases y <;> simp <;> omega

theorem BinaryTuringTape.write_decomp {t : BinaryTuringTape}
    {c : TuringSymbol} {l r : List TuringSymbol} (w : TuringSymbol)
    (htape : t.tape = l ++ c :: r)
    (haddr : t.head - t.tape_offset = (l.length : Int)) :
    (t.write w).tape = l ++ w :: r ∧ (t.write w).head = t.head ∧
    (t.write w).tape_offset = t.tape_offset := by
  refine ⟨?_, rfl, rfl⟩
  show t.tape.set t.headAddr.toNat w = _
  have ha : t.headAddr.toNat = l.length := by
    unfold BinaryTuringTape.headAddr
    omega
  rw [ha, htape, List.set_append, if_neg (by omega)]
  have : l.length - l.length = 0 := by omega
  rw [this]
  rfl

/-- Values of the three tuple components on a tape window decomposed around
the head cell. -/
theorem tape_vals_of_decomp (tp : List TuringSymbol) (h off : Int)
    (l r : List TuringSymbol) (c : TuringSymbol)
    (htape : tp = l ++ c :: r) (haddr : h - off = (l.length : Int)) :
    (BinaryTuringTape.mk tp h off).left_number = leftNumAux l 0 ∧
    (BinaryTuringTape.mk tp h off).right_number = rightVal r ∧
    (BinaryTuringTape.mk tp h off).head_symbol = c := by
  subst htape
  have ha : (BinaryTuringTape.mk (l ++ c :: r) h off).headAddr.toNat = l.length := by
    unfold BinaryTuringTape.headAddr
    dsimp only
    omega
  refine ⟨?_, ?_, ?_⟩
  · unfold BinaryTuringTape.left_number
    rw [ha]
    dsimp only
    rw [List.take_left' rfl]
  · unfold BinaryTuringTape.right_number
    rw [ha]
    dsimp only
    rw [show l ++ c :: r = (l ++ [c]) ++ r from by simp,
      List.drop_left' (by simp)]
  · unfold BinaryTuringTape.head_symbol
    rw [ha]
    dsimp only
    rw [List.getD_eq_getElem?_getD, List.getElem?_append_right (le_refl _),
      Nat.sub_self]
    simp

theorem BinaryTuringTape.moveRight_vals {u : BinaryTuringTape}
    {w : TuringSymbol} {l r : List TuringSymbol}
    (htape : u.tape = l ++ w :: r)
    (haddr : u.head - u.tape_offset = (l.length : Int)) :
    u.moveRight.left_number
      = 2 * leftNumAux l 0 + (if w = TuringSymbol.ONE then 1 else 0) ∧
    u.moveRight.right_number = rightVal r / 2 ∧
    u.moveRight.head_symbol
      = (if rightVal r % 2 = 1 then TuringSymbol.ONE else TuringSymbol.ZERO) := by
  by_cases hC : u.head = u.tape_offset ∧ u.tape.head? = some TuringSymbol.ZERO
  · -- front trim: the head sat on cell 0 and it was ZERO, so l = [], w = ZERO
    have hl : l = [] := by
      have h0 : (l.length : Int) = 0 := by omega
      have h1 : l.length = 0 := by omega
      exact List.length_eq_zero.mp h1
    subst hl
    have hw : w = TuringSymbol.ZERO := by
      have h2 := hC.2
      rw [htape] at h2
      simp at h2
      exact h2
    subst hw
    cases r with
    | nil =>
      have htail : u.tape.tail = [] := by rw [htape]; rfl
      have hmv : u.moveRight = BinaryTuringTape.mk [TuringSymbol.ZERO]
          (u.head + 1) (u.tape_offset + 1) := by
        unfold BinaryTuringTape.moveRight
        rw [if_pos hC]
        dsimp only
        rw [htail, if_pos (by rw [List.length_nil]; omega)]
        rfl
      rw [hmv]
      obtain ⟨h1, h2, h3⟩ := tape_vals_of_decomp [TuringSymbol.ZERO]
        (u.head + 1) (u.tape_offset + 1) [] [] TuringSymbol.ZERO rfl
        (by rw [List.length_nil]; omega)
      rw [h1, h2, h3]
      refine ⟨by decide, by decide, by decide⟩
    | cons y rtl =>
      have htail : u.tape.tail = y :: rtl := by rw [htape]; rfl
      have hmv : u.moveRight = BinaryTuringTape.mk (y :: rtl)
          (u.head + 1) (u.tape_offset + 1) := by
        unfold BinaryTuringTape.moveRight
        rw [if_pos hC]
        dsimp only
        rw [htail, if_neg (by rw [List.length_cons]; omega)]
      rw [hmv]
      obtain ⟨h1, h2, h3⟩ := tape_vals_of_decomp (y :: rtl)
        (u.head + 1) (u.tape_offset + 1) [] rtl y rfl
        (by rw [List.length_nil]; omega)
      rw [h1, h2, h3]
      obtain ⟨hdiv, hmod⟩ := rightVal_cons_div y rtl
      refine ⟨by decide, hdiv.symm, ?_⟩
      rw [hmod]
      cases y <;> simp
  · have hlen : u.tape.length = l.length + 1 + r.length := by
      rw [htape]
      simp
      omega
    cases r with
    | nil =>
      have hmv : u.moveRight = BinaryTuringTape.mk ((l ++ [w]) ++ [TuringSymbol.ZERO])
          (u.head + 1) u.tape_offset := by
        unfold BinaryTuringTape.moveRight
        rw [if_neg hC]
        dsimp only
        rw [if_pos (by rw [hlen, List.length_nil]; push_cast; omega)]
        rw [htape]
      rw [hmv]
      obtain ⟨h1, h2, h3⟩ := tape_vals_of_decomp ((l ++ [w]) ++ [TuringSymbol.ZERO])
        (u.head + 1) u.tape_offset (l ++ [w]) [] TuringSymbol.ZERO rfl
        (by rw [List.length_append, List.length_cons, List.length_nil]; push_cast; omega)
      rw [h1, h2, h3, leftNumAux_snoc]
      refine ⟨rfl, by decide, by decide⟩
    | cons y rtl =>
      have hmv : u.moveRight = BinaryTuringTape.mk ((l ++ [w]) ++ y :: rtl)
          (u.head + 1) u.tape_offset := by
        unfold BinaryTuringTape.moveRight
        rw [if_neg hC]
        dsimp only
        rw [if_neg (by rw [hlen, List.length_cons]; push_cast; omega)]
        rw [htape]
        simp
      rw [hmv]
      obtain ⟨h1, h2, h3⟩ := tape_vals_of_decomp ((l ++ [w]) ++ y :: rtl)
        (u.head + 1) u.tape_offset (l ++ [w]) rtl y rfl
        (by rw [List.length_append, List.length_cons, List.length_nil]; push_cast; omega)
      rw [h1, h2, h3, leftNumAux_snoc]
      obtain ⟨hdiv, hmod⟩ := rightVal_cons_div y rtl
      refine ⟨rfl, hdiv.symm, ?_⟩
      rw [hmod]
      cases y <;> simp

theorem BinaryTuringTape.moveLeft_vals {u : BinaryTuringTape}
    {w : TuringSymbol} {l r : List TuringSymbol}
    (htape : u.tape = l ++ w :: r)
    (haddr : u.head - u.tape_offset = (l.length : Int)) :
    u.moveLeft.left_number = leftNumAux l 0 / 2 ∧
    u.moveLeft.right_number
      = 2 * rightVal r + (if w = TuringSymbol.ONE then 1 else 0) ∧
    u.moveLeft.head_symbol
      = (if leftNumAux l 0 % 2 = 1 then TuringSymbol.ONE else TuringSymbol.ZERO) := by
  have hADDR : u.headAddr = (l.length : Int) := haddr
  have hlen : u.tape.length = l.length + 1 + r.length := by
    rw [htape]
    simp
    omega
  have hrv : rightVal (w :: r)
      = (if w = TuringSymbol.ONE then 1 else 0) + 2 * rightVal r := rfl
  by_cases hC : u.headAddr = (u.tape.length : Int) - 1 ∧
      u.tape.getLast? = some TuringSymbol.ZERO
  · -- back trim: the head sat on the last cell and it was ZERO: r = [], w = ZERO
    have hr : r = [] := by
      have h0 : (r.length : Nat) = 0 := by
        have := hC.1
        rw [hADDR] at this
        omega
      exact List.length_eq_zero.mp h0
    subst hr
    have hw : w = TuringSymbol.ZERO := by
      have h2 := hC.2
      rw [htape] at h2
      rw [show l ++ [w] = l ++ [w] from rfl, List.getLast?_append] at h2
      simp at h2
      exact h2
    subst hw
    have hdrop : u.tape.dropLast = l := by
      rw [htape]
      exact List.dropLast_concat
    by_cases hE : u.head - 1 < u.tape_offset
    · -- fell off the left edge: l = []
      have hl : l = [] := by
        have h0 : l.length = 0 := by
          unfold BinaryTuringTape.headAddr at hADDR
          omega
        exact List.length_eq_zero.mp h0
      subst hl
      have hmv : u.moveLeft = BinaryTuringTape.mk [TuringSymbol.ZERO]
          (u.head - 1) (u.tape_offset - 1) := by
        unfold BinaryTuringTape.moveLeft
        rw [if_pos hC]
        dsimp only
        rw [if_pos hE, hdrop]
      rw [hmv]
      obtain ⟨h1, h2, h3⟩ := tape_vals_of_decomp [TuringSymbol.ZERO]
        (u.head - 1) (u.tape_offset - 1) [] [] TuringSymbol.ZERO rfl
        (by rw [List.length_nil]; omega)
      rw [h1, h2, h3]
      refine ⟨by decide, by decide, by decide⟩
    · -- stayed inside the window: l ≠ []
      have hlpos : 1 ≤ l.length := by
        unfold BinaryTuringTape.headAddr at hADDR
        omega
      have hlne : l ≠ [] := by
        intro hc
        rw [hc] at hlpos
        exact absurd hlpos (by decide)
      have hsplit : l = l.dropLast ++ [l.getLast hlne] :=
        (List.dropLast_append_getLast hlne).symm
      have hlast : l.getLast? = some (l.getLast hlne) :=
        List.getLast?_eq_getLast l hlne
      have hDL := leftNumAux_dropLast l (l.getLast hlne) hlast
      have hmv : u.moveLeft = BinaryTuringTape.mk l
          (u.head - 1) u.tape_offset := by
        unfold BinaryTuringTape.moveLeft
        rw [if_pos hC]
        dsimp only
        rw [if_neg hE, hdrop]
      rw [hmv]
      obtain ⟨h1, h2, h3⟩ := tape_vals_of_decomp l
        (u.head - 1) u.tape_offset l.dropLast [] (l.getLast hlne) hsplit
        (by rw [List.length_dropLast]; push_cast; omega)
      rw [h1, h2, h3]
      refine ⟨?_, by decide, ?_⟩
      · rcases hx : l.getLast hlne with _ | _ <;> simp [hx] at hDL <;> omega
      · rcases hx : l.getLast hlne with _ | _ <;> simp [hx] at hDL
        · rw [if_neg (by omega)]
        · rw [if_pos (by omega)]
  · by_cases hE : u.head - 1 < u.tape_offset
    · -- fell off the left edge with no trim: l = []
      have hl : l = [] := by
        have h0 : l.length = 0 := by
          unfold BinaryTuringTape.headAddr at hADDR
          omega
        exact List.length_eq_zero.mp h0
      subst hl
      have hmv : u.moveLeft = BinaryTuringTape.mk (TuringSymbol.ZERO :: w :: r)
          (u.head - 1) (u.tape_offset - 1) := by
        unfold BinaryTuringTape.moveLeft
        rw [if_neg hC]
        dsimp only
        rw [if_pos hE, htape]
        rfl
      rw [hmv]
      obtain ⟨h1, h2, h3⟩ := tape_vals_of_decomp (TuringSymbol.ZERO :: w :: r)
        (u.head - 1) (u.tape_offset - 1) [] (w :: r) TuringSymbol.ZERO rfl
        (by rw [List.length_nil]; omega)
      rw [h1, h2, h3, hrv]
      refine ⟨by decide, by omega, by decide⟩
    · -- interior move left with no trim: l ≠ []
      have hlpos : 1 ≤ l.length := by
        unfold BinaryTuringTape.headAddr at hADDR
        omega
      have hlne : l ≠ [] := by
        intro hc
        rw [hc] at hlpos
        exact absurd hlpos (by decide)
      have hsplit : l = l.dropLast ++ [l.getLast hlne] :=
        (List.dropLast_append_getLast hlne).symm
      have hlast : l.getLast? = some (l.getLast hlne) :=
        List.getLast?_eq_getLast l hlne
      have hDL := leftNumAux_dropLast l (l.getLast hlne) hlast
      have hmv : u.moveLeft = BinaryTuringTape.mk (l ++ w :: r)
          (u.head - 1) u.tape_offset := by
        unfold BinaryTuringTape.moveLeft
        rw [if_neg hC]
        dsimp only
        rw [if_neg hE, htape]
      rw [hmv]
      obtain ⟨h1, h2, h3⟩ := tape_vals_of_decomp (l ++ w :: r)
        (u.head - 1) u.tape_offset l.dropLast (w :: r) (l.getLast hlne)
        (by
          conv_lhs => rw [hsplit]
          simp)
        (by rw [List.length_dropLast]; push_cast; omega)
      rw [h1, h2, h3, hrv]
      refine ⟨?_, by omega, ?_⟩
      · rcases hx : l.getLast hlne with _ | _ <;> simp [hx] at hDL <;> omega
      · rcases hx : l.getLast hlne with _ | _ <;> simp [hx] at hDL
        · rw [if_neg (by omega)]
        · rw [if_pos (by omega)]

/-- A valid tape window splits as `l ++ head :: r` around the head cell, and
the two number properties read exactly `l` and `r`. -/
theorem BinaryTuringTape.valid_decomp {t : BinaryTuringTape} (hv : t.valid) :
    ∃ l r, t.tape = l ++ t.head_symbol :: r ∧
      t.head - t.tape_offset = (l.length : Int) ∧
      t.left_number = leftNumAux l 0 ∧
      t.right_number = rightVal r := by
  obtain ⟨h0, h1, _, _⟩ := hv
  have hn : t.headAddr.toNat < t.tape.length := by
    unfold BinaryTuringTape.headAddr at *
    omega
  refine ⟨t.tape.take t.headAddr.toNat, t.tape.drop (t.headAddr.toNat + 1),
    ?_, ?_, rfl, rfl⟩
  · have hcons : t.head_symbol :: t.tape.drop (t.headAddr.toNat + 1)
        = t.tape.drop t.headAddr.toNat := by
      rw [List.drop_eq_getElem_cons hn]
      congr 1
      unfold BinaryTuringTape.head_symbol
      rw [List.getD_eq_getElem?_getD, List.getElem?_eq_getElem hn]
      rfl
    rw [hcons]
    exact (List.take_append_drop _ _).symm
  · rw [List.length_take]
    unfold BinaryTuringTape.headAddr at *
    omega

/-- One `BinaryTuring.__next__` step commutes with the tape-tuple view: the
table is shared, validity is preserved, and the tuple of the new machine is
`tupleStepO` of the old tuple. -/
theorem machine_step_tuple {m m' : BinaryTuring} (hv : m.tape.valid)
    (h : m.stepO = some m') :
    m'.table = m.table ∧ m'.tape.valid ∧
    tupleStepO m.table m.tape_tuple = some m'.tape_tuple := by
  obtain ⟨l, r, htape, haddr, hleft, hright⟩ := BinaryTuringTape.valid_decomp hv
  unfold BinaryTuring.stepO at h
  cases hlk : lookupState m.table m.state with
  | none =>
    rw [hlk] at h
    exact absurd h (by simp)
  | some st =>
    rw [hlk] at h
    dsimp only at h
    set tr := (if m.tape.head_symbol = TuringSymbol.ZERO
               then st.transitions.1 else st.transitions.2) with htr
    have hm' : m' = BinaryTuring.mk m.table
        ((m.tape.write tr.write).move tr.move) tr.next_state :=
      ((Option.some.injEq _ _).mp h).symm
    subst hm'
    refine ⟨rfl, BinaryTuringTape.applyOp_valid hv (tr.write, tr.move), ?_⟩
    obtain ⟨hwt, hwh, hwo⟩ := BinaryTuringTape.write_decomp tr.write htape haddr
    have haddr2 : (m.tape.write tr.write).head - (m.tape.write tr.write).tape_offset
        = (l.length : Int) := by
      rw [hwh, hwo]
      exact haddr
    unfold tupleStepO BinaryTuring.tape_tuple
    dsimp only
    rw [hlk]
    dsimp only
    rw [← htr]
    clear_value tr
    clear htr h
    obtain ⟨w, mv, ns⟩ := tr
    dsimp only at hwt haddr2 ⊢
    cases mv with
    | RIGHT =>
      obtain ⟨hL, hR, hH⟩ := BinaryTuringTape.moveRight_vals hwt haddr2
      dsimp only [tupleStep, BinaryTuringTape.move]
      rw [hL, hR, hH, hleft, hright]
    | LEFT =>
      obtain ⟨hL, hR, hH⟩ := BinaryTuringTape.moveLeft_vals hwt haddr2
      dsimp only [tupleStep, BinaryTuringTape.move]
      rw [hL, hR, hH, hleft, hright]

/-! ## C1/C2 : the tag system simulates the Turing machine -/

theorem tagRun_succ {α : Type} [DecidableEq α] (n : Nat) (s : TagSystem α) :
    tagRun (n + 1) s
      = match s.stepO with
        | none => none
        | some s1 => tagRun n s1 := rfl

theorem tagRun_add {α : Type} [DecidableEq α] :
    ∀ (m n : Nat) (s : TagSystem α),
    tagRun (m + n) s = (tagRun m s).bind (tagRun n) := by
  intro m
  induction m with
  | zero =>
    intro n s
    rw [Nat.zero_add]
    rfl
  | succ m ih =>
    intro n s
    rw [Nat.succ_add, tagRun_succ, tagRun_succ]
    cases hs : s.stepO with
    | none => rfl
    | some s1 =>
      dsimp only
      exact ih n s1

/-- A run of `n` successful tag steps all of whose strictly intermediate
states fail `is_step_passed`. -/
def TagRunFF (n : Nat) (s sF : TagSystem TagSym) : Prop :=
  tagRun n s = some sF ∧
  ∀ j, 0 < j → j < n →
    ∃ sj, tagRun j s = some sj ∧ is_step_passed sj = false

theorem tagRunFF_zero (s : TagSystem TagSym) : TagRunFF 0 s s :=
  ⟨rfl, fun j hj1 hj2 => absurd (Nat.lt_of_lt_of_le hj2 (Nat.zero_le _))
    (Nat.lt_irrefl _ ∘ fun h => Nat.lt_of_lt_of_le hj1 (Nat.le_of_lt h))⟩

theorem tagRunFF_one {s s' : TagSystem TagSym} (h : s.stepO = some s') :
    TagRunFF 1 s s' := by
  refine ⟨?_, fun j hj1 hj2 => absurd (Nat.lt_of_le_of_lt hj1 hj2)
    (Nat.lt_irrefl 1)⟩
  rw [show (1 : Nat) = 0 + 1 from rfl, tagRun_succ, h]
  rfl

theorem tagRunFF_trans {m n : Nat} {s s1 s2 : TagSystem TagSym}
    (h1 : TagRunFF m s s1) (h2 : TagRunFF n s1 s2)
    (hmid : n = 0 ∨ is_step_passed s1 = false) :
    TagRunFF (m + n) s s2 := by
  refine ⟨by rw [tagRun_add, h1.1]; exact h2.1, ?_⟩
  intro j hj0 hjmn
  rcases Nat.lt_trichotomy j m with hlt | heq | hgt
  · exact h1.2 j hj0 hlt
  · subst heq
    rcases hmid with hn0 | hfail
    · omega
    · exact ⟨s1, h1.1, hfail⟩
  · have hj : j = m + (j - m) := by omega
    obtain ⟨sj, hrun, hfail⟩ := h2.2 (j - m) (by omega) (by omega)
    refine ⟨sj, ?_, hfail⟩
    rw [hj, tagRun_add, h1.1]
    exact hrun

theorem is_step_passed_false_of_mem {tp : List TagSym} {x : TagSym}
    (hx : x ∈ tp) (hd : TagSym.hasDigit x = false)
    (TT : List (TagSym × List TagSym)) :
    is_step_passed (TagSystem.mk TT 2 tp) = false := by
  unfold is_step_passed
  dsimp only
  rw [List.all_eq_false]
  exact ⟨x, hx, by simp [hd]⟩

/-- One step of a 2-tag system whose front symbol has a production: the
production is appended, the front two symbols go. -/
theorem ts2_step {TT : List (TagSym × List TagSym)} {h : TagSym}
    {t P : List TagSym} (hp : alookup TT h = some P) :
    (TagSystem.mk TT 2 (h :: t)).stepO
      = some (TagSystem.mk TT 2 ((t ++ P).drop 1)) := by
  unfold TagSystem.stepO
  rw [TagSystem.step_cons (TagSystem.mk TT 2 (h :: t)) h t P rfl hp]
  rfl

/-- The Turing state a tag symbol belongs to (the `{k}` in its name). -/
def keyState : TagSym → Nat
  | TagSym.sym _ s _ => s
  | TagSym.star s => s

theorem stateEntries_keyState (st : TuringStateTransition) :
    ∀ kv ∈ stateEntries st, keyState kv.1 = st.state := by
  intro kv hkv
  unfold stateEntries at hkv
  fin_cases hkv <;> rfl

theorem alookup_append {α β : Type} [DecidableEq α]
    (l1 l2 : List (α × β)) (k : α) :
    alookup (l1 ++ l2) k
      = match alookup l1 k with
        | some v => some v
        | none => alookup l2 k := by
  induction l1 with
  | nil => rfl
  | cons kv rest ih =>
    obtain ⟨a, b⟩ := kv
    show (if a = k then some b else alookup (rest ++ l2) k) = _
    have hr : alookup ((a, b) :: rest) k
        = (if a = k then some b else alookup rest k) := rfl
    by_cases h : a = k
    · rw [if_pos h, hr, if_pos h]
    · rw [if_neg h, ih, hr, if_neg h]

theorem alookup_none_of_keyState_ne (l : List (TagSym × List TagSym))
    (key : TagSym) (h : ∀ kv ∈ l, keyState kv.1 ≠ keyState key) :
    alookup l key = none := by
  induction l with
  | nil => rfl
  | cons kv rest ih =>
    unfold alookup
    rw [if_neg (fun hc => h kv (List.mem_cons_self _ _) (by rw [hc])),
      ih (fun kv2 h2 => h kv2 (List.mem_cons_of_mem _ h2))]

theorem stateEntries_lookup_isSome (st : TuringStateTransition) (key : TagSym)
    (h : keyState key = st.state) :
    (alookup (stateEntries st) key).isSome = true := by
  rcases key with ⟨r, s, d⟩ | s
  · have hs : s = st.state := h
    subst hs
    rcases r <;> rcases d with _ | b <;> try rcases b
    all_goals simp [stateEntries, alookup]
  · have hs : s = st.state := h
    subst hs
    simp [stateEntries, alookup]

theorem lookupState_state {tbl : List TuringStateTransition} {k : Nat}
    {st : TuringStateTransition} (h : lookupState tbl k = some st) :
    st.state = k := by
  induction tbl with
  | nil => exact absurd h (by simp [lookupState])
  | cons st0 rest ih =>
    unfold lookupState at h
    by_cases h0 : st0.state = k
    · rw [if_pos h0] at h
      have : st0 = st := by
        simpa using h
      rw [← this]
      exact h0
    · rw [if_neg h0] at h
      exact ih h

theorem alookup_table {tbl : List TuringStateTransition} {k : Nat}
    {st : TuringStateTransition} (hlk : lookupState tbl k = some st)
    (key : TagSym) (hkey : keyState key = k) :
    alookup (turing_table_to_tag_transition tbl) key
      = alookup (stateEntries st) key := by
  induction tbl with
  | nil => exact absurd hlk (by simp [lookupState])
  | cons st0 rest ih =>
    show alookup (stateEntries st0 ++ rest.flatMap stateEntries) key = _
    rw [alookup_append]
    unfold lookupState at hlk
    by_cases h0 : st0.state = k
    · rw [if_pos h0] at hlk
      have hst : st0 = st := by simpa using hlk
      subst hst
      have hsome := stateEntries_lookup_isSome st0 key (by rw [hkey, h0])
      rcases hx : alookup (stateEntries st0) key with _ | v
      · rw [hx] at hsome
        exact absurd hsome (by simp)
      · rfl
    · rw [if_neg h0] at hlk
      rw [alookup_none_of_keyState_ne _ _ (fun kv hkv => by
        rw [stateEntries_keyState st0 kv hkv, hkey]
        exact h0)]
      exact ih hlk

/-- The production of the role-`r` digit-`z` symbol of state `k`. -/
def rolePrd (r : TagRole) (t : TuringTransition) (z : Bool) : List TagSym :=
  match r with
  | TagRole.H => hProd t z
  | TagRole.L => lProd t
  | TagRole.R => rProd t

theorem TT_lookup_digit {tbl : List TuringStateTransition} {k : Nat}
    {st : TuringStateTransition} (hlk : lookupState tbl k = some st)
    (r : TagRole) (z : Bool) :
    alookup (turing_table_to_tag_transition tbl) (TagSym.sym r k (some z))
      = some (rolePrd r
          (if z then st.transitions.2 else st.transitions.1) z) := by
  rw [alookup_table hlk (TagSym.sym r k (some z)) rfl]
  have hst := lookupState_state hlk
  subst hst
  rcases r <;> rcases z <;> simp [stateEntries, alookup, rolePrd]

theorem TT_lookup_plain {tbl : List TuringStateTransition} {k : Nat}
    {st : TuringStateTransition} (hlk : lookupState tbl k = some st)
    (r : TagRole) :
    alookup (turing_table_to_tag_transition tbl) (TagSym.sym r k none)
      = some (tagPair r k) := by
  rw [alookup_table hlk (TagSym.sym r k none) rfl]
  have hst := lookupState_state hlk
  subst hst
  rcases r <;> simp [stateEntries, alookup, tagPair]

theorem TT_lookup_star {tbl : List TuringStateTransition} {k : Nat}
    {st : TuringStateTransition} (hlk : lookupState tbl k = some st) :
    alookup (turing_table_to_tag_transition tbl) (TagSym.star k)
      = some [TagSym.sym TagRole.R k none, TagSym.sym TagRole.R k none] := by
  rw [alookup_table hlk (TagSym.star k) rfl]
  have hst := lookupState_state hlk
  subst hst
  simp [stateEntries, alookup]

theorem flatten_replicate_replicate {α : Type} (n m : Nat) (x : α) :
    (List.replicate n (List.replicate m x)).flatten = List.replicate (n * m) x := by
  induction n with
  | zero => simp
  | succ n ih =>
    rw [List.replicate_succ, List.flatten_cons, ih, Nat.succ_mul, Nat.add_comm,
      ← List.replicate_add]

theorem tail_append_of_ne_nil {α : Type} {D : List α} (X : List α)
    (h : D ≠ []) : (D ++ X).tail = D.tail ++ X := by
  cases D with
  | nil => exact absurd rfl h
  | cons d D' => rfl

theorem lProd_eq (t : TuringTransition) :
    lProd t = List.replicate
      (if t.move = TuringDirection.RIGHT then 4 else 1)
      (TagSym.sym TagRole.L t.next_state none) := by
  unfold lProd
  cases h : t.move <;> simp [h, List.replicate_succ]

theorem rProd_eq (t : TuringTransition) :
    rProd t = List.replicate
      (if t.move = TuringDirection.LEFT then 4 else 1)
      (TagSym.sym TagRole.R t.next_state none) := by
  unfold rProd
  cases h : t.move <;> simp [h, List.replicate_succ]

theorem runFF_blocks {TT : List (TagSym × List TagSym)} (r : TagRole) (k : Nat)
    {P : List TagSym}
    (hlk : alookup TT (TagSym.sym r k (some true)) = some P) :
    ∀ (a : Nat) (W U : List TagSym) (u : TagSym),
    u ∈ U → TagSym.hasDigit u = false →
    TagRunFF a
      (TagSystem.mk TT 2 ((List.replicate a (tagPair r k)).flatten ++ W ++ U))
      (TagSystem.mk TT 2 (W ++ U ++ (List.replicate a P).flatten)) := by
  intro a
  induction a with
  | zero =>
    intro W U u hu hud
    have h1 : (List.replicate 0 (tagPair r k)).flatten ++ W ++ U
        = W ++ U ++ (List.replicate 0 P).flatten := by simp
    rw [h1]
    exact tagRunFF_zero _
  | succ a ih =>
    intro W U u hu hud
    have hstep : (TagSystem.mk TT 2
          ((List.replicate (a + 1) (tagPair r k)).flatten ++ W ++ U)).stepO
        = some (TagSystem.mk TT 2
          ((List.replicate a (tagPair r k)).flatten ++ W ++ (U ++ P))) := by
      have hshape : (List.replicate (a + 1) (tagPair r k)).flatten ++ W ++ U
          = TagSym.sym r k (some true) :: (TagSym.sym r k (some false)
            :: ((List.replicate a (tagPair r k)).flatten ++ W ++ U)) := by
        rw [List.replicate_succ, List.flatten_cons]
        simp [tagPair]
      rw [hshape, ts2_step hlk]
      congr 2
      rw [List.cons_append, List.drop_one, List.tail_cons]
      simp [List.append_assoc]
    have hmid : is_step_passed (TagSystem.mk TT 2
        ((List.replicate a (tagPair r k)).flatten ++ W ++ (U ++ P))) = false :=
      is_step_passed_false_of_mem
        (List.mem_append_right _ (List.mem_append_left _ hu)) hud TT
    have htail := ih W (U ++ P) u (List.mem_append_left _ hu) hud
    have hcomb := tagRunFF_trans (tagRunFF_one hstep) htail (Or.inr hmid)
    have hfin : W ++ (U ++ P) ++ (List.replicate a P).flatten
        = W ++ U ++ (List.replicate (a + 1) P).flatten := by
      rw [List.replicate_succ, List.flatten_cons]
      simp [List.append_assoc]
    rw [show (1 : Nat) + a = a + 1 from by omega, hfin] at hcomb
    exact hcomb

theorem runFF_mis_blocks {TT : List (TagSym × List TagSym)} (r : TagRole)
    (k : Nat) {P : List TagSym}
    (hlk0 : alookup TT (TagSym.sym r k (some false)) = some P)
    {uP : TagSym} (huP : uP ∈ P) (huPd : TagSym.hasDigit uP = false) :
    ∀ (a : Nat), 1 ≤ a → ∀ (d : TagSym) (Pd W U : List TagSym),
    alookup TT d = some Pd →
    (∃ u ∈ Pd, TagSym.hasDigit u = false) →
    TagRunFF a
      (TagSystem.mk TT 2
        (d :: ((List.replicate a (tagPair r k)).flatten ++ W ++ U)))
      (TagSystem.mk TT 2 (TagSym.sym r k (some false)
        :: (W ++ U ++ Pd ++ (List.replicate (a - 1) P).flatten))) := by
  intro a
  induction a with
  | zero => omega
  | succ a ih =>
    intro _ d Pd W U hd hPund
    rcases Nat.eq_zero_or_pos a with ha0 | hapos
    · subst ha0
      apply tagRunFF_one
      have hshape : d :: ((List.replicate 1 (tagPair r k)).flatten ++ W ++ U)
          = d :: (TagSym.sym r k (some true) :: (TagSym.sym r k (some false)
            :: (W ++ U))) := by
        simp [tagPair]
      rw [hshape, ts2_step hd]
      congr 2
      simp [List.append_assoc]
    · have hstep : (TagSystem.mk TT 2
            (d :: ((List.replicate (a + 1) (tagPair r k)).flatten ++ W ++ U))).stepO
          = some (TagSystem.mk TT 2 (TagSym.sym r k (some false)
            :: ((List.replicate a (tagPair r k)).flatten ++ W ++ (U ++ Pd)))) := by
        have hshape : d :: ((List.replicate (a + 1) (tagPair r k)).flatten ++ W ++ U)
            = d :: (TagSym.sym r k (some true) :: (TagSym.sym r k (some false)
              :: ((List.replicate a (tagPair r k)).flatten ++ W ++ U))) := by
          rw [List.replicate_succ, List.flatten_cons]
          simp [tagPair]
        rw [hshape, ts2_step hd]
        congr 2
        simp [List.append_assoc]
      obtain ⟨ud, hud, hudd⟩ := hPund
      have hmid : is_step_passed (TagSystem.mk TT 2 (TagSym.sym r k (some false)
          :: ((List.replicate a (tagPair r k)).flatten ++ W ++ (U ++ Pd)))) = false :=
        is_step_passed_false_of_mem
          (List.mem_cons_of_mem _
            (List.mem_append_right _ (List.mem_append_right _ hud))) hudd TT
      have htail := ih hapos (TagSym.sym r k (some false)) P W (U ++ Pd) hlk0
        ⟨uP, huP, huPd⟩
      have hcomb := tagRunFF_trans (tagRunFF_one hstep) htail (Or.inr hmid)
      have hfin : W ++ (U ++ Pd) ++ P ++ (List.replicate (a - 1) P).flatten
          = W ++ U ++ Pd ++ (List.replicate (a + 1 - 1) P).flatten := by
        rw [show a + 1 - 1 = (a - 1) + 1 from by omega, List.replicate_succ,
          List.flatten_cons]
        simp [List.append_assoc]
      rw [show (1 : Nat) + a = a + 1 from by omega, hfin] at hcomb
      exact hcomb

theorem flat_rep_merge {α : Type} (X : List α) (n : Nat) :
    X ++ (List.replicate n X).flatten = (List.replicate (n + 1) X).flatten := by
  rw [List.replicate_succ, List.flatten_cons]

theorem runFF_rundown {TT : List (TagSym × List TagSym)} (k : Nat)
    (hL : alookup TT (TagSym.sym TagRole.L k none) = some (tagPair TagRole.L k))
    (hR : alookup TT (TagSym.sym TagRole.R k none) = some (tagPair TagRole.R k)) :
    ∀ (n a b : Nat) (D : List TagSym), (a + b + 1) / 2 = n → D ≠ [] →
    TagRunFF n
      (TagSystem.mk TT 2
        (List.replicate a (TagSym.sym TagRole.L k none)
          ++ List.replicate b (TagSym.sym TagRole.R k none) ++ D))
      (TagSystem.mk TT 2
        ((if (a + b) % 2 = 0 then D else D.tail)
          ++ (List.replicate ((a + 1) / 2) (tagPair TagRole.L k)).flatten
          ++ (List.replicate (n - (a + 1) / 2) (tagPair TagRole.R k)).flatten)) := by
  intro n
  induction n with
  | zero =>
    intro a b D hn hD
    have ha : a = 0 := by omega
    have hb : b = 0 := by omega
    subst ha hb
    have h1 : List.replicate 0 (TagSym.sym TagRole.L k none)
        ++ List.replicate 0 (TagSym.sym TagRole.R k none) ++ D = D := by simp
    have h2 : (if (0 + 0) % 2 = 0 then D else D.tail)
        ++ (List.replicate ((0 + 1) / 2) (tagPair TagRole.L k)).flatten
        ++ (List.replicate (0 - (0 + 1) / 2) (tagPair TagRole.R k)).flatten
        = D := by simp
    rw [h1, h2]
    exact tagRunFF_zero _
  | succ n ihn =>
    intro a b D hn hD
    rcases a with _ | a'
    · rcases b with _ | b'
      · omega
      · rcases Nat.eq_zero_or_pos b' with hb0 | hbpos
        · -- a = 0, b = 1 : the single final step eats into D
          subst hb0
          have hn0 : n = 0 := by omega
          subst hn0
          have hfin : (if (0 + 1) % 2 = 0 then D else D.tail)
              ++ (List.replicate ((0 + 1) / 2) (tagPair TagRole.L k)).flatten
              ++ (List.replicate (0 + 1 - (0 + 1) / 2) (tagPair TagRole.R k)).flatten
              = D.tail ++ tagPair TagRole.R k := by
            simp
          rw [hfin]
          apply tagRunFF_one
          have hshape : List.replicate 0 (TagSym.sym TagRole.L k none)
              ++ List.replicate 1 (TagSym.sym TagRole.R k none) ++ D
              = TagSym.sym TagRole.R k none :: D := by simp
          rw [hshape, ts2_step hR]
          congr 2
          rw [List.drop_one, tail_append_of_ne_nil _ hD]
        · -- a = 0, b ≥ 2 : consume two R symbols
          have hstep : (TagSystem.mk TT 2
                (List.replicate 0 (TagSym.sym TagRole.L k none)
                  ++ List.replicate (b' + 1) (TagSym.sym TagRole.R k none) ++ D)).stepO
              = some (TagSystem.mk TT 2
                (List.replicate 0 (TagSym.sym TagRole.L k none)
                  ++ List.replicate (b' - 1) (TagSym.sym TagRole.R k none)
                  ++ (D ++ tagPair TagRole.R k))) := by
            have hshape : List.replicate 0 (TagSym.sym TagRole.L k none)
                ++ List.replicate (b' + 1) (TagSym.sym TagRole.R k none) ++ D
                = TagSym.sym TagRole.R k none :: (TagSym.sym TagRole.R k none
                  :: (List.replicate (b' - 1) (TagSym.sym TagRole.R k none) ++ D)) := by
              rw [show b' + 1 = (b' - 1) + 1 + 1 from by omega]
              simp [List.replicate_succ]
            rw [hshape, ts2_step hR]
            congr 2
            rw [List.cons_append, List.drop_one, List.tail_cons]
            simp [List.append_assoc]
          have hIH := ihn 0 (b' - 1) (D ++ tagPair TagRole.R k) (by omega)
            (by simp [tagPair])
          have hmid : n = 0 ∨ is_step_passed (TagSystem.mk TT 2
              (List.replicate 0 (TagSym.sym TagRole.L k none)
                ++ List.replicate (b' - 1) (TagSym.sym TagRole.R k none)
                ++ (D ++ tagPair TagRole.R k))) = false := by
            rcases Nat.eq_zero_or_pos n with hn0 | hnpos
            · exact Or.inl hn0
            · have hmem : TagSym.sym TagRole.R k none
                  ∈ List.replicate 0 (TagSym.sym TagRole.L k none)
                    ++ List.replicate (b' - 1) (TagSym.sym TagRole.R k none)
                    ++ (D ++ tagPair TagRole.R k) :=
                List.mem_append_left _ (List.mem_append_right _
                  (List.mem_replicate.mpr ⟨by omega, rfl⟩))
              exact Or.inr (is_step_passed_false_of_mem hmem rfl TT)
          have hcomb := tagRunFF_trans (tagRunFF_one hstep) hIH hmid
          have hfin : (if (0 + (b' - 1)) % 2 = 0 then D ++ tagPair TagRole.R k
                else (D ++ tagPair TagRole.R k).tail)
              ++ (List.replicate ((0 + 1) / 2) (tagPair TagRole.L k)).flatten
              ++ (List.replicate (n - (0 + 1) / 2) (tagPair TagRole.R k)).flatten
              = (if (0 + (b' + 1)) % 2 = 0 then D else D.tail)
              ++ (List.replicate ((0 + 1) / 2) (tagPair TagRole.L k)).flatten
              ++ (List.replicate (n + 1 - (0 + 1) / 2) (tagPair TagRole.R k)).flatten := by
            rw [show (0 + (b' + 1)) % 2 = (0 + (b' - 1)) % 2 from by omega,
              show (0 + 1) / 2 = 0 from by norm_num,
              show n - 0 = n from by omega, show n + 1 - 0 = n + 1 from by omega,
              ← flat_rep_merge]
            by_cases hpar : (0 + (b' - 1)) % 2 = 0
            · rw [if_pos hpar, if_pos hpar]
              simp [List.append_assoc]
            · rw [if_neg hpar, if_neg hpar, tail_append_of_ne_nil _ hD]
              simp [List.append_assoc]
          rw [show (1 : Nat) + n = n + 1 from by omega, hfin] at hcomb
          exact hcomb
    · rcases a' with _ | a''
      · -- a = 1
        rcases b with _ | b''
        · -- a = 1, b = 0 : the single final step eats into D
          have hn0 : n = 0 := by omega
          subst hn0
          have hfin : (if (1 + 0) % 2 = 0 then D else D.tail)
              ++ (List.replicate ((1 + 1) / 2) (tagPair TagRole.L k)).flatten
              ++ (List.replicate (0 + 1 - (1 + 1) / 2) (tagPair TagRole.R k)).flatten
              = D.tail ++ tagPair TagRole.L k := by
            simp
          rw [hfin]
          apply tagRunFF_one
          have hshape : List.replicate 1 (TagSym.sym TagRole.L k none)
              ++ List.replicate 0 (TagSym.sym TagRole.R k none) ++ D
              = TagSym.sym TagRole.L k none :: D := by simp
          rw [hshape, ts2_step hL]
          congr 2
          rw [List.drop_one, tail_append_of_ne_nil _ hD]
        · -- a = 1, b ≥ 1 : consume the L and the first R
          have hstep : (TagSystem.mk TT 2
                (List.replicate 1 (TagSym.sym TagRole.L k none)
                  ++ List.replicate (b'' + 1) (TagSym.sym TagRole.R k none) ++ D)).stepO
              = some (TagSystem.mk TT 2
                (List.replicate 0 (TagSym.sym TagRole.L k none)
                  ++ List.replicate b'' (TagSym.sym TagRole.R k none)
                  ++ (D ++ tagPair TagRole.L k))) := by
            have hshape : List.replicate 1 (TagSym.sym TagRole.L k none)
                ++ List.replicate (b'' + 1) (TagSym.sym TagRole.R k none) ++ D
                = TagSym.sym TagRole.L k none :: (TagSym.sym TagRole.R k none
                  :: (List.replicate b'' (TagSym.sym TagRole.R k none) ++ D)) := by
              simp [List.replicate_succ]
            rw [hshape, ts2_step hL]
            congr 2
            rw [List.cons_append, List.drop_one, List.tail_cons]
            simp [List.append_assoc]
          have hIH := ihn 0 b'' (D ++ tagPair TagRole.L k) (by omega)
            (by simp [tagPair])
          have hmid : n = 0 ∨ is_step_passed (TagSystem.mk TT 2
              (List.replicate 0 (TagSym.sym TagRole.L k none)
                ++ List.replicate b'' (TagSym.sym TagRole.R k none)
                ++ (D ++ tagPair TagRole.L k))) = false := by
            rcases Nat.eq_zero_or_pos n with hn0 | hnpos
            · exact Or.inl hn0
            · have hmem : TagSym.sym TagRole.R k none
                  ∈ List.replicate 0 (TagSym.sym TagRole.L k none)
                    ++ List.replicate b'' (TagSym.sym TagRole.R k none)
                    ++ (D ++ tagPair TagRole.L k) :=
                List.mem_append_left _ (List.mem_append_right _
                  (List.mem_replicate.mpr ⟨by omega, rfl⟩))
              exact Or.inr (is_step_passed_false_of_mem hmem rfl TT)
          have hcomb := tagRunFF_trans (tagRunFF_one hstep) hIH hmid
          have hfin : (if (0 + b'') % 2 = 0 then D ++ tagPair TagRole.L k
                else (D ++ tagPair TagRole.L k).tail)
              ++ (List.replicate ((0 + 1) / 2) (tagPair TagRole.L k)).flatten
              ++ (List.replicate (n - (0 + 1) / 2) (tagPair TagRole.R k)).flatten
              = (if (1 + (b'' + 1)) % 2 = 0 then D else D.tail)
              ++ (List.replicate ((1 + 1) / 2) (tagPair TagRole.L k)).flatten
              ++ (List.replicate (n + 1 - (1 + 1) / 2) (tagPair TagRole.R k)).flatten := by
            rw [show (1 + (b'' + 1)) % 2 = (0 + b'') % 2 from by omega,
              show (0 + 1) / 2 = 0 from by norm_num,
              show (1 + 1) / 2 = 1 from by norm_num,
              show n - 0 = n from by omega, show n + 1 - 1 = n from by omega]
            by_cases hpar : (0 + b'') % 2 = 0
            · rw [if_pos hpar, if_pos hpar]
              simp [List.append_assoc, tagPair]
            · rw [if_neg hpar, if_neg hpar, tail_append_of_ne_nil _ hD]
              simp [List.append_assoc, tagPair]
          rw [show (1 : Nat) + n = n + 1 from by omega, hfin] at hcomb
          exact hcomb
      · -- a ≥ 2 : consume two L symbols
        have hstep : (TagSystem.mk TT 2
              (List.replicate (a'' + 1 + 1) (TagSym.sym TagRole.L k none)
                ++ List.replicate b (TagSym.sym TagRole.R k none) ++ D)).stepO
            = some (TagSystem.mk TT 2
              (List.replicate a'' (TagSym.sym TagRole.L k none)
                ++ List.replicate b (TagSym.sym TagRole.R k none)
                ++ (D ++ tagPair TagRole.L k))) := by
          have hshape : List.replicate (a'' + 1 + 1) (TagSym.sym TagRole.L k none)
              ++ List.replicate b (TagSym.sym TagRole.R k none) ++ D
              = TagSym.sym TagRole.L k none :: (TagSym.sym TagRole.L k none
                :: (List.replicate a'' (TagSym.sym TagRole.L k none)
                  ++ List.replicate b (TagSym.sym TagRole.R k none) ++ D)) := by
            simp [List.replicate_succ]
          rw [hshape, ts2_step hL]
          congr 2
          rw [List.cons_append, List.drop_one, List.tail_cons]
          simp [List.append_assoc]
        have hIH := ihn a'' b (D ++ tagPair TagRole.L k) (by omega)
          (by simp [tagPair])
        have hmid : n = 0 ∨ is_step_passed (TagSystem.mk TT 2
            (List.replicate a'' (TagSym.sym TagRole.L k none)
              ++ List.replicate b (TagSym.sym TagRole.R k none)
              ++ (D ++ tagPair TagRole.L k))) = false := by
          rcases Nat.eq_zero_or_pos n with hn0 | hnpos
          · exact Or.inl hn0
          · have hab : 1 ≤ a'' + b := by omega
            rcases Nat.eq_zero_or_pos a'' with ha0 | hapos
            · have hmem : TagSym.sym TagRole.R k none
                  ∈ List.replicate a'' (TagSym.sym TagRole.L k none)
                    ++ List.replicate b (TagSym.sym TagRole.R k none)
                    ++ (D ++ tagPair TagRole.L k) :=
                List.mem_append_left _ (List.mem_append_right _
                  (List.mem_replicate.mpr ⟨by omega, rfl⟩))
              exact Or.inr (is_step_passed_false_of_mem hmem rfl TT)
            · have hmem : TagSym.sym TagRole.L k none
                  ∈ List.replicate a'' (TagSym.sym TagRole.L k none)
                    ++ List.replicate b (TagSym.sym TagRole.R k none)
                    ++ (D ++ tagPair TagRole.L k) :=
                List.mem_append_left _ (List.mem_append_left _
                  (List.mem_replicate.mpr ⟨by omega, rfl⟩))
              exact Or.inr (is_step_passed_false_of_mem hmem rfl TT)
        have hcomb := tagRunFF_trans (tagRunFF_one hstep) hIH hmid
        have hfin : (if (a'' + b) % 2 = 0 then D ++ tagPair TagRole.L k
              else (D ++ tagPair TagRole.L k).tail)
            ++ (List.replicate ((a'' + 1) / 2) (tagPair TagRole.L k)).flatten
            ++ (List.replicate (n - (a'' + 1) / 2) (tagPair TagRole.R k)).flatten
            = (if (a'' + 1 + 1 + b) % 2 = 0 then D else D.tail)
            ++ (List.replicate ((a'' + 1 + 1 + 1) / 2) (tagPair TagRole.L k)).flatten
            ++ (List.replicate (n + 1 - (a'' + 1 + 1 + 1) / 2)
                (tagPair TagRole.R k)).flatten := by
          rw [show (a'' + 1 + 1 + b) % 2 = (a'' + b) % 2 from by omega,
            show (a'' + 1 + 1 + 1) / 2 = (a'' + 1) / 2 + 1 from by omega,
            show n + 1 - ((a'' + 1) / 2 + 1) = n - (a'' + 1) / 2 from by omega,
            ← flat_rep_merge]
          by_cases hpar : (a'' + b) % 2 = 0
          · rw [if_pos hpar, if_pos hpar]
            simp [List.append_assoc]
          · rw [if_neg hpar, if_neg hpar, tail_append_of_ne_nil _ hD]
            simp [List.append_assoc]
        rw [show (1 : Nat) + n = n + 1 from by omega, hfin] at hcomb
        exact hcomb

theorem flat_rep_snoc {α : Type} (X : List α) (n : Nat) :
    (List.replicate n X).flatten ++ X = (List.replicate (n + 1) X).flatten := by
  rw [List.replicate_succ', List.flatten_append]
  simp

theorem hProd_mem_H (t : TuringTransition) (z : Bool) :
    TagSym.sym TagRole.H t.next_state none ∈ hProd t z := by
  unfold hProd
  simp

theorem hProd_ne_nil (t : TuringTransition) (z : Bool) : hProd t z ≠ [] :=
  List.ne_nil_of_mem (hProd_mem_H t z)

theorem lProd_mem (t : TuringTransition) :
    TagSym.sym TagRole.L t.next_state none ∈ lProd t := by
  unfold lProd
  simp

theorem rProd_mem (t : TuringTransition) :
    TagSym.sym TagRole.R t.next_state none ∈ rProd t := by
  unfold rProd
  simp

theorem tagRunFF_congr_tape {TT : List (TagSym × List TagSym)} {n : Nat}
    {tp1 tp2 tp1' tp2' : List TagSym}
    (h : TagRunFF n (TagSystem.mk TT 2 tp1) (TagSystem.mk TT 2 tp2))
    (e1 : tp1 = tp1') (e2 : tp2 = tp2') :
    TagRunFF n (TagSystem.mk TT 2 tp1') (TagSystem.mk TT 2 tp2') := by
  subst e1
  subst e2
  exact h

/-- Phase 1 of the simulated Turing step, head-symbol `ONE` (aligned pairs):
`1 + L + R` tag steps turn the encoding into the raw production lists. -/
theorem runFF_phase1_one {tbl : List TuringStateTransition} {k : Nat}
    {st : TuringStateTransition} (hlk : lookupState tbl k = some st)
    (L R : Nat) :
    TagRunFF (1 + L + R)
      (TagSystem.mk (turing_table_to_tag_transition tbl) 2
        (turingTupleTagTape ⟨k, L, R, TuringSymbol.ONE⟩))
      (TagSystem.mk (turing_table_to_tag_transition tbl) 2
        (hProd st.transitions.2 true
          ++ (List.replicate L (lProd st.transitions.2)).flatten
          ++ (List.replicate R (rProd st.transitions.2)).flatten)) := by
  have hlkH : alookup (turing_table_to_tag_transition tbl)
      (TagSym.sym TagRole.H k (some true)) = some (hProd st.transitions.2 true) :=
    TT_lookup_digit hlk TagRole.H true
  have hlkL : alookup (turing_table_to_tag_transition tbl)
      (TagSym.sym TagRole.L k (some true)) = some (lProd st.transitions.2) :=
    TT_lookup_digit hlk TagRole.L true
  have hlkR : alookup (turing_table_to_tag_transition tbl)
      (TagSym.sym TagRole.R k (some true)) = some (rProd st.transitions.2) :=
    TT_lookup_digit hlk TagRole.R true
  have hstep1 : (TagSystem.mk (turing_table_to_tag_transition tbl) 2
        (turingTupleTagTape ⟨k, L, R, TuringSymbol.ONE⟩)).stepO
      = some (TagSystem.mk (turing_table_to_tag_transition tbl) 2
        ((List.replicate L (tagPair TagRole.L k)).flatten
          ++ (List.replicate R (tagPair TagRole.R k)).flatten
          ++ hProd st.transitions.2 true)) := by
    rw [turingTupleTagTape_eq_one, ts2_step hlkH]
    congr 2
  have t1 := tagRunFF_one hstep1
  have t2 := runFF_blocks TagRole.L k hlkL L
    ((List.replicate R (tagPair TagRole.R k)).flatten)
    (hProd st.transitions.2 true)
    (TagSym.sym TagRole.H st.transitions.2.next_state none)
    (hProd_mem_H _ _) rfl
  have t3 := runFF_blocks TagRole.R k hlkR R []
    (hProd st.transitions.2 true
      ++ (List.replicate L (lProd st.transitions.2)).flatten)
    (TagSym.sym TagRole.H st.transitions.2.next_state none)
    (List.mem_append_left _ (hProd_mem_H _ _)) rfl
  have t3' : TagRunFF R
      (TagSystem.mk (turing_table_to_tag_transition tbl) 2
        ((List.replicate R (tagPair TagRole.R k)).flatten
          ++ hProd st.transitions.2 true
          ++ (List.replicate L (lProd st.transitions.2)).flatten))
      (TagSystem.mk (turing_table_to_tag_transition tbl) 2
        (hProd st.transitions.2 true
          ++ (List.replicate L (lProd st.transitions.2)).flatten
          ++ (List.replicate R (rProd st.transitions.2)).flatten)) :=
    tagRunFF_congr_tape t3 (by simp [List.append_assoc])
      (by simp [List.append_assoc])
  have hmid1 : is_step_passed (TagSystem.mk (turing_table_to_tag_transition tbl) 2
      ((List.replicate L (tagPair TagRole.L k)).flatten
        ++ (List.replicate R (tagPair TagRole.R k)).flatten
        ++ hProd st.transitions.2 true)) = false :=
    is_step_passed_false_of_mem (List.mem_append_right _ (hProd_mem_H _ _)) rfl _
  have hmid2 : is_step_passed (TagSystem.mk (turing_table_to_tag_transition tbl) 2
      ((List.replicate R (tagPair TagRole.R k)).flatten
        ++ hProd st.transitions.2 true
        ++ (List.replicate L (lProd st.transitions.2)).flatten)) = false :=
    is_step_passed_false_of_mem
      (List.mem_append_left _ (List.mem_append_right _ (hProd_mem_H _ _))) rfl _
  exact tagRunFF_trans (tagRunFF_trans t1 t2 (Or.inr hmid1)) t3'
    (Or.inr hmid2)

/-- Phase 1 of the simulated Turing step, head-symbol `ZERO` (misaligned):
`1 + L + R` tag steps; the extra `H` in the `z = 0` head production absorbs
the misalignment. -/
theorem runFF_phase1_zero {tbl : List TuringStateTransition} {k : Nat}
    {st : TuringStateTransition} (hlk : lookupState tbl k = some st)
    (L R : Nat) :
    TagRunFF (1 + L + R)
      (TagSystem.mk (turing_table_to_tag_transition tbl) 2
        (turingTupleTagTape ⟨k, L, R, TuringSymbol.ZERO⟩))
      (TagSystem.mk (turing_table_to_tag_transition tbl) 2
        ((hProd st.transitions.1 false).tail
          ++ (List.replicate L (lProd st.transitions.1)).flatten
          ++ (List.replicate R (rProd st.transitions.1)).flatten)) := by
  have hlkH0 : alookup (turing_table_to_tag_transition tbl)
      (TagSym.sym TagRole.H k (some false)) = some (hProd st.transitions.1 false) :=
    TT_lookup_digit hlk TagRole.H false
  have hlkL0 : alookup (turing_table_to_tag_transition tbl)
      (TagSym.sym TagRole.L k (some false)) = some (lProd st.transitions.1) :=
    TT_lookup_digit hlk TagRole.L false
  have hlkR0 : alookup (turing_table_to_tag_transition tbl)
      (TagSym.sym TagRole.R k (some false)) = some (rProd st.transitions.1) :=
    TT_lookup_digit hlk TagRole.R false
  have hHne := hProd_ne_nil st.transitions.1 false
  rcases Nat.eq_zero_or_pos L with hL0 | hLpos
  · subst hL0
    rcases Nat.eq_zero_or_pos R with hR0 | hRpos
    · -- L = 0, R = 0 : a single step, the drop eats the production's head
      subst hR0
      apply tagRunFF_one
      have hshape : turingTupleTagTape ⟨k, 0, 0, TuringSymbol.ZERO⟩
          = TagSym.sym TagRole.H k (some false) :: [] := by
        rw [turingTupleTagTape_eq_zero]
        simp
      rw [hshape, ts2_step hlkH0]
      congr 2
      rw [List.nil_append, List.drop_one]
      simp
    · -- L = 0, R ≥ 1
      have tmis := runFF_mis_blocks TagRole.R k hlkR0 (rProd_mem _) rfl R hRpos
        (TagSym.sym TagRole.H k (some false)) (hProd st.transitions.1 false)
        [] [] hlkH0 ⟨_, hProd_mem_H _ _, rfl⟩
      have tmis' : TagRunFF R
          (TagSystem.mk (turing_table_to_tag_transition tbl) 2
            (turingTupleTagTape ⟨k, 0, R, TuringSymbol.ZERO⟩))
          (TagSystem.mk (turing_table_to_tag_transition tbl) 2
            (TagSym.sym TagRole.R k (some false)
              :: (hProd st.transitions.1 false
                ++ (List.replicate (R - 1) (rProd st.transitions.1)).flatten))) :=
        tagRunFF_congr_tape tmis
          (by rw [turingTupleTagTape_eq_zero]; simp) (by simp)
      have hstepF : (TagSystem.mk (turing_table_to_tag_transition tbl) 2
            (TagSym.sym TagRole.R k (some false)
              :: (hProd st.transitions.1 false
                ++ (List.replicate (R - 1) (rProd st.transitions.1)).flatten))).stepO
          = some (TagSystem.mk (turing_table_to_tag_transition tbl) 2
            ((hProd st.transitions.1 false).tail
              ++ (List.replicate 0 (lProd st.transitions.1)).flatten
              ++ (List.replicate R (rProd st.transitions.1)).flatten)) := by
        rw [ts2_step hlkR0]
        congr 2
        rw [List.drop_one, List.append_assoc, tail_append_of_ne_nil _ hHne]
        rw [show R = (R - 1) + 1 from by omega, flat_rep_snoc]
        simp [List.append_assoc]
      have hmidF : is_step_passed (TagSystem.mk (turing_table_to_tag_transition tbl) 2
          (TagSym.sym TagRole.R k (some false)
            :: (hProd st.transitions.1 false
              ++ (List.replicate (R - 1) (rProd st.transitions.1)).flatten))) = false :=
        is_step_passed_false_of_mem
          (List.mem_cons_of_mem _ (List.mem_append_left _ (hProd_mem_H _ _))) rfl _
      have hcomb := tagRunFF_trans tmis' (tagRunFF_one hstepF) (Or.inr hmidF)
      rw [show R + 1 = 1 + 0 + R from by omega] at hcomb
      exact hcomb
  · rcases Nat.eq_zero_or_pos R with hR0 | hRpos
    · -- L ≥ 1, R = 0
      subst hR0
      have tmis := runFF_mis_blocks TagRole.L k hlkL0 (lProd_mem _) rfl L hLpos
        (TagSym.sym TagRole.H k (some false)) (hProd st.transitions.1 false)
        [] [] hlkH0 ⟨_, hProd_mem_H _ _, rfl⟩
      have tmis' : TagRunFF L
          (TagSystem.mk (turing_table_to_tag_transition tbl) 2
            (turingTupleTagTape ⟨k, L, 0, TuringSymbol.ZERO⟩))
          (TagSystem.mk (turing_table_to_tag_transition tbl) 2
            (TagSym.sym TagRole.L k (some false)
              :: (hProd st.transitions.1 false
                ++ (List.replicate (L - 1) (lProd st.transitions.1)).flatten))) :=
        tagRunFF_congr_tape tmis
          (by rw [turingTupleTagTape_eq_zero]; simp) (by simp)
      have hstepF : (TagSystem.mk (turing_table_to_tag_transition tbl) 2
            (TagSym.sym TagRole.L k (some false)
              :: (hProd st.transitions.1 false
                ++ (List.replicate (L - 1) (lProd st.transitions.1)).flatten))).stepO
          = some (TagSystem.mk (turing_table_to_tag_transition tbl) 2
            ((hProd st.transitions.1 false).tail
              ++ (List.replicate L (lProd st.transitions.1)).flatten
              ++ (List.replicate 0 (rProd st.transitions.1)).flatten)) := by
        rw [ts2_step hlkL0]
        congr 2
        rw [List.drop_one, List.append_assoc, tail_append_of_ne_nil _ hHne]
        rw [flat_rep_snoc, show L - 1 + 1 = L from by omega]
        simp
      have hmidF : is_step_passed (TagSystem.mk (turing_table_to_tag_transition tbl) 2
          (TagSym.sym TagRole.L k (some false)
            :: (hProd st.transitions.1 false
              ++ (List.replicate (L - 1) (lProd st.transitions.1)).flatten))) = false :=
        is_step_passed_false_of_mem
          (List.mem_cons_of_mem _ (List.mem_append_left _ (hProd_mem_H _ _))) rfl _
      have hcomb := tagRunFF_trans tmis' (tagRunFF_one hstepF) (Or.inr hmidF)
      rw [show L + 1 = 1 + L + 0 from by omega] at hcomb
      exact hcomb
    · -- L ≥ 1, R ≥ 1
      have tmis1 := runFF_mis_blocks TagRole.L k hlkL0 (lProd_mem _) rfl L hLpos
        (TagSym.sym TagRole.H k (some false)) (hProd st.transitions.1 false)
        ((List.replicate R (tagPair TagRole.R k)).flatten) [] hlkH0
        ⟨_, hProd_mem_H _ _, rfl⟩
      have tmis1' : TagRunFF L
          (TagSystem.mk (turing_table_to_tag_transition tbl) 2
            (turingTupleTagTape ⟨k, L, R, TuringSymbol.ZERO⟩))
          (TagSystem.mk (turing_table_to_tag_transition tbl) 2
            (TagSym.sym TagRole.L k (some false)
              :: ((List.replicate R (tagPair TagRole.R k)).flatten ++ []
                ++ (hProd st.transitions.1 false
                  ++ (List.replicate (L - 1) (lProd st.transitions.1)).flatten)))) :=
        tagRunFF_congr_tape tmis1
          (by rw [turingTupleTagTape_eq_zero]; simp)
          (by simp [List.append_assoc])
      have tmis2 := runFF_mis_blocks TagRole.R k hlkR0 (rProd_mem _) rfl R hRpos
        (TagSym.sym TagRole.L k (some false)) (lProd st.transitions.1)
        [] (hProd st.transitions.1 false
          ++ (List.replicate (L - 1) (lProd st.transitions.1)).flatten) hlkL0
        ⟨_, lProd_mem _, rfl⟩
      have hmid1 : is_step_passed (TagSystem.mk (turing_table_to_tag_transition tbl) 2
          (TagSym.sym TagRole.L k (some false)
            :: ((List.replicate R (tagPair TagRole.R k)).flatten ++ []
              ++ (hProd st.transitions.1 false
                ++ (List.replicate (L - 1) (lProd st.transitions.1)).flatten)))) = false :=
        is_step_passed_false_of_mem
          (List.mem_cons_of_mem _ (List.mem_append_right _
            (List.mem_append_left _ (hProd_mem_H _ _)))) rfl _
      have hstepF : (TagSystem.mk (turing_table_to_tag_transition tbl) 2
            (TagSym.sym TagRole.R k (some false)
              :: ([] ++ (hProd st.transitions.1 false
                  ++ (List.replicate (L - 1) (lProd st.transitions.1)).flatten)
                ++ lProd st.transitions.1
                ++ (List.replicate (R - 1) (rProd st.transitions.1)).flatten))).stepO
          = some (TagSystem.mk (turing_table_to_tag_transition tbl) 2
            ((hProd st.transitions.1 false).tail
              ++ (List.replicate L (lProd st.transitions.1)).flatten
              ++ (List.replicate R (rProd st.transitions.1)).flatten)) := by
        rw [ts2_step hlkR0]
        congr 2
        have hz : ([] ++ (hProd st.transitions.1 false
              ++ (List.replicate (L - 1) (lProd st.transitions.1)).flatten)
            ++ lProd st.transitions.1
            ++ (List.replicate (R - 1) (rProd st.transitions.1)).flatten)
            ++ rProd st.transitions.1
            = hProd st.transitions.1 false
              ++ (((List.replicate (L - 1) (lProd st.transitions.1)).flatten
                  ++ lProd st.transitions.1)
                ++ ((List.replicate (R - 1) (rProd st.transitions.1)).flatten
                  ++ rProd st.transitions.1)) := by
          simp [List.append_assoc]
        rw [List.drop_one, hz, tail_append_of_ne_nil _ hHne, flat_rep_snoc,
          flat_rep_snoc, show L - 1 + 1 = L from by omega,
          show R - 1 + 1 = R from by omega]
        simp [List.append_assoc]
      have hmid2 : is_step_passed (TagSystem.mk (turing_table_to_tag_transition tbl) 2
          (TagSym.sym TagRole.R k (some false)
            :: ([] ++ (hProd st.transitions.1 false
                ++ (List.replicate (L - 1) (lProd st.transitions.1)).flatten)
              ++ lProd st.transitions.1
              ++ (List.replicate (R - 1) (rProd st.transitions.1)).flatten))) = false :=
        is_step_passed_false_of_mem
          (List.mem_cons_of_mem _ (List.mem_append_left _ (List.mem_append_left _
            (List.mem_append_right _ (List.mem_append_left _
              (hProd_mem_H _ _)))))) rfl _
      have hcomb := tagRunFF_trans
        (tagRunFF_trans tmis1' tmis2 (Or.inr hmid1))
        (tagRunFF_one hstepF) (Or.inr hmid2)
      rw [show L + R + 1 = 1 + L + R from by omega] at hcomb
      exact hcomb

/-- Phase 2 of the simulated Turing step: from the canonical
`H :: L^p ++ R^q` shape, `1 + (p + q) / 2` steps reach the encoding of the
new tape tuple: halved counts, head from the parity. -/
theorem runFF_phase2 {tbl : List TuringStateTransition} {k2 : Nat}
    {st2 : TuringStateTransition} (hlk2 : lookupState tbl k2 = some st2)
    (p q : Nat) :
    TagRunFF (1 + (p + q) / 2)
      (TagSystem.mk (turing_table_to_tag_transition tbl) 2
        (TagSym.sym TagRole.H k2 none
          :: (List.replicate p (TagSym.sym TagRole.L k2 none)
            ++ List.replicate q (TagSym.sym TagRole.R k2 none))))
      (TagSystem.mk (turing_table_to_tag_transition tbl) 2
        (turingTupleTagTape ⟨k2, p / 2, (q + p % 2) / 2,
          if (p + q) % 2 = 1 then TuringSymbol.ONE else TuringSymbol.ZERO⟩)) := by
  have hlkH : alookup (turing_table_to_tag_transition tbl)
      (TagSym.sym TagRole.H k2 none) = some (tagPair TagRole.H k2) :=
    TT_lookup_plain hlk2 TagRole.H
  have hlkL : alookup (turing_table_to_tag_transition tbl)
      (TagSym.sym TagRole.L k2 none) = some (tagPair TagRole.L k2) :=
    TT_lookup_plain hlk2 TagRole.L
  have hlkR : alookup (turing_table_to_tag_transition tbl)
      (TagSym.sym TagRole.R k2 none) = some (tagPair TagRole.R k2) :=
    TT_lookup_plain hlk2 TagRole.R
  rcases Nat.eq_zero_or_pos p with hp0 | hppos
  · subst hp0
    rcases Nat.eq_zero_or_pos q with hq0 | hqpos
    · -- p = 0, q = 0 : the H step eats into its own production
      subst hq0
      apply tagRunFF_one
      rw [ts2_step hlkH]
      congr 1
    · -- p = 0, q ≥ 1
      have hstepH : (TagSystem.mk (turing_table_to_tag_transition tbl) 2
            (TagSym.sym TagRole.H k2 none
              :: (List.replicate 0 (TagSym.sym TagRole.L k2 none)
                ++ List.replicate q (TagSym.sym TagRole.R k2 none)))).stepO
          = some (TagSystem.mk (turing_table_to_tag_transition tbl) 2
            (List.replicate 0 (TagSym.sym TagRole.L k2 none)
              ++ List.replicate (q - 1) (TagSym.sym TagRole.R k2 none)
              ++ tagPair TagRole.H k2)) := by
        rw [ts2_step hlkH]
        congr 2
        rw [show q = (q - 1) + 1 from by omega]
        simp [List.replicate_succ]
      have trd := runFF_rundown k2 hlkL hlkR ((0 + (q - 1) + 1) / 2) 0 (q - 1)
        (tagPair TagRole.H k2) rfl (by simp [tagPair])
      have hmid : is_step_passed (TagSystem.mk (turing_table_to_tag_transition tbl) 2
          (List.replicate 0 (TagSym.sym TagRole.L k2 none)
            ++ List.replicate (q - 1) (TagSym.sym TagRole.R k2 none)
            ++ tagPair TagRole.H k2)) = false ∨ (0 + (q - 1) + 1) / 2 = 0 := by
        rcases Nat.eq_zero_or_pos ((0 + (q - 1) + 1) / 2) with hz | hpos
        · exact Or.inr hz
        · have hmem : TagSym.sym TagRole.R k2 none
              ∈ List.replicate 0 (TagSym.sym TagRole.L k2 none)
                ++ List.replicate (q - 1) (TagSym.sym TagRole.R k2 none)
                ++ tagPair TagRole.H k2 :=
            List.mem_append_left _ (List.mem_append_right _
              (List.mem_replicate.mpr ⟨by omega, rfl⟩))
          exact Or.inl (is_step_passed_false_of_mem hmem rfl _)
      have hcomb := tagRunFF_trans (tagRunFF_one hstepH) trd
        (hmid.symm.imp id id)
      have hfin : (if (0 + (q - 1)) % 2 = 0 then tagPair TagRole.H k2
            else (tagPair TagRole.H k2).tail)
          ++ (List.replicate ((0 + 1) / 2) (tagPair TagRole.L k2)).flatten
          ++ (List.replicate ((0 + (q - 1) + 1) / 2 - (0 + 1) / 2)
              (tagPair TagRole.R k2)).flatten
          = turingTupleTagTape ⟨k2, 0 / 2, (q + 0 % 2) / 2,
              if (0 + q) % 2 = 1 then TuringSymbol.ONE else TuringSymbol.ZERO⟩ := by
        rw [show (0 + 1) / 2 = 0 from by norm_num,
          show (0 + (q - 1) + 1) / 2 - 0 = q / 2 from by omega,
          show (q + 0 % 2) / 2 = q / 2 from by omega]
        by_cases hpar : (0 + (q - 1)) % 2 = 0
        · rw [if_pos hpar, if_pos (show (0 + q) % 2 = 1 from by omega),
            turingTupleTagTape_eq_one]
          simp [tagPair]
        · rw [if_neg hpar, if_neg (show ¬((0 + q) % 2 = 1) from by omega),
            turingTupleTagTape_eq_zero]
          simp [tagPair]
      rw [hfin] at hcomb
      rw [show (1 : Nat) + (0 + (q - 1) + 1) / 2 = 1 + (0 + q) / 2 from by omega]
        at hcomb
      exact hcomb
  · -- p ≥ 1
    have hstepH : (TagSystem.mk (turing_table_to_tag_transition tbl) 2
          (TagSym.sym TagRole.H k2 none
            :: (List.replicate p (TagSym.sym TagRole.L k2 none)
              ++ List.replicate q (TagSym.sym TagRole.R k2 none)))).stepO
        = some (TagSystem.mk (turing_table_to_tag_transition tbl) 2
          (List.replicate (p - 1) (TagSym.sym TagRole.L k2 none)
            ++ List.replicate q (TagSym.sym TagRole.R k2 none)
            ++ tagPair TagRole.H k2)) := by
      rw [ts2_step hlkH]
      congr 2
      rw [show p = (p - 1) + 1 from by omega]
      simp [List.replicate_succ, List.append_assoc]
    have trd := runFF_rundown k2 hlkL hlkR ((p - 1 + q + 1) / 2) (p - 1) q
      (tagPair TagRole.H k2) rfl (by simp [tagPair])
    have hmid : is_step_passed (TagSystem.mk (turing_table_to_tag_transition tbl) 2
        (List.replicate (p - 1) (TagSym.sym TagRole.L k2 none)
          ++ List.replicate q (TagSym.sym TagRole.R k2 none)
          ++ tagPair TagRole.H k2)) = false ∨ (p - 1 + q + 1) / 2 = 0 := by
      rcases Nat.eq_zero_or_pos ((p - 1 + q + 1) / 2) with hz | hpos
      · exact Or.inr hz
      · rcases Nat.eq_zero_or_pos (p - 1) with hq1 | hq2
        · have hmem : TagSym.sym TagRole.R k2 none
              ∈ List.replicate (p - 1) (TagSym.sym TagRole.L k2 none)
                ++ List.replicate q (TagSym.sym TagRole.R k2 none)
                ++ tagPair TagRole.H k2 :=
            List.mem_append_left _ (List.mem_append_right _
              (List.mem_replicate.mpr ⟨by omega, rfl⟩))
          exact Or.inl (is_step_passed_false_of_mem hmem rfl _)
        · have hmem : TagSym.sym TagRole.L k2 none
              ∈ List.replicate (p - 1) (TagSym.sym TagRole.L k2 none)
                ++ List.replicate q (TagSym.sym TagRole.R k2 none)
                ++ tagPair TagRole.H k2 :=
            List.mem_append_left _ (List.mem_append_left _
              (List.mem_replicate.mpr ⟨by omega, rfl⟩))
          exact Or.inl (is_step_passed_false_of_mem hmem rfl _)
    have hcomb := tagRunFF_trans (tagRunFF_one hstepH) trd
      (hmid.symm.imp id id)
    have hfin : (if (p - 1 + q) % 2 = 0 then tagPair TagRole.H k2
          else (tagPair TagRole.H k2).tail)
        ++ (List.replicate ((p - 1 + 1) / 2) (tagPair TagRole.L k2)).flatten
        ++ (List.replicate ((p - 1 + q + 1) / 2 - (p - 1 + 1) / 2)
            (tagPair TagRole.R k2)).flatten
        = turingTupleTagTape ⟨k2, p / 2, (q + p % 2) / 2,
            if (p + q) % 2 = 1 then TuringSymbol.ONE else TuringSymbol.ZERO⟩ := by
      rw [show (p - 1 + 1) / 2 = p / 2 from by omega,
        show (p - 1 + q + 1) / 2 - p / 2 = (q + p % 2) / 2 from by omega]
      by_cases hpar : (p - 1 + q) % 2 = 0
      · rw [if_pos hpar, if_pos (show (p + q) % 2 = 1 from by omega),
          turingTupleTagTape_eq_one]
        simp [tagPair]
      · rw [if_neg hpar, if_neg (show ¬((p + q) % 2 = 1) from by omega),
          turingTupleTagTape_eq_zero]
        simp [tagPair]
    rw [hfin] at hcomb
    rw [show (1 : Nat) + (p - 1 + q + 1) / 2 = 1 + (p + q) / 2 from by omega]
      at hcomb
    exact hcomb

/-- Phase B of the simulated Turing step: from the head-production shape
left by phase 1 (aligned `hProd t true`, or misaligned
`(hProd t false).tail` — the extra `H` absorbed the misalignment) to the
encoding of the stepped tuple.  Covers the starred-relay detour for a LEFT
move writing ONE. -/
theorem runFF_phaseB {tbl : List TuringStateTransition}
    {st2 : TuringStateTransition} (t : TuringTransition)
    (hlk2 : lookupState tbl t.next_state = some st2) (L R : Nat) (z : Bool)
    (kk : Nat) (hh : TuringSymbol) :
    ∃ m, 1 ≤ m ∧ TagRunFF m
      (TagSystem.mk (turing_table_to_tag_transition tbl) 2
        ((if z then hProd t true else (hProd t false).tail)
          ++ (List.replicate L (lProd t)).flatten
          ++ (List.replicate R (rProd t)).flatten))
      (TagSystem.mk (turing_table_to_tag_transition tbl) 2
        (turingTupleTagTape (tupleStep t ⟨kk, L, R, hh⟩))) := by
  cases hmv : t.move with
  | RIGHT =>
    have hlp : lProd t
        = List.replicate 4 (TagSym.sym TagRole.L t.next_state none) := by
      rw [lProd_eq, if_pos hmv]
    have hrp : rProd t
        = List.replicate 1 (TagSym.sym TagRole.R t.next_state none) := by
      rw [rProd_eq, if_neg (by rw [hmv]; intro hc; exact nomatch hc)]
    cases hwr : t.write with
    | ZERO =>
      have hts : tupleStep t ⟨kk, L, R, hh⟩
          = ⟨t.next_state, 2 * L, R / 2,
             if R % 2 = 1 then TuringSymbol.ONE else TuringSymbol.ZERO⟩ := by
        unfold tupleStep
        rw [hmv, hwr]
        simp
      have hXeq : (if z then hProd t true else (hProd t false).tail)
          = [TagSym.sym TagRole.H t.next_state none] := by
        cases z <;> simp [hProd, hmv, hwr]
      have htape : (if z then hProd t true else (hProd t false).tail)
          ++ (List.replicate L (lProd t)).flatten
          ++ (List.replicate R (rProd t)).flatten
          = TagSym.sym TagRole.H t.next_state none
            :: (List.replicate (L * 4) (TagSym.sym TagRole.L t.next_state none)
              ++ List.replicate (R * 1) (TagSym.sym TagRole.R t.next_state none)) := by
        rw [hXeq, hlp, hrp, flatten_replicate_replicate,
          flatten_replicate_replicate]
        simp [List.append_assoc]
      have htup : (⟨t.next_state, (L * 4) / 2, (R * 1 + (L * 4) % 2) / 2,
            if (L * 4 + R * 1) % 2 = 1 then TuringSymbol.ONE
            else TuringSymbol.ZERO⟩ : TuringTapeTuple)
          = tupleStep t ⟨kk, L, R, hh⟩ := by
        rw [hts, show (L * 4) / 2 = 2 * L from by omega,
          show (R * 1 + (L * 4) % 2) / 2 = R / 2 from by omega,
          show (L * 4 + R * 1) % 2 = R % 2 from by omega]
      refine ⟨1 + (L * 4 + R * 1) / 2, by omega, ?_⟩
      exact tagRunFF_congr_tape (runFF_phase2 hlk2 (L * 4) (R * 1))
        htape.symm (by rw [htup])
    | ONE =>
      have hts : tupleStep t ⟨kk, L, R, hh⟩
          = ⟨t.next_state, 2 * L + 1, R / 2,
             if R % 2 = 1 then TuringSymbol.ONE else TuringSymbol.ZERO⟩ := by
        unfold tupleStep
        rw [hmv, hwr]
        simp
      have hXeq : (if z then hProd t true else (hProd t false).tail)
          = [TagSym.sym TagRole.H t.next_state none,
             TagSym.sym TagRole.L t.next_state none,
             TagSym.sym TagRole.L t.next_state none] := by
        cases z <;> simp [hProd, hmv, hwr]
      have htape : (if z then hProd t true else (hProd t false).tail)
          ++ (List.replicate L (lProd t)).flatten
          ++ (List.replicate R (rProd t)).flatten
          = TagSym.sym TagRole.H t.next_state none
            :: (List.replicate (2 + L * 4) (TagSym.sym TagRole.L t.next_state none)
              ++ List.replicate (R * 1) (TagSym.sym TagRole.R t.next_state none)) := by
        rw [hXeq, hlp, hrp, flatten_replicate_replicate,
          flatten_replicate_replicate, List.replicate_add]
        simp [List.append_assoc, List.replicate_succ]
      have htup : (⟨t.next_state, (2 + L * 4) / 2, (R * 1 + (2 + L * 4) % 2) / 2,
            if (2 + L * 4 + R * 1) % 2 = 1 then TuringSymbol.ONE
            else TuringSymbol.ZERO⟩ : TuringTapeTuple)
          = tupleStep t ⟨kk, L, R, hh⟩ := by
        rw [hts, show (2 + L * 4) / 2 = 2 * L + 1 from by omega,
          show (R * 1 + (2 + L * 4) % 2) / 2 = R / 2 from by omega,
          show (2 + L * 4 + R * 1) % 2 = R % 2 from by omega]
      refine ⟨1 + (2 + L * 4 + R * 1) / 2, by omega, ?_⟩
      exact tagRunFF_congr_tape (runFF_phase2 hlk2 (2 + L * 4) (R * 1))
        htape.symm (by rw [htup])
  | LEFT =>
    have hlp : lProd t
        = List.replicate 1 (TagSym.sym TagRole.L t.next_state none) := by
      rw [lProd_eq, if_neg (by rw [hmv]; intro hc; exact nomatch hc)]
    have hrp : rProd t
        = List.replicate 4 (TagSym.sym TagRole.R t.next_state none) := by
      rw [rProd_eq, if_pos hmv]
    cases hwr : t.write with
    | ZERO =>
      have hts : tupleStep t ⟨kk, L, R, hh⟩
          = ⟨t.next_state, L / 2, 2 * R,
             if L % 2 = 1 then TuringSymbol.ONE else TuringSymbol.ZERO⟩ := by
        unfold tupleStep
        rw [hmv, hwr]
        simp
      have hXeq : (if z then hProd t true else (hProd t false).tail)
          = [TagSym.sym TagRole.H t.next_state none] := by
        cases z <;> simp [hProd, hmv, hwr]
      have htape : (if z then hProd t true else (hProd t false).tail)
          ++ (List.replicate L (lProd t)).flatten
          ++ (List.replicate R (rProd t)).flatten
          = TagSym.sym TagRole.H t.next_state none
            :: (List.replicate (L * 1) (TagSym.sym TagRole.L t.next_state none)
              ++ List.replicate (R * 4) (TagSym.sym TagRole.R t.next_state none)) := by
        rw [hXeq, hlp, hrp, flatten_replicate_replicate,
          flatten_replicate_replicate]
        simp [List.append_assoc]
      have htup : (⟨t.next_state, (L * 1) / 2, (R * 4 + (L * 1) % 2) / 2,
            if (L * 1 + R * 4) % 2 = 1 then TuringSymbol.ONE
            else TuringSymbol.ZERO⟩ : TuringTapeTuple)
          = tupleStep t ⟨kk, L, R, hh⟩ := by
        rw [hts, show (L * 1) / 2 = L / 2 from by omega,
          show (R * 4 + (L * 1) % 2) / 2 = 2 * R from by omega,
          show (L * 1 + R * 4) % 2 = L % 2 from by omega]
      refine ⟨1 + (L * 1 + R * 4) / 2, by omega, ?_⟩
      exact tagRunFF_congr_tape (runFF_phase2 hlk2 (L * 1) (R * 4))
        htape.symm (by rw [htup])
    | ONE =>
      have hts : tupleStep t ⟨kk, L, R, hh⟩
          = ⟨t.next_state, L / 2, 2 * R + 1,
             if L % 2 = 1 then TuringSymbol.ONE else TuringSymbol.ZERO⟩ := by
        unfold tupleStep
        rw [hmv, hwr]
        simp
      have hlkS : alookup (turing_table_to_tag_transition tbl)
          (TagSym.star t.next_state)
          = some [TagSym.sym TagRole.R t.next_state none,
                  TagSym.sym TagRole.R t.next_state none] :=
        TT_lookup_star hlk2
      -- the star relay step: both phase-1 shapes land on the same H form
      have hstar : (TagSystem.mk (turing_table_to_tag_transition tbl) 2
            ((if z then hProd t true else (hProd t false).tail)
              ++ (List.replicate L (lProd t)).flatten
              ++ (List.replicate R (rProd t)).flatten)).stepO
          = some (TagSystem.mk (turing_table_to_tag_transition tbl) 2
            (TagSym.sym TagRole.H t.next_state none
              :: (List.replicate (L * 1) (TagSym.sym TagRole.L t.next_state none)
                ++ List.replicate (R * 4 + 2)
                  (TagSym.sym TagRole.R t.next_state none)))) := by
        cases z
        · -- misaligned : [★, H, H] — the step drops ★ and the first H
          have hXeq : (hProd t false).tail
              = [TagSym.star t.next_state,
                 TagSym.sym TagRole.H t.next_state none,
                 TagSym.sym TagRole.H t.next_state none] := by
            simp [hProd, hmv, hwr]
          rw [if_neg (by intro hc; exact nomatch hc), hXeq, hlp, hrp,
            flatten_replicate_replicate, flatten_replicate_replicate]
          rw [show [TagSym.star t.next_state,
              TagSym.sym TagRole.H t.next_state none,
              TagSym.sym TagRole.H t.next_state none]
              ++ List.replicate (L * 1) (TagSym.sym TagRole.L t.next_state none)
              ++ List.replicate (R * 4) (TagSym.sym TagRole.R t.next_state none)
            = TagSym.star t.next_state
              :: (TagSym.sym TagRole.H t.next_state none
                :: (TagSym.sym TagRole.H t.next_state none
                  :: (List.replicate (L * 1) (TagSym.sym TagRole.L t.next_state none)
                    ++ List.replicate (R * 4)
                      (TagSym.sym TagRole.R t.next_state none)))) from by
            simp [List.append_assoc]]
          rw [ts2_step hlkS]
          congr 2
          rw [List.cons_append, List.drop_one, List.tail_cons]
          rw [show R * 4 + 2 = R * 4 + 1 + 1 from by omega,
            List.replicate_succ', List.replicate_succ']
          simp [List.append_assoc]
        · -- aligned : [★, ★, H] — the step drops both stars
          have hXeq : hProd t true
              = [TagSym.star t.next_state, TagSym.star t.next_state,
                 TagSym.sym TagRole.H t.next_state none] := by
            simp [hProd, hmv, hwr]
          rw [if_pos rfl, hXeq, hlp, hrp,
            flatten_replicate_replicate, flatten_replicate_replicate]
          rw [show [TagSym.star t.next_state, TagSym.star t.next_state,
              TagSym.sym TagRole.H t.next_state none]
              ++ List.replicate (L * 1) (TagSym.sym TagRole.L t.next_state none)
              ++ List.replicate (R * 4) (TagSym.sym TagRole.R t.next_state none)
            = TagSym.star t.next_state
              :: (TagSym.star t.next_state
                :: (TagSym.sym TagRole.H t.next_state none
                  :: (List.replicate (L * 1) (TagSym.sym TagRole.L t.next_state none)
                    ++ List.replicate (R * 4)
                      (TagSym.sym TagRole.R t.next_state none)))) from by
            simp [List.append_assoc]]
          rw [ts2_step hlkS]
          congr 2
          rw [List.cons_append, List.drop_one, List.tail_cons]
          rw [show R * 4 + 2 = R * 4 + 1 + 1 from by omega,
            List.replicate_succ', List.replicate_succ']
          simp [List.append_assoc]
      have hmidH : is_step_passed (TagSystem.mk (turing_table_to_tag_transition tbl) 2
          (TagSym.sym TagRole.H t.next_state none
            :: (List.replicate (L * 1) (TagSym.sym TagRole.L t.next_state none)
              ++ List.replicate (R * 4 + 2)
                (TagSym.sym TagRole.R t.next_state none)))) = false := by
        have hmem : TagSym.sym TagRole.H t.next_state none
            ∈ TagSym.sym TagRole.H t.next_state none
              :: (List.replicate (L * 1) (TagSym.sym TagRole.L t.next_state none)
                ++ List.replicate (R * 4 + 2)
                  (TagSym.sym TagRole.R t.next_state none)) :=
          List.mem_cons_self _ _
        exact is_step_passed_false_of_mem hmem rfl _
      have htup : (⟨t.next_state, (L * 1) / 2, (R * 4 + 2 + (L * 1) % 2) / 2,
            if (L * 1 + (R * 4 + 2)) % 2 = 1 then TuringSymbol.ONE
            else TuringSymbol.ZERO⟩ : TuringTapeTuple)
          = tupleStep t ⟨kk, L, R, hh⟩ := by
        rw [hts, show (L * 1) / 2 = L / 2 from by omega,
          show (R * 4 + 2 + (L * 1) % 2) / 2 = 2 * R + 1 from by omega,
          show (L * 1 + (R * 4 + 2)) % 2 = L % 2 from by omega]
      have hp2 := tagRunFF_congr_tape
        (runFF_phase2 hlk2 (L * 1) (R * 4 + 2)) rfl (by rw [htup])
      refine ⟨1 + (1 + (L * 1 + (R * 4 + 2)) / 2), by omega, ?_⟩
      exact tagRunFF_trans (tagRunFF_one hstar) hp2 (Or.inr hmidH)

theorem hProd_tail_mem_H (t : TuringTransition) :
    TagSym.sym TagRole.H t.next_state none ∈ (hProd t false).tail := by
  unfold hProd
  by_cases h1 : t.move = TuringDirection.LEFT ∧ t.write = TuringSymbol.ONE
  · rw [if_pos h1]
    have h2 : ¬(t.move = TuringDirection.RIGHT ∧ t.write = TuringSymbol.ONE) := by
      rintro ⟨hc, _⟩
      rw [h1.1] at hc
      exact nomatch hc
    rw [if_neg h2]
    simp
  · rw [if_neg h1]
    simp

/-- One full Turing step, simulated: from the tag encoding of a tape tuple,
some positive number of tag steps reaches the tag encoding of the stepped
tuple, with `is_step_passed` false at every strictly intermediate state. -/
theorem runFF_sim {tbl : List TuringStateTransition} {k : Nat}
    {st : TuringStateTransition} (hlk : lookupState tbl k = some st)
    (L R : Nat) (hh : TuringSymbol) {st' : TuringStateTransition}
    (hlk' : lookupState tbl
      (if hh = TuringSymbol.ZERO then st.transitions.1
       else st.transitions.2).next_state = some st') :
    ∃ n, 1 ≤ n ∧ TagRunFF n
      (TagSystem.mk (turing_table_to_tag_transition tbl) 2
        (turingTupleTagTape ⟨k, L, R, hh⟩))
      (TagSystem.mk (turing_table_to_tag_transition tbl) 2
        (turingTupleTagTape (tupleStep
          (if hh = TuringSymbol.ZERO then st.transitions.1
           else st.transitions.2) ⟨k, L, R, hh⟩))) := by
  cases hh with
  | ZERO =>
    rw [if_pos rfl] at hlk' ⊢
    have p1 := runFF_phase1_zero hlk L R
    obtain ⟨m, hm1, pB⟩ := runFF_phaseB st.transitions.1 hlk' L R false k
      TuringSymbol.ZERO
    have pB' := tagRunFF_congr_tape pB
      (by rw [if_neg (by intro hc; exact nomatch hc)]) rfl
    have hmid : is_step_passed (TagSystem.mk (turing_table_to_tag_transition tbl) 2
        ((hProd st.transitions.1 false).tail
          ++ (List.replicate L (lProd st.transitions.1)).flatten
          ++ (List.replicate R (rProd st.transitions.1)).flatten)) = false :=
      is_step_passed_false_of_mem
        (List.mem_append_left _ (List.mem_append_left _ (hProd_tail_mem_H _)))
        rfl _
    exact ⟨1 + L + R + m, by omega, tagRunFF_trans p1 pB' (Or.inr hmid)⟩
  | ONE =>
    rw [if_neg (by intro hc; exact nomatch hc)] at hlk' ⊢
    have p1 := runFF_phase1_one hlk L R
    obtain ⟨m, hm1, pB⟩ := runFF_phaseB st.transitions.2 hlk' L R true k
      TuringSymbol.ONE
    have pB' := tagRunFF_congr_tape pB (by rw [if_pos rfl]) rfl
    have hmid : is_step_passed (TagSystem.mk (turing_table_to_tag_transition tbl) 2
        (hProd st.transitions.2 true
          ++ (List.replicate L (lProd st.transitions.2)).flatten
          ++ (List.replicate R (rProd st.transitions.2)).flatten)) = false :=
      is_step_passed_false_of_mem
        (List.mem_append_left _ (List.mem_append_left _ (hProd_mem_H _ _)))
        rfl _
    exact ⟨1 + L + R + m, by omega, tagRunFF_trans p1 pB' (Or.inr hmid)⟩

/-- Run `n` successful steps of an `Option`-valued step function. -/
def iterO {σ : Type} (step : σ → Option σ) : Nat → σ → Option σ
  | 0, s => some s
  | n + 1, s =>
    match step s with
    | none => none
    | some s' => iterO step n s'

theorem iterO_succ {σ : Type} (step : σ → Option σ) (n : Nat) (s : σ) :
    iterO step (n + 1) s
      = match step s with
        | none => none
        | some s1 => iterO step n s1 := rfl

theorem stepUntil_succ {σ : Type} (pred : σ → Bool) (step : σ → Option σ)
    (fuel : Nat) (s : σ) :
    stepUntil pred step (fuel + 1) s
      = match step s with
        | none => none
        | some s1 =>
          if pred s1 then some (1, s1)
          else
            match stepUntil pred step fuel s1 with
            | none => none
            | some (n, s2) => some (n + 1, s2) := rfl

/-- The do-while loop of `Nester.__next__`, characterized: if `n ≥ 1` steps
succeed, the predicate is false strictly inside and true at the end, then
the loop runs exactly `n` steps. -/
theorem stepUntil_of_iter {σ : Type} (pred : σ → Bool) (step : σ → Option σ) :
    ∀ (n : Nat), 1 ≤ n → ∀ (fuel : Nat) (s sF : σ),
    iterO step n s = some sF →
    (∀ j, 0 < j → j < n → ∃ sj, iterO step j s = some sj ∧ pred sj = false) →
    n ≤ fuel → pred sF = true →
    stepUntil pred step fuel s = some (n, sF) := by
  intro n
  induction n with
  | zero => omega
  | succ n' ih =>
    intro _ fuel s sF hrun hmid hfuel hpass
    rcases fuel with _ | f
    · omega
    rw [iterO_succ] at hrun
    cases hs : step s with
    | none =>
      rw [hs] at hrun
      exact absurd hrun (by simp)
    | some s1 =>
      rw [hs] at hrun
      dsimp only at hrun
      rw [stepUntil_succ, hs]
      dsimp only
      rcases Nat.eq_zero_or_pos n' with hn0 | hnpos
      · subst hn0
        have hsF : s1 = sF := by
          rw [show iterO step 0 s1 = some s1 from rfl] at hrun
          exact (Option.some.injEq _ _).mp hrun
        subst hsF
        rw [if_pos hpass]
      · obtain ⟨sj, hj, hf⟩ := hmid 1 (by omega) (by omega)
        rw [iterO_succ, hs] at hj
        dsimp only at hj
        have hsj : s1 = sj := by
          rw [show iterO step 0 s1 = some s1 from rfl] at hj
          exact (Option.some.injEq _ _).mp hj
        subst hsj
        rw [if_neg (by rw [hf]; intro hc; exact nomatch hc)]
        have hmid1 : ∀ j, 0 < j → j < n' →
            ∃ sj2, iterO step j s1 = some sj2 ∧ pred sj2 = false := by
          intro j hj0 hjn
          obtain ⟨sj2, hrunj, hfj⟩ := hmid (j + 1) (by omega) (by omega)
          rw [iterO_succ, hs] at hrunj
          dsimp only at hrunj
          exact ⟨sj2, hrunj, hfj⟩
        rw [ih hnpos f s1 sF hrun hmid1 (by omega) hpass]

theorem tagRun_eq_iter {α : Type} [DecidableEq α] :
    ∀ (n : Nat) (s : TagSystem α), tagRun n s = iterO TagSystem.stepO n s := by
  intro n
  induction n with
  | zero => intro s; rfl
  | succ n ih =>
    intro s
    rw [tagRun_succ, iterO_succ]
    cases hs : s.stepO with
    | none => rfl
    | some s1 =>
      dsimp only
      exact ih s1

theorem iterO_add {σ : Type} (step : σ → Option σ) :
    ∀ (m n : Nat) (s : σ),
    iterO step (m + n) s = (iterO step m s).bind (iterO step n) := by
  intro m
  induction m with
  | zero =>
    intro n s
    rw [Nat.zero_add]
    rfl
  | succ m ih =>
    intro n s
    rw [Nat.succ_add, iterO_succ, iterO_succ]
    cases hs : step s with
    | none => rfl
    | some s1 =>
      dsimp only
      exact ih n s1

theorem mapM_sound {β γ : Type} (g : β → Option γ) :
    ∀ (l : List β) (w : List γ), l.mapM g = some w →
    w.length = l.length ∧ ∀ j, j < l.length → l[j]?.bind g = w[j]? := by
  intro l
  induction l with
  | nil =>
    intro w h
    rw [List.mapM_nil] at h
    have hw : w = [] := ((Option.some.injEq _ _).mp h).symm
    subst hw
    exact ⟨rfl, by intro j hj; simp at hj⟩
  | cons a rest ih =>
    intro w h
    rw [List.mapM_cons] at h
    cases hga : g a with
    | none =>
      rw [hga] at h
      exact absurd h (by simp)
    | some c =>
      rw [hga] at h
      cases hmr : rest.mapM g with
      | none =>
        rw [hmr] at h
        exact absurd h (by simp)
      | some w' =>
        rw [hmr] at h
        simp at h
        subst h
        obtain ⟨hlen', hpt⟩ := ih w' hmr
        refine ⟨by simp [hlen'], ?_⟩
        intro j hj
        cases j with
        | zero => simp [hga]
        | succ j' =>
          simp only [List.getElem?_cons_succ]
          exact hpt j' (by simp at hj; omega)

theorem cyc_stepO (T : List CyclicTag) (pt : Nat) (x : CyclicSymbol)
    (rest : List CyclicSymbol) {v : CyclicTag} (hv : T[pt]? = some v) :
    (CyclicTagSystem.mk (CyclicTransition.mk T pt) (x :: rest)).stepO
      = some (CyclicTagSystem.mk
          (CyclicTransition.mk T (if T.length ≤ pt + 1 then 0 else pt + 1))
          (if x = CyclicSymbol.YES then rest ++ v else rest)) := by
  unfold CyclicTagSystem.stepO CyclicTransition.nextO
  dsimp only
  rw [hv]

theorem cyc_run_NO (T : List CyclicTag) :
    ∀ (m pt : Nat) (W : List CyclicSymbol), pt + m < T.length →
    iterO CyclicTagSystem.stepO m
      (CyclicTagSystem.mk (CyclicTransition.mk T pt)
        (List.replicate m CyclicSymbol.NO ++ W))
      = some (CyclicTagSystem.mk (CyclicTransition.mk T (pt + m)) W) := by
  intro m
  induction m with
  | zero =>
    intro pt W h
    simp [iterO]
  | succ m ih =>
    intro pt W h
    rw [iterO_succ]
    have hv : T[pt]? = some (T.get ⟨pt, by omega⟩) :=
      List.getElem?_eq_getElem (by omega)
    rw [show List.replicate (m + 1) CyclicSymbol.NO ++ W
        = CyclicSymbol.NO :: (List.replicate m CyclicSymbol.NO ++ W) from by
      simp [List.replicate_succ]]
    rw [cyc_stepO T pt _ _ hv]
    dsimp only
    rw [if_neg (by omega), if_neg (by intro hc; exact nomatch hc)]
    rw [show pt + (m + 1) = pt + 1 + m from by omega]
    exact ih (pt + 1) W (by omega)

theorem cyc_run_trivial (T : List CyclicTag) :
    ∀ (V : List CyclicSymbol) (pt : Nat) (W : List CyclicSymbol),
    pt + V.length < T.length →
    (∀ j, pt ≤ j → j < pt + V.length → T[j]? = some []) →
    iterO CyclicTagSystem.stepO V.length
      (CyclicTagSystem.mk (CyclicTransition.mk T pt) (V ++ W))
      = some (CyclicTagSystem.mk (CyclicTransition.mk T (pt + V.length)) W) := by
  intro V
  induction V with
  | nil =>
    intro pt W h hT
    simp [iterO]
  | cons v V' ih =>
    intro pt W h hT
    simp only [List.length_cons] at h hT ⊢
    rw [iterO_succ, List.cons_append]
    rw [cyc_stepO T pt v _ (hT pt (le_refl _) (by omega))]
    dsimp only
    rw [if_neg (by omega)]
    have htp : (if v = CyclicSymbol.YES then (V' ++ W) ++ ([] : CyclicTag)
        else V' ++ W) = V' ++ W := by
      cases v <;> simp
    rw [htp]
    rw [show pt + (V'.length + 1) = pt + 1 + V'.length from by omega]
    exact ih (pt + 1) W (by omega)
      (fun j hj1 hj2 => hT j (by omega) (by omega))

theorem cyc_step_last (T : List CyclicTag) (v : CyclicSymbol)
    (W : List CyclicSymbol) (hlen : 1 ≤ T.length)
    (hT : T[T.length - 1]? = some []) :
    (CyclicTagSystem.mk (CyclicTransition.mk T (T.length - 1)) (v :: W)).stepO
      = some (CyclicTagSystem.mk (CyclicTransition.mk T 0) W) := by
  rw [cyc_stepO T _ v W hT]
  rw [if_pos (by omega)]
  have htp : (if v = CyclicSymbol.YES then W ++ ([] : CyclicTag) else W) = W := by
    cases v <;> simp
  rw [htp]

theorem cycRun_point : ∀ (n : Nat) (c c' : CyclicTagSystem),
    iterO CyclicTagSystem.stepO n c = some c' →
    c'.transition.transitions = c.transition.transitions ∧
    ((n = 0 ∧ c'.transition.point = c.transition.point) ∨
     (0 < c.transition.transitions.length ∧
      c'.transition.point
        = (c.transition.point + n) % c.transition.transitions.length)) := by
  intro n
  induction n with
  | zero =>
    intro c c' h
    have hc : c = c' := by
      rw [show iterO CyclicTagSystem.stepO 0 c = some c from rfl] at h
      exact (Option.some.injEq _ _).mp h
    subst hc
    exact ⟨rfl, Or.inl ⟨rfl, rfl⟩⟩
  | succ n ih =>
    intro c c' h
    rw [iterO_succ] at h
    cases hs : c.stepO with
    | none =>
      rw [hs] at h
      exact absurd h (by simp)
    | some c1 =>
      rw [hs] at h
      dsimp only at h
      have hstep : c1.transition.transitions = c.transition.transitions ∧
          0 < c.transition.transitions.length ∧
          c1.transition.point
            = (c.transition.point + 1) % c.transition.transitions.length := by
        unfold CyclicTagSystem.stepO at hs
        cases htp : c.tape with
        | nil =>
          rw [htp] at hs
          exact absurd hs (by simp)
        | cons x rest =>
          rw [htp] at hs
          dsimp only at hs
          cases hnx : c.transition.nextO with
          | none =>
            rw [hnx] at hs
            exact absurd hs (by simp)
          | some vt =>
            rw [hnx] at hs
            dsimp only at hs
            obtain ⟨htr, hlt, hpt⟩ := CyclicTransition.nextO_some
              (by rw [hnx])
            have hc1 : c1.transition = vt.2 := by
              have := (Option.some.injEq _ _).mp hs
              rw [← this]
            rw [hc1, htr, hpt]
            exact ⟨rfl, by omega, rfl⟩
      obtain ⟨htr1, hlen, hpt1⟩ := hstep
      obtain ⟨htr2, hrest⟩ := ih c1 c' h
      refine ⟨by rw [htr2, htr1], Or.inr ⟨hlen, ?_⟩⟩
      rcases hrest with ⟨hn0, hpt2⟩ | ⟨hlen1, hpt2⟩
      · subst hn0
        rw [hpt2, hpt1]
      · rw [hpt2, htr1, hpt1, Nat.mod_add_mod,
          show c.transition.point + 1 + n = c.transition.point + (n + 1) from by
            omega]

/-- One revolution of the cyclic system: from the encoding of a tag tape
`x :: rest` with the pointer at 0, `2A` cyclic steps (A = alphabet size)
reach the encoding of the 2-tag-stepped tape `(rest ++ P).drop 1`, pointer
back at 0. -/
theorem cyc_revolution {α : Type} [DecidableEq α] (s : TagSystem α)
    (hkeys : (s.transition.map Prod.fst).Nodup)
    {x : α} {rest P : List α}
    (hx : x ∈ s.symbol_list) (hrest : ∀ y ∈ rest, y ∈ s.symbol_list)
    (hP : alookup s.transition x = some P)
    (hPsub : ∀ y ∈ P, y ∈ s.symbol_list)
    (hne : rest ++ P ≠ [])
    {T : CyclicTransition} (hT : tag_system_to_cyclic_transitions s 2 = some T) :
    ∃ (e1 e2 : List CyclicSymbol),
      encSyms (tag_system_to_cyclic_tags_dict s) (x :: rest) = some e1 ∧
      encSyms (tag_system_to_cyclic_tags_dict s) ((rest ++ P).drop 1) = some e2 ∧
      T.transitions.length = 2 * s.symbol_list.length ∧
      iterO CyclicTagSystem.stepO (2 * s.symbol_list.length)
        (CyclicTagSystem.mk (CyclicTransition.mk T.transitions 0) e1)
      = some (CyclicTagSystem.mk (CyclicTransition.mk T.transitions 0) e2) := by
  have hA : 0 < s.symbol_list.length :=
    List.length_pos.mpr (List.ne_nil_of_mem hx)
  have hencAll : ∀ l : List α, (∀ y ∈ l, y ∈ s.symbol_list) →
      encSyms (tag_system_to_cyclic_tags_dict s) l
        = some ((l.map (symHot s)).flatten) :=
    fun l hl => encSyms_eq _ _ l (fun y hy => (symHot_spec hkeys (hl y hy)).1)
  -- extract the slot list from the transition construction
  unfold tag_system_to_cyclic_transitions at hT
  dsimp only at hT
  rcases hms : (tag_system_to_cyclic_tags_dict s).mapM
      (fun kv => match alookup s.transition kv.1 with
        | none => none
        | some prod => encSyms (tag_system_to_cyclic_tags_dict s) prod)
    with _ | slots
  · rw [hms] at hT
    exact absurd hT (by simp)
  rw [hms] at hT
  dsimp only at hT
  have hTv := (Option.some.injEq _ _).mp hT
  have hTt : T.transitions = slots
      ++ List.replicate ((tag_system_to_cyclic_tags_dict s).length * (2 - 1)) [] := by
    rw [← hTv]
    rfl
  obtain ⟨hslen, hpw⟩ := mapM_sound _ _ _ hms
  have hslenA : slots.length = s.symbol_list.length := by
    rw [hslen, td_length]
  have hTlen : T.transitions.length = 2 * s.symbol_list.length := by
    rw [hTt, List.length_append, List.length_replicate, hslenA, td_length]
    omega
  have hTj : ∀ j, j < s.symbol_list.length → T.transitions[j]? = slots[j]? := by
    intro j hj
    rw [hTt]
    exact List.getElem?_append_left (by omega)
  have hTe : ∀ j, s.symbol_list.length ≤ j → j < 2 * s.symbol_list.length →
      T.transitions[j]? = some [] := by
    intro j hj1 hj2
    rw [hTt, List.getElem?_append_right (by omega), List.getElem?_replicate]
    rw [if_pos (by rw [td_length]; omega)]
  -- the slot for x holds the encoding of its production
  have hi : s.symbol_list.indexOf x < s.symbol_list.length :=
    List.indexOf_lt_length.mpr hx
  have hslot : T.transitions[s.symbol_list.indexOf x]?
      = some ((P.map (symHot s)).flatten) := by
    rw [hTj _ hi]
    have hp := hpw (s.symbol_list.indexOf x) (by rw [td_length]; exact hi)
    rw [td_getElem s _ hi] at hp
    rw [← hp]
    show (match alookup s.transition (s.symbol_list.get ⟨_, hi⟩) with
      | none => none
      | some prod => encSyms (tag_system_to_cyclic_tags_dict s) prod) = _
    have hget : s.symbol_list.get ⟨s.symbol_list.indexOf x, hi⟩ = x :=
      List.getElem_indexOf hi
    rw [hget, hP]
    exact hencAll P hPsub
  -- tape decompositions
  obtain ⟨y, tail, hyt⟩ : ∃ y tail, rest ++ P = y :: tail := by
    rcases hrp : rest ++ P with _ | ⟨y, tail⟩
    · exact absurd hrp hne
    · exact ⟨y, tail, rfl⟩
  have hy : y ∈ s.symbol_list := by
    have hmem : y ∈ rest ++ P := by
      rw [hyt]
      exact List.mem_cons_self _ _
    rcases List.mem_append.mp hmem with hmem | hmem
    · exact hrest y hmem
    · exact hPsub y hmem
  have htail : ∀ z ∈ tail, z ∈ s.symbol_list := by
    intro z hz
    have hmem : z ∈ rest ++ P := by
      rw [hyt]
      exact List.mem_cons_of_mem _ hz
    rcases List.mem_append.mp hmem with hmem | hmem
    · exact hrest z hmem
    · exact hPsub z hmem
  refine ⟨((x :: rest).map (symHot s)).flatten, (tail.map (symHot s)).flatten,
    hencAll _ (by
      intro z hz
      rcases List.mem_cons.mp hz with hz | hz
      · rw [hz]; exact hx
      · exact hrest z hz), by rw [hyt, List.drop_one, List.tail_cons]; exact hencAll tail htail,
    hTlen, ?_⟩
  have hylen : (symHot s y).length = s.symbol_list.length :=
    (symHot_spec hkeys hy).2.1
  have hbne : symHot s y ≠ [] := by
    intro hc
    rw [hc] at hylen
    simp at hylen
    omega
  have hRP : (rest.map (symHot s)).flatten ++ (P.map (symHot s)).flatten
      = (symHot s y).dropLast
        ++ ((symHot s y).getLast hbne :: (tail.map (symHot s)).flatten) := by
    rw [← List.flatten_append, ← List.map_append, hyt, List.map_cons,
      List.flatten_cons]
    conv_lhs => rw [← List.dropLast_append_getLast hbne]
    simp [List.append_assoc]
  -- phase counts
  have hi2 : s.symbol_list.indexOf x + 1 ≤ s.symbol_list.length := by omega
  -- r1 : skip the NO prefix of the one-hot block of x
  have r1 := cyc_run_NO T.transitions (s.symbol_list.indexOf x) 0
    (CyclicSymbol.YES
      :: (List.replicate (s.symbol_list.length - 1 - s.symbol_list.indexOf x)
            CyclicSymbol.NO
          ++ (rest.map (symHot s)).flatten)) (by omega)
  rw [Nat.zero_add] at r1
  -- r2 : the YES cell fires the slot of x
  have r2 : (CyclicTagSystem.mk
        (CyclicTransition.mk T.transitions (s.symbol_list.indexOf x))
        (CyclicSymbol.YES
          :: (List.replicate (s.symbol_list.length - 1 - s.symbol_list.indexOf x)
                CyclicSymbol.NO
              ++ (rest.map (symHot s)).flatten))).stepO
      = some (CyclicTagSystem.mk
          (CyclicTransition.mk T.transitions (s.symbol_list.indexOf x + 1))
          (List.replicate (s.symbol_list.length - 1 - s.symbol_list.indexOf x)
              CyclicSymbol.NO
            ++ ((rest.map (symHot s)).flatten ++ (P.map (symHot s)).flatten))) := by
    rw [cyc_stepO T.transitions _ _ _ hslot]
    rw [if_neg (show ¬(T.transitions.length ≤ s.symbol_list.indexOf x + 1) from by
      omega)]
    rw [if_pos rfl]
    congr 2
    simp [List.append_assoc]
  -- r3 : skip the NO suffix of the block of x; pointer reaches A
  have r3 := cyc_run_NO T.transitions
    (s.symbol_list.length - 1 - s.symbol_list.indexOf x)
    (s.symbol_list.indexOf x + 1)
    ((rest.map (symHot s)).flatten ++ (P.map (symHot s)).flatten) (by omega)
  rw [show s.symbol_list.indexOf x + 1
      + (s.symbol_list.length - 1 - s.symbol_list.indexOf x)
      = s.symbol_list.length from by omega] at r3
  nth_rewrite 2 [hRP] at r3
  -- r4 : the empty slots pop the block of y, except its last cell
  have r4 := cyc_run_trivial T.transitions ((symHot s y).dropLast)
    s.symbol_list.length
    ((symHot s y).getLast hbne :: (tail.map (symHot s)).flatten)
    (by rw [List.length_dropLast, hylen]; omega)
    (fun j hj1 hj2 => hTe j hj1 (by
      rw [List.length_dropLast, hylen] at hj2
      omega))
  rw [show s.symbol_list.length + (symHot s y).dropLast.length
      = 2 * s.symbol_list.length - 1 from by
    rw [List.length_dropLast, hylen]
    omega] at r4
  -- r5 : the final empty slot pops the last cell; the pointer wraps to 0
  have r5 := cyc_step_last T.transitions ((symHot s y).getLast hbne)
    ((tail.map (symHot s)).flatten) (by omega)
    (by
      rw [hTlen]
      exact hTe (2 * s.symbol_list.length - 1) (by omega) (by omega))
  rw [hTlen] at r5
  -- assemble the full revolution
  rw [show 2 * s.symbol_list.length
      = s.symbol_list.indexOf x
        + (1 + ((s.symbol_list.length - 1 - s.symbol_list.indexOf x)
          + ((symHot s y).dropLast.length + 1))) from by
    rw [List.length_dropLast, hylen]
    omega]
  rw [iterO_add]
  rw [show ((x :: rest).map (symHot s)).flatten
      = List.replicate (s.symbol_list.indexOf x) CyclicSymbol.NO
        ++ (CyclicSymbol.YES
          :: (List.replicate (s.symbol_list.length - 1 - s.symbol_list.indexOf x)
                CyclicSymbol.NO
              ++ (rest.map (symHot s)).flatten)) from by
    rw [List.map_cons, List.flatten_cons]
    show symHot s x ++ _ = _
    unfold symHot oneHot
    simp [List.append_assoc]
    omega]
  rw [r1]
  show (iterO CyclicTagSystem.stepO _ _) = _
  rw [show (1 : Nat) + ((s.symbol_list.length - 1 - s.symbol_list.indexOf x)
      + ((symHot s y).dropLast.length + 1))
      = ((s.symbol_list.length - 1 - s.symbol_list.indexOf x)
        + ((symHot s y).dropLast.length + 1)) + 1 from by omega]
  rw [iterO_succ, r2]
  dsimp only
  rw [iterO_add, r3]
  show (iterO CyclicTagSystem.stepO _ _) = _
  rw [show (symHot s y).dropLast.length + 1
      = (symHot s y).dropLast.length + 1 from rfl]
  rw [iterO_add, r4]
  show (iterO CyclicTagSystem.stepO 1 _) = _
  rw [show (1 : Nat) = 0 + 1 from rfl, iterO_succ, r5]
  rfl

/-- Well-formed transition table: unique state ids (the construction of
`TuringTransitionTable` asserts this) and next-states all present. -/
def tableWF (tbl : List TuringStateTransition) : Prop :=
  (tbl.map TuringStateTransition.state).Nodup ∧
  ∀ st ∈ tbl, (lookupState tbl st.transitions.1.next_state).isSome = true ∧
              (lookupState tbl st.transitions.2.next_state).isSome = true

theorem lookupState_mem {tbl : List TuringStateTransition} {k : Nat}
    {st : TuringStateTransition} (h : lookupState tbl k = some st) :
    st ∈ tbl := by
  induction tbl with
  | nil => exact absurd h (by simp [lookupState])
  | cons st0 rest ih =>
    unfold lookupState at h
    by_cases h0 : st0.state = k
    · rw [if_pos h0] at h
      have : st0 = st := by simpa using h
      rw [← this]
      exact List.mem_cons_self _ _
    · rw [if_neg h0] at h
      exact List.mem_cons_of_mem _ (ih h)

theorem mem_lookupState {tbl : List TuringStateTransition}
    {st : TuringStateTransition} (h : st ∈ tbl) :
    (lookupState tbl st.state).isSome = true := by
  induction tbl with
  | nil => exact absurd h (List.not_mem_nil _)
  | cons st0 rest ih =>
    unfold lookupState
    by_cases h0 : st0.state = st.state
    · rw [if_pos h0]
      rfl
    · rw [if_neg h0]
      rcases List.mem_cons.mp h with h1 | h1
      · exact absurd (by rw [h1]) h0
      · exact ih h1

theorem TT_keys (tbl : List TuringStateTransition) :
    (turing_table_to_tag_transition tbl).map Prod.fst
      = tbl.flatMap (fun st => (stateEntries st).map Prod.fst) := by
  induction tbl with
  | nil => rfl
  | cons st0 rest ih =>
    show (stateEntries st0 ++ rest.flatMap stateEntries).map Prod.fst = _
    rw [List.map_append, List.flatMap_cons]
    congr 1

theorem stateEntries_keys_nodup (st : TuringStateTransition) :
    ((stateEntries st).map Prod.fst).Nodup := by
  simp [stateEntries]

theorem TT_keys_nodup {tbl : List TuringStateTransition}
    (hnd : (tbl.map TuringStateTransition.state).Nodup) :
    ((turing_table_to_tag_transition tbl).map Prod.fst).Nodup := by
  rw [TT_keys]
  induction tbl with
  | nil => exact List.nodup_nil
  | cons st0 rest ih =>
    rw [List.flatMap_cons, List.nodup_append]
    rw [List.map_cons, List.nodup_cons] at hnd
    refine ⟨stateEntries_keys_nodup st0, ih hnd.2, ?_⟩
    intro key hk1 hk2
    obtain ⟨kv1, hkv1, hkey1⟩ := List.mem_map.mp hk1
    obtain ⟨st1, hst1, hkv2⟩ := List.mem_flatMap.mp hk2
    obtain ⟨kv2, hkv2m, hkey2⟩ := List.mem_map.mp hkv2
    have h1 : keyState key = st0.state := by
      rw [← hkey1]
      exact stateEntries_keyState st0 kv1 hkv1
    have h2 : keyState key = st1.state := by
      rw [← hkey2]
      exact stateEntries_keyState st1 kv2 hkv2m
    exact hnd.1 (by
      rw [show st0.state = st1.state from by rw [← h1, h2]]
      exact List.mem_map.mpr ⟨st1, hst1, rfl⟩)

theorem TT_key_mem {tbl : List TuringStateTransition}
    {st : TuringStateTransition} (hst : st ∈ tbl) (key : TagSym)
    (hkey : keyState key = st.state) :
    key ∈ (turing_table_to_tag_transition tbl).map Prod.fst := by
  rw [TT_keys]
  refine List.mem_flatMap.mpr ⟨st, hst, ?_⟩
  have hsome := stateEntries_lookup_isSome st key hkey
  cases hx : alookup (stateEntries st) key with
  | none =>
    rw [hx] at hsome
    exact absurd hsome (by simp)
  | some v =>
    exact List.mem_map.mpr ⟨(key, v), alookup_mem hx, rfl⟩

theorem hProd_states (t : TuringTransition) (z : Bool) :
    ∀ y ∈ hProd t z, keyState y = t.next_state := by
  intro y hy
  unfold hProd at hy
  simp only [List.mem_append] at hy
  rcases hy with ((hy | hy) | hy) | hy
  · rcases (by split at hy <;> simp_all :
        y = TagSym.star t.next_state ∨ False) with h | h
    · rw [h]; rfl
    · exact absurd h (by simp)
  · rcases (by split at hy <;> simp_all :
        y = TagSym.sym TagRole.H t.next_state none ∨ False) with h | h
    · rw [h]; rfl
    · exact absurd h (by simp)
  · rw [List.mem_singleton] at hy
    rw [hy]
    rfl
  · rcases (by split at hy <;> simp_all :
        y = TagSym.sym TagRole.L t.next_state none ∨ False) with h | h
    · rw [h]; rfl
    · exact absurd h (by simp)

theorem lProd_states (t : TuringTransition) :
    ∀ y ∈ lProd t, keyState y = t.next_state := by
  intro y hy
  rw [lProd_eq] at hy
  rw [(List.mem_replicate.mp hy).2]
  rfl

theorem rProd_states (t : TuringTransition) :
    ∀ y ∈ rProd t, keyState y = t.next_state := by
  intro y hy
  rw [rProd_eq] at hy
  rw [(List.mem_replicate.mp hy).2]
  rfl

/-- Closure: every symbol in every production of the tag transition built
from a well-formed table is itself a key of that transition. -/
theorem TT_prod_closed {tbl : List TuringStateTransition} (hWF : tableWF tbl) :
    ∀ kv ∈ turing_table_to_tag_transition tbl, ∀ y ∈ kv.2,
    y ∈ (turing_table_to_tag_transition tbl).map Prod.fst := by
  intro kv hkv y hy
  obtain ⟨st, hst, hkvm⟩ := List.mem_flatMap.mp hkv
  have hnext : ∀ t : TuringTransition,
      (t = st.transitions.1 ∨ t = st.transitions.2) →
      ∀ r d, TagSym.sym r t.next_state d
        ∈ (turing_table_to_tag_transition tbl).map Prod.fst := by
    intro t ht r d
    have hsome : (lookupState tbl t.next_state).isSome = true := by
      rcases ht with ht | ht
      · rw [ht]; exact ((hWF.2 st hst).1)
      · rw [ht]; exact ((hWF.2 st hst).2)
    cases hlk : lookupState tbl t.next_state with
    | none => rw [hlk] at hsome; exact absurd hsome (by simp)
    | some st2 =>
      exact TT_key_mem (lookupState_mem hlk) _
        (show keyState (TagSym.sym r t.next_state d) = st2.state from by
          rw [lookupState_state hlk]
          rfl)
  have hnextStar : ∀ t : TuringTransition,
      (t = st.transitions.1 ∨ t = st.transitions.2) →
      TagSym.star t.next_state
        ∈ (turing_table_to_tag_transition tbl).map Prod.fst := by
    intro t ht
    have hsome : (lookupState tbl t.next_state).isSome = true := by
      rcases ht with ht | ht
      · rw [ht]; exact ((hWF.2 st hst).1)
      · rw [ht]; exact ((hWF.2 st hst).2)
    cases hlk : lookupState tbl t.next_state with
    | none => rw [hlk] at hsome; exact absurd hsome (by simp)
    | some st2 =>
      exact TT_key_mem (lookupState_mem hlk) _
        (show keyState (TagSym.star t.next_state) = st2.state from by
          rw [lookupState_state hlk]
          rfl)
  have hself : ∀ r d, TagSym.sym r st.state d
      ∈ (turing_table_to_tag_transition tbl).map Prod.fst :=
    fun r d => TT_key_mem hst _ rfl
  unfold stateEntries at hkvm
  simp only [List.mem_cons, List.not_mem_nil, or_false] at hkvm
  rcases hkvm with h|h|h|h|h|h|h|h|h|h
  · rw [h] at hy
    have hst1 := hProd_states st.transitions.1 false y hy
    rcases y with ⟨r, ks, d⟩ | ks
    · have : ks = st.transitions.1.next_state := hst1
      rw [this]
      exact hnext _ (Or.inl rfl) r d
    · have : ks = st.transitions.1.next_state := hst1
      rw [this]
      exact hnextStar _ (Or.inl rfl)
  · rw [h] at hy
    have hst1 := lProd_states st.transitions.1 y hy
    rcases y with ⟨r, ks, d⟩ | ks
    · rw [show ks = st.transitions.1.next_state from hst1]
      exact hnext _ (Or.inl rfl) r d
    · rw [show ks = st.transitions.1.next_state from hst1]
      exact hnextStar _ (Or.inl rfl)
  · rw [h] at hy
    have hst1 := rProd_states st.transitions.1 y hy
    rcases y with ⟨r, ks, d⟩ | ks
    · rw [show ks = st.transitions.1.next_state from hst1]
      exact hnext _ (Or.inl rfl) r d
    · rw [show ks = st.transitions.1.next_state from hst1]
      exact hnextStar _ (Or.inl rfl)
  · rw [h] at hy
    have hst1 := hProd_states st.transitions.2 true y hy
    rcases y with ⟨r, ks, d⟩ | ks
    · rw [show ks = st.transitions.2.next_state from hst1]
      exact hnext _ (Or.inr rfl) r d
    · rw [show ks = st.transitions.2.next_state from hst1]
      exact hnextStar _ (Or.inr rfl)
  · rw [h] at hy
    have hst1 := lProd_states st.transitions.2 y hy
    rcases y with ⟨r, ks, d⟩ | ks
    · rw [show ks = st.transitions.2.next_state from hst1]
      exact hnext _ (Or.inr rfl) r d
    · rw [show ks = st.transitions.2.next_state from hst1]
      exact hnextStar _ (Or.inr rfl)
  · rw [h] at hy
    have hst1 := rProd_states st.transitions.2 y hy
    rcases y with ⟨r, ks, d⟩ | ks
    · rw [show ks = st.transitions.2.next_state from hst1]
      exact hnext _ (Or.inr rfl) r d
    · rw [show ks = st.transitions.2.next_state from hst1]
      exact hnextStar _ (Or.inr rfl)
  · rw [h] at hy
    simp at hy
    rw [hy]
    exact hself TagRole.R none
  · rw [h] at hy
    simp at hy
    rcases hy with hy | hy <;> rw [hy]
    · exact hself TagRole.H (some true)
    · exact hself TagRole.H (some false)
  · rw [h] at hy
    simp at hy
    rcases hy with hy | hy <;> rw [hy]
    · exact hself TagRole.L (some true)
    · exact hself TagRole.L (some false)
  · rw [h] at hy
    simp at hy
    rcases hy with hy | hy <;> rw [hy]
    · exact hself TagRole.R (some true)
    · exact hself TagRole.R (some false)

theorem turingTupleTagTape_closed {tbl : List TuringStateTransition}
    {k : Nat} {st : TuringStateTransition}
    (hlk : lookupState tbl k = some st) (L R : Nat) (h : TuringSymbol) :
    ∀ y ∈ turingTupleTagTape ⟨k, L, R, h⟩,
    y ∈ (turing_table_to_tag_transition tbl).map Prod.fst := by
  have hpair : ∀ (r : TagRole) (b : Bool), TagSym.sym r k (some b)
      ∈ (turing_table_to_tag_transition tbl).map Prod.fst := by
    intro r b
    refine TT_key_mem (lookupState_mem hlk) _ ?_
    rw [lookupState_state hlk]
    rfl
  intro y hy
  have hflat : ∀ (r : TagRole) (m : Nat),
      y ∈ (List.replicate m (tagPair r k)).flatten → ∃ b, y = TagSym.sym r k (some b) := by
    intro r m hm
    obtain ⟨l2, hl2, hyl2⟩ := List.mem_flatten.mp hm
    have : l2 = tagPair r k := (List.mem_replicate.mp hl2).2
    rw [this] at hyl2
    unfold tagPair at hyl2
    simp at hyl2
    rcases hyl2 with h1 | h1
    · exact ⟨true, h1⟩
    · exact ⟨false, h1⟩
  cases h with
  | ZERO =>
    rw [turingTupleTagTape_eq_zero] at hy
    rcases List.mem_cons.mp hy with h1 | h1
    · rw [h1]; exact hpair TagRole.H false
    · rcases List.mem_append.mp h1 with h2 | h2
      · obtain ⟨b, hb⟩ := hflat TagRole.L L h2
        rw [hb]; exact hpair TagRole.L b
      · obtain ⟨b, hb⟩ := hflat TagRole.R R h2
        rw [hb]; exact hpair TagRole.R b
  | ONE =>
    rw [turingTupleTagTape_eq_one] at hy
    rcases List.mem_cons.mp hy with h1 | h1
    · rw [h1]; exact hpair TagRole.H true
    · rcases List.mem_cons.mp h1 with h2 | h2
      · rw [h2]; exact hpair TagRole.H false
      · rcases List.mem_append.mp h2 with h3 | h3
        · obtain ⟨b, hb⟩ := hflat TagRole.L L h3
          rw [hb]; exact hpair TagRole.L b
        · obtain ⟨b, hb⟩ := hflat TagRole.R R h3
          rw [hb]; exact hpair TagRole.R b

theorem iterO_prefix {σ : Type} (step : σ → Option σ) (a b : Nat) (s sF : σ)
    (h : iterO step (a + b) s = some sF) :
    ∃ sm, iterO step a s = some sm ∧ iterO step b sm = some sF := by
  rw [iterO_add] at h
  cases hx : iterO step a s with
  | none =>
    rw [hx] at h
    exact absurd h (by simp)
  | some sm =>
    rw [hx] at h
    exact ⟨sm, rfl, h⟩

theorem stepO_fields {α : Type} [DecidableEq α] {σ σ' : TagSystem α}
    (h : σ.stepO = some σ') :
    σ'.transition = σ.transition ∧ σ'.num = σ.num ∧
    ∃ x rest P, σ.tape = x :: rest ∧ alookup σ.transition x = some P ∧
      σ'.tape = ((x :: rest) ++ P).drop σ.num := by
  unfold TagSystem.stepO TagSystem.step at h
  cases htp : σ.tape with
  | nil =>
    rw [htp] at h
    exact absurd h (by simp)
  | cons x rest =>
    rw [htp] at h
    dsimp only at h
    cases hP : alookup σ.transition x with
    | none =>
      rw [hP] at h
      exact absurd h (by simp)
    | some P =>
      rw [hP] at h
      dsimp only at h
      have hσ' : TagSystem.mk σ.transition σ.num ((x :: rest ++ P).drop σ.num)
          = σ' := (Option.some.injEq _ _).mp h
      rw [← hσ']
      exact ⟨rfl, rfl, x, rest, P, rfl, hP, rfl⟩

theorem td_congr {α : Type} (σ σ' : TagSystem α)
    (h : σ'.transition = σ.transition) :
    tag_system_to_cyclic_tags_dict σ' = tag_system_to_cyclic_tags_dict σ := by
  unfold tag_system_to_cyclic_tags_dict TagSystem.symbol_list
  rw [h]

theorem ttc_congr {α : Type} [DecidableEq α] (σ σ' : TagSystem α)
    (h : σ'.transition = σ.transition) :
    tag_system_to_cyclic_transitions σ' 2
      = tag_system_to_cyclic_transitions σ 2 := by
  unfold tag_system_to_cyclic_transitions
  dsimp only
  rw [td_congr σ σ' h, h]

theorem symbol_list_congr {α : Type} (σ σ' : TagSystem α)
    (h : σ'.transition = σ.transition) : σ'.symbol_list = σ.symbol_list := by
  unfold TagSystem.symbol_list
  rw [h]

/-- One cyclic round for one tag step: the `2A`-step revolution taking the
encoding of the tag tape to the encoding of the stepped tag tape. -/
theorem cyc_round {α : Type} [DecidableEq α] {σ σ' : TagSystem α}
    (hkeys : (σ.transition.map Prod.fst).Nodup)
    (hnum : σ.num = 2)
    (hstep : σ.stepO = some σ')
    (hsub : ∀ y ∈ σ.tape, y ∈ σ.symbol_list)
    (hProdSub : ∀ kv ∈ σ.transition, ∀ y ∈ kv.2, y ∈ σ.symbol_list)
    (hne2 : σ'.tape ≠ [])
    {T : CyclicTransition} (hT : tag_system_to_cyclic_transitions σ 2 = some T) :
    ∃ e e', tag_system_to_cyclic_tape σ = some e ∧
      tag_system_to_cyclic_tape σ' = some e' ∧
      T.transitions.length = 2 * σ.symbol_list.length ∧
      iterO CyclicTagSystem.stepO (2 * σ.symbol_list.length)
        (CyclicTagSystem.mk (CyclicTransition.mk T.transitions 0) e)
      = some (CyclicTagSystem.mk (CyclicTransition.mk T.transitions 0) e') := by
  obtain ⟨htr, hnm, x, rest, P, htp, hP, htp'⟩ := stepO_fields hstep
  have hx : x ∈ σ.symbol_list := hsub x (by rw [htp]; exact List.mem_cons_self _ _)
  have hrest : ∀ y ∈ rest, y ∈ σ.symbol_list :=
    fun y hy => hsub y (by rw [htp]; exact List.mem_cons_of_mem _ hy)
  have hPsub : ∀ y ∈ P, y ∈ σ.symbol_list :=
    fun y hy => hProdSub (x, P) (alookup_mem hP) y hy
  have htp'2 : σ'.tape = (rest ++ P).drop 1 := by
    rw [htp', hnum, List.cons_append, show (2 : Nat) = 1 + 1 from rfl,
      List.drop_succ_cons]
  have hne : rest ++ P ≠ [] := by
    intro hc
    rw [htp'2, hc] at hne2
    exact hne2 rfl
  obtain ⟨e1, e2, he1, he2, hlen, hrun⟩ :=
    cyc_revolution σ hkeys hx hrest hP hPsub hne hT
  refine ⟨e1, e2, ?_, ?_, hlen, hrun⟩
  · unfold tag_system_to_cyclic_tape
    rw [htp]
    exact he1
  · unfold tag_system_to_cyclic_tape
    rw [td_congr σ σ' htr, htp'2]
    exact he2

theorem stepUntilN_succ {σ : Type} (pred : σ → Bool) (step : σ → Option σ)
    (fuel k : Nat) (s : σ) :
    stepUntilN pred step fuel (k + 1) s
      = match stepUntil pred step fuel s with
        | none => none
        | some (n, s1) =>
          match stepUntilN pred step fuel k s1 with
          | none => none
          | some (m, s2) => some (n + m, s2) := rfl

/-- One cyclic do-while round: a `2A`-step revolution is exactly one
`stepUntil` cycle (the pointer is nonzero strictly inside, zero at the
end). -/
theorem stepUntil_cyc_round {A : Nat} (hA : 0 < A)
    {Tt : List CyclicTag} (hlen : Tt.length = 2 * A)
    {e e' : List CyclicSymbol}
    (hrun : iterO CyclicTagSystem.stepO (2 * A)
        (CyclicTagSystem.mk (CyclicTransition.mk Tt 0) e)
      = some (CyclicTagSystem.mk (CyclicTransition.mk Tt 0) e'))
    (fuel : Nat) (hfuel : 2 * A ≤ fuel) :
    stepUntil is_tag_step_passed CyclicTagSystem.stepO fuel
        (CyclicTagSystem.mk (CyclicTransition.mk Tt 0) e)
      = some (2 * A, CyclicTagSystem.mk (CyclicTransition.mk Tt 0) e') := by
  refine stepUntil_of_iter _ _ (2 * A) (by omega) fuel _ _ hrun ?_ hfuel rfl
  intro j hj0 hjn
  obtain ⟨cj, hcj, hrest⟩ := iterO_prefix CyclicTagSystem.stepO j (2 * A - j)
    _ _ (by rw [show j + (2 * A - j) = 2 * A from by omega]; exact hrun)
  refine ⟨cj, hcj, ?_⟩
  obtain ⟨htr, hpt⟩ := cycRun_point j _ cj hcj
  rcases hpt with ⟨hj0', _⟩ | ⟨_, hpt⟩
  · omega
  · unfold is_tag_step_passed
    dsimp only at hpt
    rw [hpt, hlen, Nat.zero_add, Nat.mod_eq_of_lt (by omega)]
    simp
    omega

/-- `c₁` cyclic do-while rounds track `c₁` tag steps: each takes exactly
`2A` cyclic steps, and the final cyclic tape is the encoding of the final
tag tape. -/
theorem cyc_rounds {α : Type} [DecidableEq α] :
    ∀ (k : Nat) (σ σF : TagSystem α),
    tagRun k σ = some σF →
    σF.tape ≠ [] →
    (σ.transition.map Prod.fst).Nodup →
    σ.num = 2 →
    (∀ y ∈ σ.tape, y ∈ σ.symbol_list) →
    (∀ kv ∈ σ.transition, ∀ y ∈ kv.2, y ∈ σ.symbol_list) →
    ∀ (T : CyclicTransition), tag_system_to_cyclic_transitions σ 2 = some T →
    ∀ (e : List CyclicSymbol), tag_system_to_cyclic_tape σ = some e →
    ∀ fuel, 2 * σ.symbol_list.length ≤ fuel →
    ∃ e', tag_system_to_cyclic_tape σF = some e' ∧
      tag_system_to_cyclic_transitions σF 2 = some T ∧
      σF.transition = σ.transition ∧ σF.num = 2 ∧
      (∀ y ∈ σF.tape, y ∈ σF.symbol_list) ∧
      stepUntilN is_tag_step_passed CyclicTagSystem.stepO fuel k
        (CyclicTagSystem.mk (CyclicTransition.mk T.transitions 0) e)
      = some (k * (2 * σ.symbol_list.length),
          CyclicTagSystem.mk (CyclicTransition.mk T.transitions 0) e') := by
  intro k
  induction k with
  | zero =>
    intro σ σF hrun hneF hkeys hnum hsub hProdSub T hT e he fuel hfuel
    have hσF : σ = σF := by
      rw [show tagRun 0 σ = some σ from rfl] at hrun
      exact (Option.some.injEq _ _).mp hrun
    subst hσF
    exact ⟨e, he, hT, rfl, hnum, hsub, by rw [Nat.zero_mul]; rfl⟩
  | succ k ih =>
    intro σ σF hrun hneF hkeys hnum hsub hProdSub T hT e he fuel hfuel
    rw [tagRun_succ] at hrun
    cases hs : σ.stepO with
    | none =>
      rw [hs] at hrun
      exact absurd hrun (by simp)
    | some σ1 =>
      rw [hs] at hrun
      dsimp only at hrun
      have hA : 0 < σ.symbol_list.length := by
        obtain ⟨_, _, x, rest, P, htp, hP, _⟩ := stepO_fields hs
        exact List.length_pos.mpr (List.ne_nil_of_mem
          (hsub x (by rw [htp]; exact List.mem_cons_self _ _)))
      obtain ⟨htr1, hnm1, _⟩ := stepO_fields hs
      have hne1 : σ1.tape ≠ [] := by
        rcases Nat.eq_zero_or_pos k with hk0 | hkpos
        · subst hk0
          have : σ1 = σF := by
            rw [show tagRun 0 σ1 = some σ1 from rfl] at hrun
            exact (Option.some.injEq _ _).mp hrun
          rw [this]
          exact hneF
        · rcases k with _ | k'
          · omega
          · rw [tagRun_succ] at hrun
            cases hs1 : σ1.stepO with
            | none =>
              rw [hs1] at hrun
              exact absurd hrun (by simp)
            | some σ2 =>
              obtain ⟨_, _, x, rest, P, htp1, _, _⟩ := stepO_fields hs1
              rw [htp1]
              intro hc
              exact nomatch hc
      obtain ⟨e0, e1, he0, he1, hlen, hrev⟩ :=
        cyc_round hkeys hnum hs hsub hProdSub hne1 hT
      have hee : e0 = e := by
        rw [he] at he0
        exact ((Option.some.injEq _ _).mp he0).symm
      subst hee
      have hsu := stepUntil_cyc_round hA hlen hrev fuel hfuel
      -- the recursive rounds from σ1
      have hkeys1 : (σ1.transition.map Prod.fst).Nodup := by
        rw [htr1]
        exact hkeys
      have hnum1 : σ1.num = 2 := by rw [hnm1, hnum]
      have hsub1 : ∀ y ∈ σ1.tape, y ∈ σ1.symbol_list := by
        obtain ⟨_, _, x, rest, P, htp, hP, htp'⟩ := stepO_fields hs
        intro y hy
        rw [htp'] at hy
        rw [symbol_list_congr σ σ1 htr1]
        have hy2 := List.mem_of_mem_drop hy
        rcases List.mem_append.mp hy2 with h2 | h2
        · rcases List.mem_cons.mp h2 with h3 | h3
          · rw [h3]
            exact hsub x (by rw [htp]; exact List.mem_cons_self _ _)
          · exact hsub y (by rw [htp]; exact List.mem_cons_of_mem _ h3)
        · exact hProdSub (x, P) (alookup_mem hP) y h2
      have hProdSub1 : ∀ kv ∈ σ1.transition, ∀ y ∈ kv.2, y ∈ σ1.symbol_list := by
        rw [htr1, symbol_list_congr σ σ1 htr1]
        exact hProdSub
      have hT1 : tag_system_to_cyclic_transitions σ1 2 = some T := by
        rw [ttc_congr σ σ1 htr1]
        exact hT
      obtain ⟨e', he', hTF, htrF, hnumF, hsubF, hN⟩ :=
        ih σ1 σF hrun hneF hkeys1 hnum1 hsub1 hProdSub1 T hT1 e1 he1 fuel
          (by rw [symbol_list_congr σ σ1 htr1]; exact hfuel)
      refine ⟨e', he', hTF, by rw [htrF, htr1], hnumF, hsubF, ?_⟩
      rw [stepUntilN_succ, hsu]
      dsimp only
      rw [hN]
      dsimp only
      rw [symbol_list_congr σ σ1 htr1]
      congr 2
      ring

theorem alookup_isSome_of_mem {α β : Type} [DecidableEq α] :
    ∀ (d : List (α × β)) (k : α), k ∈ d.map Prod.fst →
    (alookup d k).isSome = true := by
  intro d
  induction d with
  | nil =>
    intro k h
    exact absurd h (by simp)
  | cons kv rest ih =>
    intro k h
    obtain ⟨a, b⟩ := kv
    show (if a = k then some b else alookup rest k).isSome = true
    by_cases hk : a = k
    · rw [if_pos hk]
      rfl
    · rw [if_neg hk]
      rcases List.mem_map.mp h with ⟨kv2, hkv2, hfst⟩
      rcases List.mem_cons.mp hkv2 with h1 | h1
      · exact absurd (by rw [h1] at hfst; exact hfst) hk
      · exact ih k (List.mem_map.mpr ⟨kv2, h1, hfst⟩)

theorem mapM_isSome {β γ : Type} (g : β → Option γ) :
    ∀ (l : List β), (∀ a ∈ l, (g a).isSome = true) →
    ∃ w, l.mapM g = some w := by
  intro l
  induction l with
  | nil => exact fun _ => ⟨[], rfl⟩
  | cons a rest ih =>
    intro h
    obtain ⟨w, hw⟩ := ih (fun b hb => h b (List.mem_cons_of_mem _ hb))
    have ha := h a (List.mem_cons_self _ _)
    cases hga : g a with
    | none =>
      rw [hga] at ha
      exact absurd ha (by simp)
    | some c =>
      refine ⟨c :: w, ?_⟩
      rw [List.mapM_cons, hga, hw]
      rfl

/-- The cyclic-transition construction succeeds on any tag system with
`Nodup` keys whose productions stay inside the alphabet. -/
theorem ttc_some {α : Type} [DecidableEq α] (σ : TagSystem α)
    (hkeys : (σ.transition.map Prod.fst).Nodup)
    (hProdSub : ∀ kv ∈ σ.transition, ∀ y ∈ kv.2, y ∈ σ.symbol_list) :
    ∃ T, tag_system_to_cyclic_transitions σ 2 = some T ∧ T.point = 0 ∧
      T.transitions.length = 2 * σ.symbol_list.length := by
  have hEach : ∀ kv ∈ tag_system_to_cyclic_tags_dict σ,
      ((match alookup σ.transition kv.1 with
        | none => none
        | some prod => encSyms (tag_system_to_cyclic_tags_dict σ) prod)).isSome
        = true := by
    intro kv hkv
    have hk1 : kv.1 ∈ σ.symbol_list := by
      rw [← td_keys σ]
      exact List.mem_map.mpr ⟨kv, hkv, rfl⟩
    have hsome := alookup_isSome_of_mem σ.transition kv.1 hk1
    cases hlk : alookup σ.transition kv.1 with
    | none =>
      rw [hlk] at hsome
      exact absurd hsome (by simp)
    | some prod =>
      dsimp only
      have hsub : ∀ y ∈ prod, y ∈ σ.symbol_list :=
        fun y hy => hProdSub (kv.1, prod) (alookup_mem hlk) y hy
      rw [encSyms_eq _ (symHot σ) prod
        (fun y hy => (symHot_spec hkeys (hsub y hy)).1)]
      rfl
  obtain ⟨slots, hms⟩ := mapM_isSome _ _ hEach
  obtain ⟨hslen, _⟩ := mapM_sound _ _ _ hms
  refine ⟨CyclicTransition.ofList (slots
    ++ List.replicate ((tag_system_to_cyclic_tags_dict σ).length * (2 - 1)) []),
    ?_, rfl, ?_⟩
  · unfold tag_system_to_cyclic_transitions
    dsimp only
    rw [hms]
  · show (slots ++ _).length = _
    rw [List.length_append, List.length_replicate, hslen, td_length]
    omega

/-- The full encoding to a cyclic machine succeeds, with pointer 0. -/
theorem tcm_some {α : Type} [DecidableEq α] (σ : TagSystem α)
    (hkeys : (σ.transition.map Prod.fst).Nodup)
    (hProdSub : ∀ kv ∈ σ.transition, ∀ y ∈ kv.2, y ∈ σ.symbol_list)
    (hsub : ∀ y ∈ σ.tape, y ∈ σ.symbol_list) :
    ∃ (T : CyclicTransition) (e : List CyclicSymbol),
      tag_system_to_cyclic_transitions σ 2 = some T ∧
      tag_system_to_cyclic_tape σ = some e ∧
      T.point = 0 ∧
      T.transitions.length = 2 * σ.symbol_list.length ∧
      tag_system_to_cyclic_machine σ
        = some (CyclicTagSystem.mk (CyclicTransition.mk T.transitions 0) e) := by
  obtain ⟨T, hT, hpt, hlen⟩ := ttc_some σ hkeys hProdSub
  have he : tag_system_to_cyclic_tape σ
      = some ((σ.tape.map (symHot σ)).flatten) := by
    unfold tag_system_to_cyclic_tape
    exact encSyms_eq _ (symHot σ) σ.tape
      (fun y hy => (symHot_spec hkeys (hsub y hy)).1)
  refine ⟨T, _, hT, he, hpt, hlen, ?_⟩
  unfold tag_system_to_cyclic_machine
  rw [hT, he]
  have hTeta : T = CyclicTransition.mk T.transitions 0 := by
    cases T with
    | mk tr pt =>
      dsimp only at hpt
      rw [hpt]
  rw [← hTeta]

theorem turingTupleTagTape_ne_nil (ts : TuringTapeTuple) :
    turingTupleTagTape ts ≠ [] := by
  obtain ⟨k, L, R, h⟩ := ts
  cases h with
  | ZERO =>
    rw [turingTupleTagTape_eq_zero]
    intro hc
    exact nomatch hc
  | ONE =>
    rw [turingTupleTagTape_eq_one]
    intro hc
    exact nomatch hc

/-- The invariant carried along the two-level Nester run. -/
def NesterInv (n : Nester2) : Prop :=
  tableWF n.base.table ∧
  (lookupState n.base.table n.base.state).isSome = true ∧
  n.base.tape.valid ∧
  n.tag = turing_machine_to_tag_system n.base ∧
  tag_system_to_cyclic_machine n.tag = some n.cyc

theorem tupleStep_state (t : TuringTransition) (ts : TuringTapeTuple) :
    (tupleStep t ts).state = t.next_state := by
  rcases t with ⟨w, mv, ns⟩
  cases mv <;> rfl

/-- `Nester.generate()` succeeds on a well-formed machine and establishes
the invariant. -/
theorem nester_generate {m : BinaryTuring} (hWF : tableWF m.table)
    (hstate : (lookupState m.table m.state).isSome = true)
    (hvalid : m.tape.valid) :
    ∃ n0, Nester2.generateO m = some n0 ∧ NesterInv n0 := by
  cases hlk : lookupState m.table m.state with
  | none =>
    rw [hlk] at hstate
    exact absurd hstate (by simp)
  | some st =>
  have hkeys : ((turing_machine_to_tag_system m).transition.map Prod.fst).Nodup :=
    TT_keys_nodup hWF.1
  have hProdSub : ∀ kv ∈ (turing_machine_to_tag_system m).transition,
      ∀ y ∈ kv.2, y ∈ (turing_machine_to_tag_system m).symbol_list :=
    TT_prod_closed hWF
  have hsub : ∀ y ∈ (turing_machine_to_tag_system m).tape,
      y ∈ (turing_machine_to_tag_system m).symbol_list :=
    turingTupleTagTape_closed hlk m.tape.left_number m.tape.right_number
      m.tape.head_symbol
  obtain ⟨T, e, hT, he, hpt, hlen, htcm⟩ :=
    tcm_some (turing_machine_to_tag_system m) hkeys hProdSub hsub
  refine ⟨⟨m, turing_machine_to_tag_system m,
    CyclicTagSystem.mk (CyclicTransition.mk T.transitions 0) e⟩, ?_, ?_⟩
  · unfold Nester2.generateO
    rw [htcm]
  · exact ⟨hWF, hstate, hvalid, rfl, htcm⟩

/-- One `advance()` of the two-level pipeline: exactly 1 base step, some
`c₁ ≥ 1` tag steps, and `c₁ · 2A` cyclic steps (A the tag alphabet size),
preserving the invariant. -/
theorem nester_next {n : Nester2} (hInv : NesterInv n) :
    ∃ (fuel0 c1 : Nat) (n' : Nester2), 1 ≤ c1 ∧
      NesterInv n' ∧
      ∀ fuel, fuel0 ≤ fuel →
        Nester2.nextO fuel n = some (n', 1, c1,
          c1 * (2 * (turing_table_to_tag_transition n.base.table).length)) := by
  obtain ⟨hWF, hstate, hvalid, htag, hcyc⟩ := hInv
  cases hlk : lookupState n.base.table n.base.state with
  | none =>
    rw [hlk] at hstate
    exact absurd hstate (by simp)
  | some st =>
  have hbEx : ∃ m', n.base.stepO = some m' := by
    unfold BinaryTuring.stepO
    rw [hlk]
    exact ⟨_, rfl⟩
  obtain ⟨m', hb⟩ := hbEx
  obtain ⟨htbl', hvalid', htup⟩ := machine_step_tuple hvalid hb
  unfold tupleStepO at htup
  rw [show n.base.tape_tuple.state = n.base.state from rfl, hlk] at htup
  dsimp only at htup
  set tr := if n.base.tape_tuple.head = TuringSymbol.ZERO then st.transitions.1
            else st.transitions.2 with htr
  have htupEq : m'.tape_tuple = tupleStep tr n.base.tape_tuple :=
    ((Option.some.injEq _ _).mp htup).symm
  have htrMem : tr = st.transitions.1 ∨ tr = st.transitions.2 := by
    rw [htr]
    by_cases hz : n.base.tape_tuple.head = TuringSymbol.ZERO
    · rw [if_pos hz]
      exact Or.inl rfl
    · rw [if_neg hz]
      exact Or.inr rfl
  have hnextSome : (lookupState n.base.table tr.next_state).isSome = true := by
    rcases htrMem with h | h <;> rw [h]
    · exact (hWF.2 st (lookupState_mem hlk)).1
    · exact (hWF.2 st (lookupState_mem hlk)).2
  cases hlk' : lookupState n.base.table tr.next_state with
  | none =>
    rw [hlk'] at hnextSome
    exact absurd hnextSome (by simp)
  | some st' =>
  have hlk2 : lookupState n.base.table
      (if n.base.tape.head_symbol = TuringSymbol.ZERO then st.transitions.1
       else st.transitions.2).next_state = some st' := by
    rw [show (if n.base.tape.head_symbol = TuringSymbol.ZERO
        then st.transitions.1 else st.transitions.2) = tr from by
      rw [htr]
      rfl]
    exact hlk'
  obtain ⟨c1, hc1, hrunFF⟩ := runFF_sim hlk n.base.tape.left_number
    n.base.tape.right_number n.base.tape.head_symbol hlk2
  have hstart : n.tag = TagSystem.mk
      (turing_table_to_tag_transition n.base.table) 2
      (turingTupleTagTape ⟨n.base.state, n.base.tape.left_number,
        n.base.tape.right_number, n.base.tape.head_symbol⟩) := by
    rw [htag]
    rfl
  have hfinal : TagSystem.mk (turing_table_to_tag_transition n.base.table) 2
      (turingTupleTagTape (tupleStep
        (if n.base.tape.head_symbol = TuringSymbol.ZERO then st.transitions.1
         else st.transitions.2)
        ⟨n.base.state, n.base.tape.left_number, n.base.tape.right_number,
         n.base.tape.head_symbol⟩))
      = turing_machine_to_tag_system m' := by
    unfold turing_machine_to_tag_system turing_machine_to_tag_tape
    rw [htbl', htupEq, htr]
    rfl
  have hrun1 : iterO TagSystem.stepO c1 n.tag
      = some (turing_machine_to_tag_system m') := by
    rw [hstart, ← tagRun_eq_iter, ← hfinal]
    exact hrunFF.1
  have hmids : ∀ j, 0 < j → j < c1 →
      ∃ sj, iterO TagSystem.stepO j n.tag = some sj ∧
        is_step_passed sj = false := by
    intro j h1 h2
    obtain ⟨sj, hj, hf⟩ := hrunFF.2 j h1 h2
    refine ⟨sj, ?_, hf⟩
    rw [hstart, ← tagRun_eq_iter]
    exact hj
  have hpass : is_step_passed (turing_machine_to_tag_system m') = true := by
    show (turing_machine_to_tag_system m').tape.all TagSym.hasDigit = true
    exact turingTupleTagTape_all m'.tape_tuple
  have hstepU : ∀ fuel, c1 ≤ fuel →
      stepUntil is_step_passed TagSystem.stepO fuel n.tag
        = some (c1, turing_machine_to_tag_system m') :=
    fun fuel hf => stepUntil_of_iter _ _ c1 hc1 fuel _ _ hrun1 hmids hf hpass
  -- the cyclic level
  have hkeysT : (n.tag.transition.map Prod.fst).Nodup := by
    rw [htag]
    exact TT_keys_nodup hWF.1
  have hProdSubT : ∀ kv ∈ n.tag.transition, ∀ y ∈ kv.2, y ∈ n.tag.symbol_list := by
    rw [htag]
    exact TT_prod_closed hWF
  have hnumT : n.tag.num = 2 := by
    rw [htag]
    rfl
  have hsubT : ∀ y ∈ n.tag.tape, y ∈ n.tag.symbol_list := by
    rw [htag]
    exact turingTupleTagTape_closed hlk _ _ _
  obtain ⟨T, e, hT, he, hptT, hlenT, htcm⟩ := tcm_some n.tag hkeysT hProdSubT hsubT
  have hcycEq : n.cyc = CyclicTagSystem.mk (CyclicTransition.mk T.transitions 0) e := by
    rw [hcyc] at htcm
    exact (Option.some.injEq _ _).mp htcm
  have htagRun : tagRun c1 n.tag = some (turing_machine_to_tag_system m') := by
    rw [tagRun_eq_iter]
    exact hrun1
  have hneF : (turing_machine_to_tag_system m').tape ≠ [] :=
    turingTupleTagTape_ne_nil m'.tape_tuple
  have hrounds := fun fuel hf => cyc_rounds c1 n.tag
    (turing_machine_to_tag_system m') htagRun hneF hkeysT hnumT hsubT hProdSubT
    T hT e he fuel hf
  obtain ⟨e', he', hTF, htrF, hnumF, hsubF, hN⟩ :=
    hrounds (c1 + 2 * n.tag.symbol_list.length) (by omega)
  have hNall : ∀ fuel, 2 * n.tag.symbol_list.length ≤ fuel →
      stepUntilN is_tag_step_passed CyclicTagSystem.stepO fuel c1
        (CyclicTagSystem.mk (CyclicTransition.mk T.transitions 0) e)
      = some (c1 * (2 * n.tag.symbol_list.length),
          CyclicTagSystem.mk (CyclicTransition.mk T.transitions 0) e') := by
    intro fuel hf
    obtain ⟨e2, he2, _, _, _, _, hN2⟩ := hrounds fuel hf
    have hee : e2 = e' := by
      rw [he'] at he2
      exact ((Option.some.injEq _ _).mp he2).symm
    rw [← hee]
    exact hN2
  have hcyc' : tag_system_to_cyclic_machine (turing_machine_to_tag_system m')
      = some (CyclicTagSystem.mk (CyclicTransition.mk T.transitions 0) e') := by
    unfold tag_system_to_cyclic_machine
    rw [hTF, he']
    have hTeta : T = CyclicTransition.mk T.transitions 0 := by
      cases T with
      | mk trs pt =>
        dsimp only at hptT
        rw [hptT]
    rw [← hTeta]
  have hstate' : (lookupState m'.table m'.state).isSome = true := by
    have hst' : m'.state = tr.next_state := by
      have h1 : m'.tape_tuple.state = tr.next_state := by
        rw [htupEq]
        exact tupleStep_state tr _
      exact h1
    rw [htbl', hst', hlk']
    rfl
  have hAlen : n.tag.symbol_list.length
      = (turing_table_to_tag_transition n.base.table).length := by
    rw [htag]
    exact List.length_map _ _
  have hInv' : NesterInv ⟨m', turing_machine_to_tag_system m',
      CyclicTagSystem.mk (CyclicTransition.mk T.transitions 0) e'⟩ := by
    refine ⟨?_, ?_, ?_, ?_, ?_⟩
    · show tableWF m'.table
      rw [htbl']
      exact hWF
    · exact hstate'
    · exact hvalid'
    · rfl
    · exact hcyc'
  refine ⟨c1 + 2 * n.tag.symbol_list.length, c1,
    ⟨m', turing_machine_to_tag_system m',
      CyclicTagSystem.mk (CyclicTransition.mk T.transitions 0) e'⟩,
    hc1, hInv', ?_⟩
  intro fuel hfuel
  unfold Nester2.nextO
  rw [hb]
  dsimp only
  have h1N : stepUntilN is_step_passed TagSystem.stepO fuel 1 n.tag
      = some (c1 + 0, turing_machine_to_tag_system m') := by
    rw [stepUntilN_succ, hstepU fuel (by omega)]
    rfl
  rw [h1N]
  dsimp only
  rw [hcycEq]
  rw [show 1 * (c1 + 0) = c1 from by omega]
  rw [hNall fuel (by omega)]
  dsimp only
  rw [hAlen]
  rfl

theorem dictBeq_refl {α β : Type} [DecidableEq α] [DecidableEq β]
    {d : List (α × β)} (hnd : (d.map Prod.fst).Nodup) : dictBeq d d = true := by
  unfold dictBeq
  rw [Bool.and_eq_true]
  constructor <;>
    · rw [List.all_eq_true]
      intro kv hkv
      obtain ⟨a, b⟩ := kv
      exact decide_eq_true (alookup_of_mem_nodup hnd hkv)

/-- Under the invariant, `Nester.compare()` re-derives each level from the
previous one and finds structural equality at both levels. -/
theorem nester_compare {n : Nester2} (hInv : NesterInv n) :
    Nester2.compareO n = some [true, true] := by
  obtain ⟨hWF, hstate, hvalid, htag, hcyc⟩ := hInv
  unfold Nester2.compareO
  rw [hcyc]
  dsimp only
  have h1 : tagSystemBeq n.tag (turing_machine_to_tag_system n.base) = true := by
    rw [htag]
    unfold tagSystemBeq
    have hnd : ((turing_machine_to_tag_system n.base).transition.map
        Prod.fst).Nodup := TT_keys_nodup hWF.1
    rw [dictBeq_refl hnd]
    simp
  have h2 : cyclicBeq n.cyc n.cyc = true := by
    unfold cyclicBeq
    simp
  rw [h1, h2]

/-- Iterated `advance()`: `N` consecutive `Nester.__next__` calls (each call's
returned counts are discarded; only the advanced pipeline is kept). -/
def nesterIter (fuel : Nat) : Nat → Nester2 → Option Nester2
  | 0, n => some n
  | k + 1, n =>
    match Nester2.nextO fuel n with
    | none => none
    | some (n', _) => nesterIter fuel k n'

theorem nesterIter_succ (fuel k : Nat) (n : Nester2) :
    nesterIter fuel (k + 1) n
      = match Nester2.nextO fuel n with
        | none => none
        | some (n', _) => nesterIter fuel k n' := rfl

theorem nesterIter_inv : ∀ (N : Nat) {n : Nester2}, NesterInv n →
    ∃ F n', NesterInv n' ∧ ∀ fuel, F ≤ fuel → nesterIter fuel N n = some n' := by
  intro N
  induction N with
  | zero =>
    intro n hInv
    exact ⟨0, n, hInv, fun fuel _ => rfl⟩
  | succ k ih =>
    intro n hInv
    obtain ⟨f0, c1, n1, hc1, hInv1, hnext⟩ := nester_next hInv
    obtain ⟨F, n', hInv', hiter⟩ := ih hInv1
    refine ⟨f0 + F, n', hInv', ?_⟩
    intro fuel hfuel
    rw [nesterIter_succ, hnext fuel (by omega)]
    exact hiter fuel (by omega)

instance (tbl : List TuringStateTransition) : Decidable (tableWF tbl) := by
  unfold tableWF
  infer_instance

instance (t : BinaryTuringTape) : Decidable t.valid := by
  unfold BinaryTuringTape.valid
  infer_instance

instance (n : Nester2) : Decidable (NesterInv n) := by
  unfold NesterInv
  infer_instance

/-- The example machine of `assemble_to_turing.__main__`, shrunk to the tape
tuple `(0, 0, 0, ONE)` so that the well-formedness side conditions evaluate
by reduction. -/
def mW : BinaryTuring :=
  ⟨[⟨0, (⟨TuringSymbol.ONE, TuringDirection.RIGHT, 0⟩,
         ⟨TuringSymbol.ZERO, TuringDirection.RIGHT, 0⟩)⟩],
   BinaryTuringTape.from_tape_tuple ⟨0, 0, 0, TuringSymbol.ONE⟩, 0⟩

/-- C1: for the full Turing→Tag→Cyclic pipeline, after `generate()` and any
number `N` of `advance()` calls on a well-formed starting table and
configuration, `compare()` returns all-true: each level's incrementally
stepped instance is structurally equal to freshly re-applying its transform
to the previous level's current state. -/
theorem nester_pipeline_compare_all_true {m : BinaryTuring}
    (hWF : tableWF m.table)
    (hstate : (lookupState m.table m.state).isSome = true)
    (hvalid : m.tape.valid) (N : Nat) :
    ∃ n0 F n', Nester2.generateO m = some n0 ∧
      (∀ fuel, F ≤ fuel → nesterIter fuel N n0 = some n') ∧
      Nester2.compareO n' = some [true, true] := by
  obtain ⟨n0, hgen, hInv0⟩ := nester_generate hWF hstate hvalid
  obtain ⟨F, n', hInv', hiter⟩ := nesterIter_inv N hInv0
  exact ⟨n0, F, n', hgen, hiter, nester_compare hInv'⟩

theorem nester_pipeline_compare_all_true_witness :
    (tableWF mW.table ∧ (lookupState mW.table mW.state).isSome = true ∧
      mW.tape.valid) ∧
    ∃ n0 F n', Nester2.generateO mW = some n0 ∧
      (∀ fuel, F ≤ fuel → nesterIter fuel 1 n0 = some n') ∧
      Nester2.compareO n' = some [true, true] :=
  ⟨⟨by decide, by decide, by decide⟩,
   nester_pipeline_compare_all_true (by decide) (by decide) (by decide) 1⟩

/-- A registered level of `Nester` in miniature: an elementary step function
and the settling predicate (`conditions[i]`) for the do-while loop of
`Nester.__next__`. -/
structure ToyLevel where
  stepf : Nat → Nat
  pred : Nat → Bool

/-- The level loop of `Nester.__next__` (lines 49–57): for each registered
level, run `math.prod(prev_count)` do-while rounds of that level's step,
counting elementary steps; the running product of all counts so far is
threaded through as `prod`. -/
def toyNextAux (fuel : Nat) : List (ToyLevel × Nat) → Nat →
    Option (List (ToyLevel × Nat) × List Nat)
  | [], _ => some ([], [])
  | (lv, s) :: rest, prod =>
    match stepUntilN lv.pred (fun x => some (lv.stepf x)) fuel prod s with
    | none => none
    | some (c, s') =>
      match toyNextAux fuel rest (prod * c) with
      | none => none
      | some (rest', counts) => some ((lv, s') :: rest', c :: counts)

/-- `Nester.__next__` in miniature: one base step, then the level loop with
`prev_count` starting at `[1]`; returns the advanced states and the
`prev_count` list. -/
def toyNext (fuel : Nat) (bstep : Nat → Nat) (bs : Nat)
    (levels : List (ToyLevel × Nat)) :
    Option (Nat × List (ToyLevel × Nat) × List Nat) :=
  match toyNextAux fuel levels 1 with
  | none => none
  | some (levels', counts) => some (bstep bs, levels', 1 :: counts)

/-- Three registered levels over a `+1` base, all starting at 0, settling on
divisibility by 2, 3 and 5 respectively: one predicate cycle intrinsically
takes 2, 3 and 5 steps at levels 1, 2 and 3. -/
def toyLevels : List (ToyLevel × Nat) :=
  [(⟨fun x => x + 1, fun x => decide (x % 2 = 0)⟩, 0),
   (⟨fun x => x + 1, fun x => decide (x % 3 = 0)⟩, 0),
   (⟨fun x => x + 1, fun x => decide (x % 5 = 0)⟩, 0)]

/-- C2: counterexample to the compounding rule for three registered levels.
`Nester.__next__` runs `math.prod(prev_count)` rounds at each level — the
product of ALL previous levels' counts, not just the previous level's count.
On the divisibility pipeline the returned `prev_count` is `[1, 2, 6, 60]`:
level 3 performs `1·2·6 = 12` predicate cycles of 5 steps each, i.e. 60
steps, whereas the claim's rule "steps at level k+1 = steps at level k ×
steps-per-predicate-cycle at level k+1" predicts `6 × 5 = 30`. -/
theorem nester_compounding_counterexample :
    Option.map (fun r => r.2.2)
        (toyNext 64 (fun x => x + 1) 0 toyLevels) = some [1, 2, 6, 60] ∧
    stepUntil (fun x => decide (x % 5 = 0)) (fun x => some (x + 1)) 64 0
      = some (5, 5) ∧
    (60 : Nat) ≠ 6 * 5 := by
  refine ⟨by decide, by decide, by decide⟩

/-- The generated two-level pipeline on `mW`, for concrete evaluation. -/
def nW : Nester2 :=
  ⟨mW, turing_machine_to_tag_system mW,
   (tag_system_to_cyclic_machine (turing_machine_to_tag_system mW)).getD
     ⟨⟨[], 0⟩, []⟩⟩

/-- C2 (amended): for the two-level Turing→Tag→Cyclic pipeline under the
pipeline invariant, one `advance()` performs exactly 1 base step, `c₁ ≥ 1`
tag steps (one tag predicate cycle), and `c₁ × c₂` cyclic steps where
`c₂ = 2A` is the cyclic steps-per-predicate-cycle (one revolution of the
`2A`-slot cyclic transition list), and returns those counts.  The general
compounding rule of the claim fails beyond two levels (see the
three-level counterexample): `Nester.__next__` multiplies ALL previous
counts, not just the previous level's. -/
theorem nester_advance_step_counts {n : Nester2} (hInv : NesterInv n) :
    ∃ fuel0 c1 n', 1 ≤ c1 ∧ ∀ fuel, fuel0 ≤ fuel →
      Nester2.nextO fuel n = some (n', 1, c1,
        c1 * (2 * (turing_table_to_tag_transition n.base.table).length)) := by
  obtain ⟨fuel0, c1, n', hc1, _, h⟩ := nester_next hInv
  exact ⟨fuel0, c1, n', hc1, h⟩

theorem nester_advance_step_counts_witness :
    NesterInv nW ∧
    ∃ fuel0 c1 n', 1 ≤ c1 ∧ ∀ fuel, fuel0 ≤ fuel →
      Nester2.nextO fuel nW = some (n', 1, c1,
        c1 * (2 * (turing_table_to_tag_transition nW.base.table).length)) :=
  ⟨by decide, nester_advance_step_counts (by decide)⟩
